import Mathlib

/-!
# ezy: lazy range views and their iterators

A shallow embedding of `include/ezy/range.h` and `include/ezy/algorithm.h`.

* A C++ iterator type is a Lean type `ι` with an `Iterator ι β` instance giving
  `operator*`, `operator++`, `operator==` and `operator!=`.
* A C++ range type is a Lean type `ρ` with a `Sequence ρ ι` instance giving
  `begin()` and `end()`.
* Every operation runs in `Except Fault`: a run stops with a `Fault` where the
  C++ program would have undefined behaviour (dereferencing or incrementing a
  past-the-end position), where it throws, or where a loop of the model has
  used up its iteration bound `fuel`.
* `std::vector<T>` is `List T`; its iterator is the vector together with an
  offset from `begin()`.
-/

namespace ezy

/-! ## Runs and the iterator / range protocols -/

/-- Reasons for which a run of the embedded code stops without a value. -/
inductive Fault where
  /-- undefined behaviour: `*it` on a position that holds no element -/
  | deref_end
  /-- undefined behaviour: `++it` on a position that is not before the end -/
  | advance_end
  /-- the exception `std::logic_error` -/
  | logic_error
  /-- a loop ran for more iterations than the bound given to the run -/
  | out_of_fuel
  deriving DecidableEq, Repr

/-- The operations of a C++ iterator type `ι` whose `operator*` yields a `β`.
Each operation receives the iteration bound `fuel` for the loops it runs. -/
class Iterator (ι : Type) (β : outParam Type) where
  /-- the call `*it` -/
  deref : Nat → ι → Except Fault β
  /-- the call `++it` -/
  next : Nat → ι → Except Fault ι
  /-- the call `lhs == rhs` -/
  eq : Nat → ι → ι → Except Fault Bool
  /-- the call `lhs != rhs` -/
  ne : Nat → ι → ι → Except Fault Bool

/-- The operations of a C++ range type `ρ` with iterator type `ι`. -/
class Sequence (ρ : Type) (ι : outParam Type) where
  /-- the call `range.begin()` -/
  begin : Nat → ρ → Except Fault ι
  /-- the call `range.end()` -/
  end_ : Nat → ρ → Except Fault ι

/-! ## `std::vector` -/

/-- An iterator of a `std::vector<α>`: the vector it points into and its
offset from `begin()`. -/
structure vector_iterator (α : Type) where
  data : List α
  pos : Nat
  deriving Repr

namespace vector_iterator

variable {α : Type}

instance : Inhabited (vector_iterator α) := ⟨⟨[], 0⟩⟩

/-- Dereference `*it`: defined only for a position that holds an element. -/
def deref (it : vector_iterator α) : Except Fault α :=
  match it.data[it.pos]? with
  | some v => .ok v
  | none => .error .deref_end

/-- Increment `++it`: defined only for a position before the end. -/
def next (it : vector_iterator α) : Except Fault (vector_iterator α) :=
  if it.pos < it.data.length then .ok ⟨it.data, it.pos + 1⟩ else .error .advance_end

/-- Comparison `lhs == rhs` for two iterators of one vector. -/
def eq (lhs rhs : vector_iterator α) : Bool := lhs.pos == rhs.pos

/-- Comparison `lhs != rhs` for two iterators of one vector. -/
def ne (lhs rhs : vector_iterator α) : Bool := lhs.pos != rhs.pos

end vector_iterator

instance instIteratorVector {α : Type} : Iterator (vector_iterator α) α where
  deref _ it := it.deref
  next _ it := it.next
  eq _ lhs rhs := .ok (lhs.eq rhs)
  ne _ lhs rhs := .ok (lhs.ne rhs)

instance instSequenceVector {α : Type} : Sequence (List α) (vector_iterator α) where
  begin _ xs := .ok ⟨xs, 0⟩
  end_ _ xs := .ok ⟨xs, xs.length⟩

/-! ## Standard algorithms used by the library -/

section std

variable {ι β : Type} [Iterator ι β]

/-- The range-based `for` loop `for (auto it = first; it != last; ++it) out.push_back(*it);`,
which is how a range is traversed (`range_to_stream` in the tests). -/
def traverse (fuel : Nat) : Nat → ι → ι → Except Fault (List β)
  | 0, _, _ => .error .out_of_fuel
  | n + 1, it, last => do
    if ← Iterator.ne fuel it last then
      let v ← Iterator.deref fuel it
      let it ← Iterator.next fuel it
      let rest ← traverse fuel n it last
      pure (v :: rest)
    else
      pure []

/-- Standard algorithm `std::next(it, n)`: `n` increments. -/
def std_next (fuel : Nat) (it : ι) : Nat → Except Fault ι
  | 0 => .ok it
  | n + 1 => do
    let it ← Iterator.next fuel it
    std_next fuel it n

/-- Standard algorithm `std::distance(first, last)`: the number of increments from `first` to `last`. -/
def std_distance (fuel : Nat) : Nat → ι → ι → Except Fault Nat
  | 0, _, _ => .error .out_of_fuel
  | n + 1, first, last => do
    if ← Iterator.ne fuel first last then
      let first ← Iterator.next fuel first
      let d ← std_distance fuel n first last
      pure (d + 1)
    else
      pure 0

/-- Standard algorithm `std::find(first, last, value)`: the first position in `[first, last)` whose
element compares equal to `value` under `operator==` (here `equal`), else `last`. -/
def std_find {ν : Type} (equal : β → ν → Bool) (fuel : Nat) :
    Nat → ι → ι → ν → Except Fault ι
  | 0, _, _, _ => .error .out_of_fuel
  | n + 1, first, last, value => do
    if ← Iterator.ne fuel first last then
      if equal (← Iterator.deref fuel first) value then
        pure first
      else
        let first ← Iterator.next fuel first
        std_find equal fuel n first last value
    else
      pure last

end std

/-! ## Ownership keeper -/

/-- Modelled from the spec: `ezy::experimental::basic_keeper` (header
`experimental/keeper.h`), "stores exactly one of {moved-in value, reference,
shared handle} and exposes a uniform get-the-underlying-Sequence accessor".
The ownership category only decides how the sequence is stored, so the keeper
is the kept sequence. -/
structure basic_keeper (ρ : Type) where
  kept : ρ

/-- The accessor `keeper.get()`. -/
def basic_keeper.get {ρ : Type} (k : basic_keeper ρ) : ρ := k.kept

/-! ## Trackers -/

/-- The struct `range_tracker<Range>`: a reference to one range and the current
position in it. -/
structure range_tracker (ρ ι : Type) where
  ranges : ρ
  current : ι

namespace range_tracker

variable {ρ ι β : Type} [Sequence ρ ι] [Iterator ι β]

/-- Constructor `range_tracker(const Ranges&... ranges)`: positions at `std::begin`. -/
def begin_of (fuel : Nat) (range : ρ) : Except Fault (range_tracker ρ ι) := do
  let it ← Sequence.begin fuel range
  pure ⟨range, it⟩

/-- Constructor `range_tracker(const Ranges&... ranges, end_marker_t&&)`: positions at `std::end`. -/
def end_of (fuel : Nat) (range : ρ) : Except Fault (range_tracker ρ ι) := do
  let it ← Sequence.end_ fuel range
  pure ⟨range, it⟩

/-- The member `get<0>()`: the pair (current position, `end()` of the range). -/
def get (fuel : Nat) (t : range_tracker ρ ι) : Except Fault (ι × ι) := do
  let last ← Sequence.end_ fuel t.ranges
  pure (t.current, last)

/-- The member `set_to<0>(it)`. -/
def set_to (t : range_tracker ρ ι) (it : ι) : range_tracker ρ ι := ⟨t.ranges, it⟩

/-- The member `next<0>()`: `++std::get<0>(current)`. -/
def next (fuel : Nat) (t : range_tracker ρ ι) : Except Fault (range_tracker ρ ι) := do
  let it ← Iterator.next fuel t.current
  pure ⟨t.ranges, it⟩

end range_tracker

/-- The struct `range_tracker<Range1, Range2>`: references to two ranges and the current
position in each. -/
structure range_tracker2 (ρ₁ ρ₂ ι₁ ι₂ : Type) where
  ranges : ρ₁ × ρ₂
  current : ι₁ × ι₂

namespace range_tracker2

variable {ρ₁ ρ₂ ι₁ ι₂ : Type} [Sequence ρ₁ ι₁] [Sequence ρ₂ ι₂]

/-- Constructor `range_tracker(const Ranges&... ranges)`. -/
def begin_of (fuel : Nat) (fr : ρ₁) (sr : ρ₂) : Except Fault (range_tracker2 ρ₁ ρ₂ ι₁ ι₂) := do
  let it₁ ← Sequence.begin fuel fr
  let it₂ ← Sequence.begin fuel sr
  pure ⟨(fr, sr), (it₁, it₂)⟩

/-- Constructor `range_tracker(const Ranges&... ranges, end_marker_t&&)`. -/
def end_of (fuel : Nat) (fr : ρ₁) (sr : ρ₂) : Except Fault (range_tracker2 ρ₁ ρ₂ ι₁ ι₂) := do
  let it₁ ← Sequence.end_ fuel fr
  let it₂ ← Sequence.end_ fuel sr
  pure ⟨(fr, sr), (it₁, it₂)⟩

/-- The member `get<0>()`. -/
def get0 (fuel : Nat) (t : range_tracker2 ρ₁ ρ₂ ι₁ ι₂) : Except Fault (ι₁ × ι₁) := do
  let last ← Sequence.end_ fuel t.ranges.1
  pure (t.current.1, last)

/-- The member `get<1>()`. -/
def get1 (fuel : Nat) (t : range_tracker2 ρ₁ ρ₂ ι₁ ι₂) : Except Fault (ι₂ × ι₂) := do
  let last ← Sequence.end_ fuel t.ranges.2
  pure (t.current.2, last)

end range_tracker2

/-- The struct `iterator_tracker<Iter1, Iter2>`: a tuple of two iterators. -/
structure iterator_tracker (ι₁ ι₂ : Type) where
  iters : ι₁ × ι₂

namespace iterator_tracker

variable {ρ₁ ρ₂ ι₁ ι₂ β₁ β₂ : Type}

/-- The static member `begin_from_ranges`. -/
def begin_from_ranges [Sequence ρ₁ ι₁] [Sequence ρ₂ ι₂] (fuel : Nat) (r₁ : ρ₁) (r₂ : ρ₂) :
    Except Fault (iterator_tracker ι₁ ι₂) := do
  let it₁ ← Sequence.begin fuel r₁
  let it₂ ← Sequence.begin fuel r₂
  pure ⟨(it₁, it₂)⟩

/-- The static member `end_from_ranges`. -/
def end_from_ranges [Sequence ρ₁ ι₁] [Sequence ρ₂ ι₂] (fuel : Nat) (r₁ : ρ₁) (r₂ : ρ₂) :
    Except Fault (iterator_tracker ι₁ ι₂) := do
  let it₁ ← Sequence.end_ fuel r₁
  let it₂ ← Sequence.end_ fuel r₂
  pure ⟨(it₁, it₂)⟩

/-- The member `next_all()`: `++it` on every iterator of the tuple, in order. -/
def next_all [Iterator ι₁ β₁] [Iterator ι₂ β₂] (fuel : Nat) (t : iterator_tracker ι₁ ι₂) :
    Except Fault (iterator_tracker ι₁ ι₂) := do
  let it₁ ← Iterator.next fuel t.iters.1
  let it₂ ← Iterator.next fuel t.iters.2
  pure ⟨(it₁, it₂)⟩

end iterator_tracker

/-- All elements of a range, from `begin()` to `end()`, as a range-based `for` sees them. -/
def elements {ρ ι β : Type} [Sequence ρ ι] [Iterator ι β] (fuel : Nat) (range : ρ) :
    Except Fault (List β) := do
  let first ← Sequence.begin fuel range
  let last ← Sequence.end_ fuel range
  traverse fuel fuel first last

/-! ## Iterator adaptors -/

/-- The struct `basic_iterator_adaptor<orig_type>`. -/
structure basic_iterator_adaptor (ι : Type) where
  orig : ι

namespace basic_iterator_adaptor

variable {ι β : Type} [Iterator ι β]

/-- Member `operator++`: `++orig`. -/
def next (fuel : Nat) (it : basic_iterator_adaptor ι) : Except Fault (basic_iterator_adaptor ι) := do
  let o ← Iterator.next fuel it.orig
  pure ⟨o⟩

/-- Member `operator*`: `*orig`. -/
def deref (fuel : Nat) (it : basic_iterator_adaptor ι) : Except Fault β :=
  Iterator.deref fuel it.orig

/-- Member `operator==`: `orig == rhs.orig`. -/
def eq (fuel : Nat) (lhs rhs : basic_iterator_adaptor ι) : Except Fault Bool :=
  Iterator.eq fuel lhs.orig rhs.orig

/-- Member `operator!=`: `orig != rhs.orig`. -/
def ne (fuel : Nat) (lhs rhs : basic_iterator_adaptor ι) : Except Fault Bool :=
  Iterator.ne fuel lhs.orig rhs.orig

end basic_iterator_adaptor

instance instIteratorBasic {ι β : Type} [Iterator ι β] : Iterator (basic_iterator_adaptor ι) β where
  deref := basic_iterator_adaptor.deref
  next := basic_iterator_adaptor.next
  eq := basic_iterator_adaptor.eq
  ne := basic_iterator_adaptor.ne

/-- The struct `iterator_adaptor<orig_type, converter_type>`: the base class member `orig`
and the `converter`. -/
structure iterator_adaptor (ι β γ : Type) where
  orig : ι
  converter : β → γ

namespace iterator_adaptor

variable {ι β γ : Type} [Iterator ι β]

/-- Member `operator++`: `++base::orig`. -/
def next (fuel : Nat) (it : iterator_adaptor ι β γ) : Except Fault (iterator_adaptor ι β γ) := do
  let o ← Iterator.next fuel it.orig
  pure ⟨o, it.converter⟩

/-- Member `operator*`: `converter(*(base::orig))`. -/
def deref (fuel : Nat) (it : iterator_adaptor ι β γ) : Except Fault γ := do
  let v ← Iterator.deref fuel it.orig
  pure (it.converter v)

/-- Member `operator==` of the base class: `orig == rhs.orig`. -/
def eq (fuel : Nat) (lhs rhs : iterator_adaptor ι β γ) : Except Fault Bool :=
  Iterator.eq fuel lhs.orig rhs.orig

/-- Member `operator!=` of the base class: `orig != rhs.orig`. -/
def ne (fuel : Nat) (lhs rhs : iterator_adaptor ι β γ) : Except Fault Bool :=
  Iterator.ne fuel lhs.orig rhs.orig

end iterator_adaptor

instance instIteratorAdaptor {ι β γ : Type} [Iterator ι β] :
    Iterator (iterator_adaptor ι β γ) γ where
  deref := iterator_adaptor.deref
  next := iterator_adaptor.next
  eq := iterator_adaptor.eq
  ne := iterator_adaptor.ne

/-- The struct `iterator_filter<orig_type, predicate_type>`: the base class member `orig`,
the `predicate` and the `end_iterator`. -/
structure iterator_filter (ι β : Type) where
  orig : ι
  predicate : β → Bool
  end_iterator : ι

namespace iterator_filter

variable {ι β : Type} [Iterator ι β]

/-- The loop `for (; base::orig != end_iterator; ++base::orig) if (predicate(*base::orig)) return *this;`
of `operator++`. -/
def advance_loop (fuel : Nat) : Nat → iterator_filter ι β → Except Fault (iterator_filter ι β)
  | 0, _ => .error .out_of_fuel
  | n + 1, it => do
    if ← Iterator.ne fuel it.orig it.end_iterator then
      if it.predicate (← Iterator.deref fuel it.orig) then
        pure it
      else
        let o ← Iterator.next fuel it.orig
        advance_loop fuel n ⟨o, it.predicate, it.end_iterator⟩
    else
      pure it

/-- Member `operator++`: one increment, then on to the next element satisfying the predicate. -/
def next (fuel : Nat) (it : iterator_filter ι β) : Except Fault (iterator_filter ι β) := do
  let o ← Iterator.next fuel it.orig
  advance_loop fuel fuel ⟨o, it.predicate, it.end_iterator⟩

/-- The constructor `iterator_filter(original, p, end)`. -/
def make (fuel : Nat) (original : ι) (p : β → Bool) (last : ι) :
    Except Fault (iterator_filter ι β) := do
  let it : iterator_filter ι β := ⟨original, p, last⟩
  if ← Iterator.ne fuel it.orig it.end_iterator then
    if !it.predicate (← Iterator.deref fuel it.orig) then
      it.next fuel
    else
      pure it
  else
    pure it

/-- Member `operator*`: `*(base::orig)`. -/
def deref (fuel : Nat) (it : iterator_filter ι β) : Except Fault β :=
  Iterator.deref fuel it.orig

/-- Member `operator==` of the base class: `orig == rhs.orig`. -/
def eq (fuel : Nat) (lhs rhs : iterator_filter ι β) : Except Fault Bool :=
  Iterator.eq fuel lhs.orig rhs.orig

/-- Member `operator!=` of the base class: `orig != rhs.orig`. -/
def ne (fuel : Nat) (lhs rhs : iterator_filter ι β) : Except Fault Bool :=
  Iterator.ne fuel lhs.orig rhs.orig

end iterator_filter

instance instIteratorFilter {ι β : Type} [Iterator ι β] : Iterator (iterator_filter ι β) β where
  deref := iterator_filter.deref
  next := iterator_filter.next
  eq := iterator_filter.eq
  ne := iterator_filter.ne

/-- The struct `iterator_concatenator<first_range_type, second_range_type>`. -/
structure iterator_concatenator (ρ₁ ρ₂ ι₁ ι₂ : Type) where
  tracker : range_tracker2 ρ₁ ρ₂ ι₁ ι₂

namespace iterator_concatenator

variable {ρ₁ ρ₂ ι₁ ι₂ β : Type} [Sequence ρ₁ ι₁] [Sequence ρ₂ ι₂] [Iterator ι₁ β] [Iterator ι₂ β]

/-- Constructor `iterator_concatenator(fr, sr)`. -/
def make (fuel : Nat) (fr : ρ₁) (sr : ρ₂) : Except Fault (iterator_concatenator ρ₁ ρ₂ ι₁ ι₂) := do
  let t ← range_tracker2.begin_of fuel fr sr
  pure ⟨t⟩

/-- Constructor `iterator_concatenator(fr, sr, end_marker_t&&)`. -/
def make_end (fuel : Nat) (fr : ρ₁) (sr : ρ₂) :
    Except Fault (iterator_concatenator ρ₁ ρ₂ ι₁ ι₂) := do
  let t ← range_tracker2.end_of fuel fr sr
  pure ⟨t⟩

/-- Member `operator++`: advance in the first range while it has not ended, else in the second. -/
def next (fuel : Nat) (c : iterator_concatenator ρ₁ ρ₂ ι₁ ι₂) :
    Except Fault (iterator_concatenator ρ₁ ρ₂ ι₁ ι₂) := do
  let (it, last) ← c.tracker.get0 fuel
  if ← Iterator.ne fuel it last then
    let it ← Iterator.next fuel it
    pure ⟨⟨c.tracker.ranges, (it, c.tracker.current.2)⟩⟩
  else
    let (it, last) ← c.tracker.get1 fuel
    if ← Iterator.ne fuel it last then
      let it ← Iterator.next fuel it
      pure ⟨⟨c.tracker.ranges, (c.tracker.current.1, it)⟩⟩
    else
      pure c

/-- Member `operator*`. -/
def deref (fuel : Nat) (c : iterator_concatenator ρ₁ ρ₂ ι₁ ι₂) : Except Fault β := do
  let (it, last) ← c.tracker.get0 fuel
  if ← Iterator.ne fuel it last then
    Iterator.deref fuel it
  else
    let (it, _) ← c.tracker.get1 fuel
    Iterator.deref fuel it

/-- Member `operator==`. -/
def eq (fuel : Nat) (c rhs : iterator_concatenator ρ₁ ρ₂ ι₁ ι₂) : Except Fault Bool := do
  let (it, last) ← c.tracker.get0 fuel
  if ← Iterator.ne fuel it last then
    let (r_it, r_end) ← rhs.tracker.get0 fuel
    if ← Iterator.ne fuel r_it r_end then
      Iterator.eq fuel r_it it
    else
      pure false
  else
    let (it, last) ← c.tracker.get1 fuel
    if ← Iterator.ne fuel it last then
      let (r_it, r_end) ← rhs.tracker.get1 fuel
      if ← Iterator.ne fuel r_it r_end then
        Iterator.eq fuel r_it it
      else
        pure false
    else
      let (it, last) ← rhs.tracker.get1 fuel
      Iterator.eq fuel it last

/-- Member `operator!=`: `!(*this == rhs)`. -/
def ne (fuel : Nat) (c rhs : iterator_concatenator ρ₁ ρ₂ ι₁ ι₂) : Except Fault Bool := do
  let b ← c.eq fuel rhs
  pure (!b)

end iterator_concatenator

instance instIteratorConcatenator {ρ₁ ρ₂ ι₁ ι₂ β : Type} [Sequence ρ₁ ι₁] [Sequence ρ₂ ι₂]
    [Iterator ι₁ β] [Iterator ι₂ β] : Iterator (iterator_concatenator ρ₁ ρ₂ ι₁ ι₂) β where
  deref := iterator_concatenator.deref
  next := iterator_concatenator.next
  eq := iterator_concatenator.eq
  ne := iterator_concatenator.ne

/-- The struct `iterator_flattener<range_type>`: the tracker of the outer range and the
position `inner` in the inner range the outer position designates. -/
structure iterator_flattener (ρ ιo ιi : Type) where
  tracker : range_tracker ρ ιo
  inner : ιi

namespace iterator_flattener

variable {ρ ιo ρi ιi β : Type} [Sequence ρ ιo] [Iterator ιo ρi] [Sequence ρi ιi] [Iterator ιi β]

/-- The member `outer()`: `tracker.get<0>().first`, the current outer position. -/
def outer (fuel : Nat) (f : iterator_flattener ρ ιo ιi) : Except Fault ιo := do
  let p ← f.tracker.get fuel
  pure p.1

/-- Constructor `iterator_flattener(range)`; `inner` is default-constructed and is assigned
`outer()->begin()` when the outer range is not empty. -/
def make [Inhabited ιi] (fuel : Nat) (range : ρ) : Except Fault (iterator_flattener ρ ιo ιi) := do
  let tracker ← range_tracker.begin_of fuel range
  let f : iterator_flattener ρ ιo ιi := ⟨tracker, default⟩
  let (it, last) ← f.tracker.get fuel
  if ← Iterator.ne fuel it last then
    let o ← f.outer fuel
    let sub ← Iterator.deref fuel o
    let inner ← Sequence.begin fuel sub
    pure ⟨f.tracker, inner⟩
  else
    pure f

/-- Constructor `iterator_flattener(range, end_marker_t&&)`. -/
def make_end [Inhabited ιi] (fuel : Nat) (range : ρ) :
    Except Fault (iterator_flattener ρ ιo ιi) := do
  let tracker ← range_tracker.end_of fuel range
  let f : iterator_flattener ρ ιo ιi := ⟨tracker, default⟩
  let (it, last) ← f.tracker.get fuel
  if ← Iterator.ne fuel it last then
    let o ← f.outer fuel
    let sub ← Iterator.deref fuel o
    let inner ← Sequence.end_ fuel sub
    pure ⟨f.tracker, inner⟩
  else
    pure f

/-- The loop `while (outer_it != outer_end && inner == outer_it->end())` of `operator++`;
`outer_it` is a reference to the current position of the tracker. -/
def skip_loop (fuel : Nat) (outer_end : ιo) :
    Nat → iterator_flattener ρ ιo ιi → Except Fault (iterator_flattener ρ ιo ιi)
  | 0, _ => .error .out_of_fuel
  | n + 1, f => do
    if ← Iterator.ne fuel f.tracker.current outer_end then
      let sub ← Iterator.deref fuel f.tracker.current
      let sub_end ← Sequence.end_ fuel sub
      if ← Iterator.eq fuel f.inner sub_end then
        let outer_it ← Iterator.next fuel f.tracker.current
        let f : iterator_flattener ρ ιo ιi := ⟨f.tracker.set_to outer_it, f.inner⟩
        if ← Iterator.ne fuel outer_it outer_end then
          let o ← f.outer fuel
          let sub ← Iterator.deref fuel o
          let inner ← Sequence.begin fuel sub
          skip_loop fuel outer_end n ⟨f.tracker, inner⟩
        else
          skip_loop fuel outer_end n f
      else
        pure f
    else
      pure f

/-- Member `operator++`. -/
def next (fuel : Nat) (f : iterator_flattener ρ ιo ιi) :
    Except Fault (iterator_flattener ρ ιo ιi) := do
  let inner ← Iterator.next fuel f.inner
  let (_, outer_end) ← f.tracker.get fuel
  skip_loop fuel outer_end fuel ⟨f.tracker, inner⟩

/-- Member `operator*`: `*inner`. -/
def deref (fuel : Nat) (f : iterator_flattener ρ ιo ιi) : Except Fault β :=
  Iterator.deref fuel f.inner

/-- The friend `operator==(lhs, rhs)`. -/
def eq (fuel : Nat) (lhs rhs : iterator_flattener ρ ιo ιi) : Except Fault Bool := do
  let lhs_tracker ← lhs.tracker.get fuel
  let rhs_tracker ← rhs.tracker.get fuel
  if ← Iterator.ne fuel lhs_tracker.1 rhs_tracker.1 then
    pure false
  else
    if ← Iterator.ne fuel lhs_tracker.1 lhs_tracker.2 then
      if ← Iterator.ne fuel rhs_tracker.1 rhs_tracker.2 then
        if ← Iterator.ne fuel lhs.inner rhs.inner then
          pure false
        else
          pure true
      else
        pure true
    else
      pure true

/-- Member `operator!=`: `!(*this == rhs)`. -/
def ne (fuel : Nat) (lhs rhs : iterator_flattener ρ ιo ιi) : Except Fault Bool := do
  let b ← lhs.eq fuel rhs
  pure (!b)

end iterator_flattener

instance instIteratorFlattener {ρ ιo ρi ιi β : Type} [Sequence ρ ιo] [Iterator ιo ρi]
    [Sequence ρi ιi] [Iterator ιi β] : Iterator (iterator_flattener ρ ιo ιi) β where
  deref := iterator_flattener.deref
  next := iterator_flattener.next
  eq := iterator_flattener.eq
  ne := iterator_flattener.ne

/-- The struct `iterator_zipper<Zipper, Range1, Range2>`: the `storage` tuple of the zipper
and the tracker. -/
structure iterator_zipper (ι₁ ι₂ β₁ β₂ γ : Type) where
  zipper : β₁ → β₂ → γ
  tracker : iterator_tracker ι₁ ι₂

namespace iterator_zipper

variable {ρ₁ ρ₂ ι₁ ι₂ β₁ β₂ γ : Type} [Iterator ι₁ β₁] [Iterator ι₂ β₂]

/-- Constructor `iterator_zipper(zipper, rs...)`. -/
def make [Sequence ρ₁ ι₁] [Sequence ρ₂ ι₂] (fuel : Nat) (zipper : β₁ → β₂ → γ) (r₁ : ρ₁)
    (r₂ : ρ₂) : Except Fault (iterator_zipper ι₁ ι₂ β₁ β₂ γ) := do
  let t ← iterator_tracker.begin_from_ranges fuel r₁ r₂
  pure ⟨zipper, t⟩

/-- Constructor `iterator_zipper(zipper, rs..., end_marker_t&&)`. -/
def make_end [Sequence ρ₁ ι₁] [Sequence ρ₂ ι₂] (fuel : Nat) (zipper : β₁ → β₂ → γ) (r₁ : ρ₁)
    (r₂ : ρ₂) : Except Fault (iterator_zipper ι₁ ι₂ β₁ β₂ γ) := do
  let t ← iterator_tracker.end_from_ranges fuel r₁ r₂
  pure ⟨zipper, t⟩

/-- Member `operator*` (`deref_helper`): the zipper applied to the elements at all positions. -/
def deref (fuel : Nat) (z : iterator_zipper ι₁ ι₂ β₁ β₂ γ) : Except Fault γ := do
  let a ← Iterator.deref fuel z.tracker.iters.1
  let b ← Iterator.deref fuel z.tracker.iters.2
  pure (z.zipper a b)

/-- Member `operator++`: `tracker().next_all()`. -/
def next (fuel : Nat) (z : iterator_zipper ι₁ ι₂ β₁ β₂ γ) :
    Except Fault (iterator_zipper ι₁ ι₂ β₁ β₂ γ) := do
  let t ← z.tracker.next_all fuel
  pure ⟨z.zipper, t⟩

/-- The fold `((tracker.get<Is>() != rhs.get<Is>()) && ...)` of `has_next_helper`. -/
def has_next_helper (fuel : Nat) (tracker rhs : iterator_tracker ι₁ ι₂) : Except Fault Bool := do
  if ← Iterator.ne fuel tracker.iters.1 rhs.iters.1 then
    Iterator.ne fuel tracker.iters.2 rhs.iters.2
  else
    pure false

/-- Member `operator!=`. -/
def ne (fuel : Nat) (z rhs : iterator_zipper ι₁ ι₂ β₁ β₂ γ) : Except Fault Bool :=
  has_next_helper fuel z.tracker rhs.tracker

/-- Member `operator==`: `!(*this != rhs)`. -/
def eq (fuel : Nat) (z rhs : iterator_zipper ι₁ ι₂ β₁ β₂ γ) : Except Fault Bool := do
  let b ← z.ne fuel rhs
  pure (!b)

end iterator_zipper

instance instIteratorZipper {ι₁ ι₂ β₁ β₂ γ : Type} [Iterator ι₁ β₁] [Iterator ι₂ β₂] :
    Iterator (iterator_zipper ι₁ ι₂ β₁ β₂ γ) γ where
  deref := iterator_zipper.deref
  next := iterator_zipper.next
  eq := iterator_zipper.eq
  ne := iterator_zipper.ne

/-- The width of `size_t`, the `size_type` of the standard containers. -/
def size_bits : Nat := 64

/-- The statement `--n` on a `size_t`. -/
def size_type_decrement (n : Nat) : Nat := (n + (2 ^ size_bits - 1)) % 2 ^ size_bits

/-- The struct `take_iterator<RangeType>`: the tracker and the remaining count `n`. -/
structure take_iterator (ρ ι : Type) where
  tracker : range_tracker ρ ι
  n : Nat

namespace take_iterator

variable {ρ ι β : Type} [Sequence ρ ι] [Iterator ι β]

/-- The static member `minimum_n`: `std::min<size_type>(n, std::distance(begin, end))`. -/
def minimum_n (fuel : Nat) (n : Nat) (range : ρ) : Except Fault Nat := do
  let first ← Sequence.begin fuel range
  let last ← Sequence.end_ fuel range
  let d ← std_distance fuel fuel first last
  pure (min n d)

/-- Constructor `take_iterator(range, n)`. -/
def make (fuel : Nat) (range : ρ) (n : Nat) : Except Fault (take_iterator ρ ι) := do
  let tracker ← range_tracker.begin_of fuel range
  let m ← minimum_n fuel n range
  pure ⟨tracker, m⟩

/-- Constructor `take_iterator(range, end_marker_t)`: the tracker is at `begin`, `n` is 0. -/
def make_end (fuel : Nat) (range : ρ) : Except Fault (take_iterator ρ ι) := do
  let tracker ← range_tracker.begin_of fuel range
  pure ⟨tracker, 0⟩

/-- Member `operator++`: `tracker.next<0>(); --n;`. -/
def next (fuel : Nat) (t : take_iterator ρ ι) : Except Fault (take_iterator ρ ι) := do
  let tracker ← t.tracker.next fuel
  pure ⟨tracker, size_type_decrement t.n⟩

/-- Member `operator*`: `*(tracker.get<0>().first)`. -/
def deref (fuel : Nat) (t : take_iterator ρ ι) : Except Fault β := do
  let p ← t.tracker.get fuel
  Iterator.deref fuel p.1

/-- Member `operator!=`: `n != 0`, whatever the right-hand side. -/
def ne (t _rhs : take_iterator ρ ι) : Bool := t.n != 0

/-- Member `operator==`: `!(*this != rhs)`. -/
def eq (t rhs : take_iterator ρ ι) : Bool := !(t.ne rhs)

end take_iterator

instance instIteratorTake {ρ ι β : Type} [Sequence ρ ι] [Iterator ι β] :
    Iterator (take_iterator ρ ι) β where
  deref := take_iterator.deref
  next := take_iterator.next
  eq _ lhs rhs := .ok (lhs.eq rhs)
  ne _ lhs rhs := .ok (lhs.ne rhs)

/-- The struct `take_while_iterator<RangeType, Predicate>`. -/
structure take_while_iterator (ρ ι β : Type) where
  tracker : range_tracker ρ ι
  predicate : β → Bool

namespace take_while_iterator

variable {ρ ι β : Type} [Sequence ρ ι] [Iterator ι β]

/-- Constructor `take_while_iterator(range, p)`. -/
def make (fuel : Nat) (range : ρ) (p : β → Bool) : Except Fault (take_while_iterator ρ ι β) := do
  let tracker ← range_tracker.begin_of fuel range
  let (it, last) ← tracker.get fuel
  if ← Iterator.ne fuel it last then
    if !p (← Iterator.deref fuel it) then
      pure ⟨tracker.set_to last, p⟩
    else
      pure ⟨tracker, p⟩
  else
    pure ⟨tracker, p⟩

/-- Constructor `take_while_iterator(range, p, end_marker_t)`. -/
def make_end (fuel : Nat) (range : ρ) (p : β → Bool) :
    Except Fault (take_while_iterator ρ ι β) := do
  let tracker ← range_tracker.begin_of fuel range
  let (_, last) ← tracker.get fuel
  pure ⟨tracker.set_to last, p⟩

/-- Member `operator++`. -/
def next (fuel : Nat) (t : take_while_iterator ρ ι β) :
    Except Fault (take_while_iterator ρ ι β) := do
  let tracker ← t.tracker.next fuel
  let (it, last) ← tracker.get fuel
  if ← Iterator.eq fuel it last then
    pure ⟨tracker, t.predicate⟩
  else
    if !t.predicate (← Iterator.deref fuel it) then
      pure ⟨tracker.set_to last, t.predicate⟩
    else
      pure ⟨tracker, t.predicate⟩

/-- Member `operator*`: `*(tracker.get<0>().first)`. -/
def deref (fuel : Nat) (t : take_while_iterator ρ ι β) : Except Fault β := do
  let p ← t.tracker.get fuel
  Iterator.deref fuel p.1

/-- Member `operator!=`: `it != end` for the own tracker, whatever the right-hand side. -/
def ne (fuel : Nat) (t _rhs : take_while_iterator ρ ι β) : Except Fault Bool := do
  let (it, last) ← t.tracker.get fuel
  Iterator.ne fuel it last

/-- Member `operator==`: `!(*this != rhs)`. -/
def eq (fuel : Nat) (t rhs : take_while_iterator ρ ι β) : Except Fault Bool := do
  let b ← t.ne fuel rhs
  pure (!b)

end take_while_iterator

instance instIteratorTakeWhile {ρ ι β : Type} [Sequence ρ ι] [Iterator ι β] :
    Iterator (take_while_iterator ρ ι β) β where
  deref := take_while_iterator.deref
  next := take_while_iterator.next
  eq := take_while_iterator.eq
  ne := take_while_iterator.ne

/-! ## Views -/

/-- The struct `range_view<KeeperCategory, Range, Transformation>`. -/
structure range_view (ρ β γ : Type) where
  orig_range : basic_keeper ρ
  transformation : β → γ

instance instSequenceRangeView {ρ ι β γ : Type} [Sequence ρ ι] :
    Sequence (range_view ρ β γ) (iterator_adaptor ι β γ) where
  begin fuel v := do
    let it ← Sequence.begin fuel v.orig_range.get
    pure ⟨it, v.transformation⟩
  end_ fuel v := do
    let it ← Sequence.end_ fuel v.orig_range.get
    pure ⟨it, v.transformation⟩

/-- The struct `range_view_filter<KeeperCategory, Range, FilterPredicate>`. -/
structure range_view_filter (ρ β : Type) where
  orig_range : basic_keeper ρ
  predicate : β → Bool

instance instSequenceRangeViewFilter {ρ ι β : Type} [Sequence ρ ι] [Iterator ι β] :
    Sequence (range_view_filter ρ β) (iterator_filter ι β) where
  begin fuel v := do
    let first ← Sequence.begin fuel v.orig_range.get
    let last ← Sequence.end_ fuel v.orig_range.get
    iterator_filter.make fuel first v.predicate last
  end_ fuel v := do
    let last ← Sequence.end_ fuel v.orig_range.get
    let last' ← Sequence.end_ fuel v.orig_range.get
    iterator_filter.make fuel last v.predicate last'

/-- The struct `range_view_slice<KeeperCategory, Range>`; `from_` and `until_` are the
members `from` and `until`, of the signed type `difference_type`. -/
structure range_view_slice (ρ : Type) where
  orig_range : basic_keeper ρ
  from_ : Int
  until_ : Int

namespace range_view_slice

variable {ρ ι β : Type} [Sequence ρ ι] [Iterator ι β]

/-- Constructor `range_view_slice(Keeper&& orig, difference_type f, difference_type u)`. -/
def make (orig : basic_keeper ρ) (f u : Int) : Except Fault (range_view_slice ρ) :=
  if f > u then .error .logic_error else .ok ⟨orig, f, u⟩

/-- The member `get_range_size()`: `std::distance(begin, end)`. -/
def get_range_size (fuel : Nat) (v : range_view_slice ρ) : Except Fault Int := do
  let first ← Sequence.begin fuel v.orig_range.get
  let last ← Sequence.end_ fuel v.orig_range.get
  let d ← std_distance fuel fuel first last
  pure (d : Int)

/-- The member `bounded(difference)`: `std::min(get_range_size(), difference)`. -/
def bounded (fuel : Nat) (v : range_view_slice ρ) (difference : Int) : Except Fault Int := do
  let size ← v.get_range_size fuel
  pure (min size difference)

/-- Standard algorithm `std::next(it, n)` for a signed `n`; a forward iterator cannot go back. -/
def std_next_signed (fuel : Nat) (it : ι) (n : Int) : Except Fault ι :=
  if 0 ≤ n then std_next fuel it n.toNat else .error .advance_end

end range_view_slice

instance instSequenceRangeViewSlice {ρ ι β : Type} [Sequence ρ ι] [Iterator ι β] :
    Sequence (range_view_slice ρ) ι where
  begin fuel v := do
    let first ← Sequence.begin fuel v.orig_range.get
    let k ← v.bounded fuel v.from_
    range_view_slice.std_next_signed fuel first k
  end_ fuel v := do
    let first ← Sequence.begin fuel v.orig_range.get
    let k ← v.bounded fuel v.until_
    range_view_slice.std_next_signed fuel first k

/-- The struct `concatenated_range_view`. -/
structure concatenated_range_view (ρ₁ ρ₂ : Type) where
  range1 : basic_keeper ρ₁
  range2 : basic_keeper ρ₂

instance instSequenceConcatenated {ρ₁ ρ₂ ι₁ ι₂ : Type} [Sequence ρ₁ ι₁] [Sequence ρ₂ ι₂] :
    Sequence (concatenated_range_view ρ₁ ρ₂) (iterator_concatenator ρ₁ ρ₂ ι₁ ι₂) where
  begin fuel v := iterator_concatenator.make fuel v.range1.get v.range2.get
  end_ fuel v := iterator_concatenator.make_end fuel v.range1.get v.range2.get

/-- The struct `zip_range_view<Zipper, Keeper1, Keeper2>`. -/
structure zip_range_view (ρ₁ ρ₂ β₁ β₂ γ : Type) where
  zipper : β₁ → β₂ → γ
  keepers : basic_keeper ρ₁ × basic_keeper ρ₂

instance instSequenceZip {ρ₁ ρ₂ ι₁ ι₂ β₁ β₂ γ : Type} [Sequence ρ₁ ι₁] [Sequence ρ₂ ι₂] :
    Sequence (zip_range_view ρ₁ ρ₂ β₁ β₂ γ) (iterator_zipper ι₁ ι₂ β₁ β₂ γ) where
  begin fuel v := iterator_zipper.make fuel v.zipper v.keepers.1.get v.keepers.2.get
  end_ fuel v := iterator_zipper.make_end fuel v.zipper v.keepers.1.get v.keepers.2.get

/-- The struct `flattened_range_view<KeeperCategory, RangeType>`. -/
structure flattened_range_view (ρ : Type) where
  range : basic_keeper ρ

instance instSequenceFlattened {ρ ιo ρi ιi : Type} [Sequence ρ ιo] [Iterator ιo ρi]
    [Sequence ρi ιi] [Inhabited ιi] :
    Sequence (flattened_range_view ρ) (iterator_flattener ρ ιo ιi) where
  begin fuel v := iterator_flattener.make fuel v.range.get
  end_ fuel v := iterator_flattener.make_end fuel v.range.get

/-- The struct `take_n_range_view<KeeperCategory, RangeType>`. -/
structure take_n_range_view (ρ : Type) where
  range : basic_keeper ρ
  n : Nat

instance instSequenceTakeN {ρ ι β : Type} [Sequence ρ ι] [Iterator ι β] :
    Sequence (take_n_range_view ρ) (take_iterator ρ ι) where
  begin fuel v := take_iterator.make fuel v.range.get v.n
  end_ fuel v := take_iterator.make_end fuel v.range.get

/-- The struct `take_while_range_view<KeeperCategory, RangeType, Predicate>`. -/
structure take_while_range_view (ρ β : Type) where
  range : basic_keeper ρ
  pred : β → Bool

instance instSequenceTakeWhile {ρ ι β : Type} [Sequence ρ ι] [Iterator ι β] :
    Sequence (take_while_range_view ρ β) (take_while_iterator ρ ι β) where
  begin fuel v := take_while_iterator.make fuel v.range.get v.pred
  end_ fuel v := take_while_iterator.make_end fuel v.range.get v.pred

/-! ## Algorithm entry points (`algorithm.h`) -/

/-- Function `ezy::transform(range, fn)`. -/
def transform {ρ β γ : Type} (range : ρ) (fn : β → γ) : range_view ρ β γ :=
  ⟨⟨range⟩, fn⟩

/-- Function `ezy::filter(range, pred)`. -/
def filter {ρ β : Type} (range : ρ) (pred : β → Bool) : range_view_filter ρ β :=
  ⟨⟨range⟩, pred⟩

/-- Function `ezy::concatenate(range1, range2)`. -/
def concatenate {ρ₁ ρ₂ : Type} (range1 : ρ₁) (range2 : ρ₂) : concatenated_range_view ρ₁ ρ₂ :=
  ⟨⟨range1⟩, ⟨range2⟩⟩

/-- The constructor `zip_range_view(zipper, keepers...)`, which the `zip` member of the
iterable feature calls with the two ranges. -/
def zip {ρ₁ ρ₂ β₁ β₂ γ : Type} (zipper : β₁ → β₂ → γ) (range1 : ρ₁) (range2 : ρ₂) :
    zip_range_view ρ₁ ρ₂ β₁ β₂ γ :=
  ⟨zipper, (⟨range1⟩, ⟨range2⟩)⟩

/-- The width of `unsigned int`, the type of the parameters `from` and `until` of
`ezy::slice`. -/
def unsigned_bits : Nat := 32

/-- Function `ezy::slice(range, from, until)`: the parameters `from` and `until` are
`unsigned int`s, natural numbers below `2 ^ unsigned_bits`, so an argument arrives as its
value modulo `2 ^ unsigned_bits`; their conversion to the wider signed `difference_type` of
the constructor keeps their values. -/
def slice {ρ : Type} (range : ρ) (from_ until_ : Nat) : Except Fault (range_view_slice ρ) :=
  range_view_slice.make ⟨range⟩ ((from_ % 2 ^ unsigned_bits : Nat) : Int)
    ((until_ % 2 ^ unsigned_bits : Nat) : Int)

/-- Function `ezy::take(range, n)`; `n` is a `size_t`, a natural number below `2 ^ size_bits`. -/
def take {ρ : Type} (range : ρ) (n : Nat) : take_n_range_view ρ :=
  ⟨⟨range⟩, n⟩

/-- Function `ezy::take_while(range, pred)`. -/
def take_while {ρ β : Type} (range : ρ) (pred : β → Bool) : take_while_range_view ρ β :=
  ⟨⟨range⟩, pred⟩

/-- Function `ezy::flatten(range)`. -/
def flatten {ρ : Type} (range : ρ) : flattened_range_view ρ :=
  ⟨⟨range⟩⟩

/-- Function `ezy::find_element(range, needle)`: the member `range.find(needle)` when the range type
has one (`find_mem_fn`, chosen at compile time), else `std::find(begin, end, needle)`. -/
def find_element {ρ ι β ν : Type} [Sequence ρ ι] [Iterator ι β]
    (find_mem_fn : Option (ρ → ν → Except Fault ι)) (equal : β → ν → Bool)
    (fuel : Nat) (range : ρ) (needle : ν) : Except Fault ι :=
  match find_mem_fn with
  | some member_find => member_find range needle
  | none => do
    let first ← Sequence.begin fuel range
    let last ← Sequence.end_ fuel range
    std_find equal fuel fuel first last needle

/-- Function `ezy::find(range, needle)`; the result type `ezy::optional<value_type>` is `Option`. -/
def find {ρ ι β ν : Type} [Sequence ρ ι] [Iterator ι β]
    (find_mem_fn : Option (ρ → ν → Except Fault ι)) (equal : β → ν → Bool)
    (fuel : Nat) (range : ρ) (needle : ν) : Except Fault (Option β) := do
  let found ← find_element find_mem_fn equal fuel range needle
  let last ← Sequence.end_ fuel range
  if ← Iterator.ne fuel found last then
    let v ← Iterator.deref fuel found
    pure (some v)
  else
    pure none


/-! ## `for_each` -/

/-- Standard algorithm `std::for_each(first, last, fn)`: the loop
`for (; first != last; ++first) fn(*first);`. The action `fn` acts on a state of type `σ`
(what it prints or records). -/
def std_for_each {ι β σ : Type} [Iterator ι β] (fuel : Nat) (fn : σ → β → σ) :
    Nat → ι → ι → σ → Except Fault σ
  | 0, _, _, _ => .error .out_of_fuel
  | n + 1, first, last, s => do
    if ← Iterator.ne fuel first last then
      let v ← Iterator.deref fuel first
      let first ← Iterator.next fuel first
      std_for_each fuel fn n first last (fn s v)
    else
      pure s

/-- Function `ezy::for_each(range, fn)`; the result is the state the action has reached. -/
def for_each {ρ ι β σ : Type} [Sequence ρ ι] [Iterator ι β] (fuel : Nat) (range : ρ)
    (fn : σ → β → σ) (s : σ) : Except Fault σ := do
  let first ← Sequence.begin fuel range
  let last ← Sequence.end_ fuel range
  std_for_each fuel fn fuel first last s

/-! ## `std::map` -/

/-- A `std::map<K, V>`: its entries in iteration order; the keys of a map are pairwise
different. Its iterator is the position in this order. -/
structure std_map (K V : Type) where
  entries : List (K × V)

instance instSequenceMap {K V : Type} : Sequence (std_map K V) (vector_iterator (K × V)) where
  begin _ m := .ok ⟨m.entries, 0⟩
  end_ _ m := .ok ⟨m.entries, m.entries.length⟩

/-- The member `std::map::find(key)`: the position of the entry with this key, `end()` when
there is none. -/
def std_map.find {K V : Type} [DecidableEq K] (m : std_map K V) (key : K) :
    Except Fault (vector_iterator (K × V)) :=
  .ok ⟨m.entries, m.entries.findIdx (fun e => decide (e.1 = key))⟩

/-! ## Reference implementation of the filter-then-map pipeline -/

/-- The plain sequential scan of the round-trip property: it goes over `S` from first to
last, keeps the elements satisfying `p` and applies `f` to each kept element. -/
def sequential_scan {α γ : Type} (p : α → Bool) (f : α → γ) : List α → List γ
  | [] => []
  | x :: rest => if p x then f x :: sequential_scan p f rest else sequential_scan p f rest

/-! ## Borrowed sources -/

/-- Modelled from the spec: the caller's memory, in which each named `Sequence` has its
current contents. -/
def Memory (ρ : Type) : Type := Nat → ρ

/-- Assignment `name = contents` to a named sequence. -/
def Memory.assign {ρ : Type} (mem : Memory ρ) (name : Nat) (contents : ρ) : Memory ρ :=
  fun n => if n = name then contents else mem n

/-- Modelled from the spec: what a keeper of the `Borrowing` category holds (header
`experimental/keeper.h`), "a reference with lifetime tied to the caller": the name of the
caller's sequence, and no copy of its contents. -/
structure reference (ρ : Type) where
  name : Nat

/-- The calls `begin()` and `end()` through a reference, while the memory is `mem`: they
are the calls on what the named sequence holds at that time. -/
def reference.sequence {ρ ι : Type} [Sequence ρ ι] (mem : Memory ρ) :
    Sequence (reference ρ) ι where
  begin fuel r := Sequence.begin fuel (mem r.name)
  end_ fuel r := Sequence.end_ fuel (mem r.name)

/-! ## `ezy::empty` and `ezy::size` (`bits_empty_size.h`) -/

/-- The iteration capability of a type: its `begin`/`end` and the operations of its
iterator. -/
structure iterable (τ ι β : Type) where
  sequence : Sequence τ ι
  iterator : Iterator ι β

/-- What overload resolution finds for a type `T`: a free function `empty(t)` and a free
function `size(t)` (by argument-dependent lookup), the members `t.empty()` and `t.size()`
(`empty_mem_fn_t`, `size_mem_fn_t`), and `begin(t)`/`end(t)`; each is absent for a type
that does not offer it. The integer results are those of `size()`. -/
structure detected (τ ι β : Type) where
  empty_free_fn : Option (τ → Bool)
  empty_mem_fn : Option (τ → Bool)
  size_mem_fn : Option (τ → Int)
  size_free_fn : Option (τ → Int)
  range : Option (iterable τ ι β)

namespace detail

variable {τ ι β : Type}

/-- Overload `impl_empty(t, priority_tag<0>)`: `!(begin(t) != end(t))`. -/
def impl_empty_0 (r : iterable τ ι β) (fuel : Nat) (t : τ) : Except Fault Bool :=
  letI := r.sequence
  letI := r.iterator
  do
    let first ← Sequence.begin fuel t
    let last ← Sequence.end_ fuel t
    let b ← Iterator.ne fuel first last
    pure (!b)

/-- Overload `impl_empty(t, priority_tag<1>)`: `t.size() != 0`, of the type of `t.size()`;
the result is whether that integer is true. -/
def impl_empty_1 (size : τ → Int) (t : τ) : Bool := size t != 0

/-- Overload `impl_empty(t, priority_tag<2>)`: `t.empty()`. -/
def impl_empty_2 (empty : τ → Bool) (t : τ) : Bool := empty t

/-- Overload `impl_empty(t, priority_tag<3>)`: the free `empty(t)`. -/
def impl_empty_3 (empty : τ → Bool) (t : τ) : Bool := empty t

/-- The call `detail::impl_empty(t, priority_tag<3>{})`: of the overloads whose return type
is well-formed for `T`, the one with the highest tag. The overload of tag 0 is always a
candidate; for a type without `begin`/`end` its body is ill-formed and there is no program
(`none`). -/
def impl_empty (d : detected τ ι β) (fuel : Nat) (t : τ) : Option (Except Fault Bool) :=
  match d.empty_free_fn with
  | some empty => some (.ok (impl_empty_3 empty t))
  | none =>
    match d.empty_mem_fn with
    | some empty => some (.ok (impl_empty_2 empty t))
    | none =>
      match d.size_mem_fn with
      | some size => some (.ok (impl_empty_1 size t))
      | none =>
        match d.range with
        | some r => some (impl_empty_0 r fuel t)
        | none => none

/-- Overload `impl_size(t, priority_tag<0>)`: `std::distance(begin(t), end(t))`. -/
def impl_size_0 (r : iterable τ ι β) (fuel : Nat) (t : τ) : Except Fault Int :=
  letI := r.sequence
  letI := r.iterator
  do
    let first ← Sequence.begin fuel t
    let last ← Sequence.end_ fuel t
    let d ← std_distance fuel fuel first last
    pure (d : Int)

/-- Overload `impl_size(t, priority_tag<1>)`: the free `size(t)`. -/
def impl_size_1 (size : τ → Int) (t : τ) : Int := size t

/-- Overload `impl_size(t, priority_tag<2>)`: `t.size()`. -/
def impl_size_2 (size : τ → Int) (t : τ) : Int := size t

/-- The call `detail::impl_size(t, priority_tag<2>{})`. -/
def impl_size (d : detected τ ι β) (fuel : Nat) (t : τ) : Option (Except Fault Int) :=
  match d.size_mem_fn with
  | some size => some (.ok (impl_size_2 size t))
  | none =>
    match d.size_free_fn with
    | some size => some (.ok (impl_size_1 size t))
    | none =>
      match d.range with
      | some r => some (impl_size_0 r fuel t)
      | none => none

end detail

/-- The function object `ezy::empty`: `empty_fn::operator()`. -/
def empty_fn {τ ι β : Type} (d : detected τ ι β) (fuel : Nat) (t : τ) :
    Option (Except Fault Bool) :=
  detail.impl_empty d fuel t

/-- The function object `ezy::size`: `size_fn::operator()`. -/
def size_fn {τ ι β : Type} (d : detected τ ι β) (fuel : Nat) (t : τ) :
    Option (Except Fault Int) :=
  detail.impl_size d fuel t

/-- What is detected for a `std::vector<α>`: the members `empty()` and `size()`, the free
`std::empty` and `std::size` (which return the members' results), and `begin`/`end`. -/
def vector_detected (α : Type) : detected (List α) (vector_iterator α) α where
  empty_free_fn := some (fun v => v.isEmpty)
  empty_mem_fn := some (fun v => v.isEmpty)
  size_mem_fn := some (fun v => (v.length : Int))
  size_free_fn := some (fun v => (v.length : Int))
  range := some ⟨instSequenceVector, instIteratorVector⟩

/-! ## Cursors reached by advancing -/

/-- The cursor obtained from `begin()` of a range by `k` advances (`++it`, `k` times). -/
def advanced {ρ ι β : Type} [Sequence ρ ι] [Iterator ι β] (fuel : Nat) (range : ρ) (k : Nat) :
    Except Fault ι := do
  let first ← Sequence.begin fuel range
  std_next fuel first k

/-! ## The filter iterator with a recording predicate -/

namespace iterator_filter

variable {ι β : Type} [Iterator ι β]

/-- The loop of `operator++` where each call `predicate(*base::orig)` is recorded: `log`
holds, in order, the elements on which the predicate has been evaluated. -/
def advance_loop_logged (fuel : Nat) :
    Nat → iterator_filter ι β → List β → Except Fault (iterator_filter ι β × List β)
  | 0, _, _ => .error .out_of_fuel
  | n + 1, it, log => do
    if ← Iterator.ne fuel it.orig it.end_iterator then
      let v ← Iterator.deref fuel it.orig
      if it.predicate v then
        pure (it, log ++ [v])
      else
        let o ← Iterator.next fuel it.orig
        advance_loop_logged fuel n ⟨o, it.predicate, it.end_iterator⟩ (log ++ [v])
    else
      pure (it, log)

/-- Member `operator++` with the recording predicate. -/
def next_logged (fuel : Nat) (it : iterator_filter ι β) (log : List β) :
    Except Fault (iterator_filter ι β × List β) := do
  let o ← Iterator.next fuel it.orig
  advance_loop_logged fuel fuel ⟨o, it.predicate, it.end_iterator⟩ log

/-- The constructor `iterator_filter(original, p, end)` with the recording predicate. -/
def make_logged (fuel : Nat) (original : ι) (p : β → Bool) (last : ι) (log : List β) :
    Except Fault (iterator_filter ι β × List β) := do
  let it : iterator_filter ι β := ⟨original, p, last⟩
  if ← Iterator.ne fuel it.orig it.end_iterator then
    let v ← Iterator.deref fuel it.orig
    if !it.predicate v then
      it.next_logged fuel (log ++ [v])
    else
      pure (it, log ++ [v])
  else
    pure (it, log)

/-- The range-based `for` loop over filter iterators with the recording predicate; the
comparison and `operator*` do not call the predicate. -/
def traverse_logged (fuel : Nat) :
    Nat → iterator_filter ι β → iterator_filter ι β → List β → Except Fault (List β × List β)
  | 0, _, _, _ => .error .out_of_fuel
  | n + 1, it, last, log => do
    if ← it.ne fuel last then
      let v ← it.deref fuel
      let (it, log) ← it.next_logged fuel log
      let (rest, log) ← traverse_logged fuel n it last log
      pure (v :: rest, log)
    else
      pure ([], log)

end iterator_filter

/-- One complete traversal of a filter view (one `begin()`, one `end()`, then the
range-based `for` loop) with the recording predicate: the elements yielded and the elements
on which the predicate was evaluated, in order of evaluation. -/
def range_view_filter.elements_logged {ρ ι β : Type} [Sequence ρ ι] [Iterator ι β]
    (fuel : Nat) (v : range_view_filter ρ β) : Except Fault (List β × List β) := do
  let first ← Sequence.begin fuel v.orig_range.get
  let last ← Sequence.end_ fuel v.orig_range.get
  let (first, log) ← iterator_filter.make_logged fuel first v.predicate last []
  let last₁ ← Sequence.end_ fuel v.orig_range.get
  let last₂ ← Sequence.end_ fuel v.orig_range.get
  let (last, log) ← iterator_filter.make_logged fuel last₁ v.predicate last₂ log
  iterator_filter.traverse_logged fuel fuel first last log

/-! ## Ownership categories -/

/-- Modelled from the spec: the ownership category of a keeper (header
`experimental/keeper.h`), "a compile-time/static tag with three variants". -/
inductive ownership_category where
  | owning
  | borrowing
  | sharing
  deriving DecidableEq, Repr

/-- Modelled from the spec: the form in which a source is passed to an entry point, which
the deduced template argument `Range` of the parameter `Range&& range` records: a
temporary, an existing named `Sequence` passed by reference, or a `Sequence` already
wrapped in a shared handle. -/
inductive passing_form where
  | temporary
  | named_reference
  | shared_handle
  deriving DecidableEq, Repr

/-- Modelled from the spec: the alias `ezy::experimental::detail::ownership_category_t<Range>`
(header `experimental/keeper.h`): `Owning` "applies when the source was a
temporary/rvalue", `Borrowing` "when the source was an existing named Sequence passed by
reference", `Sharing` "when the source Sequence is already wrapped in such a handle". -/
def ownership_category_t : passing_form → ownership_category
  | .temporary => .owning
  | .named_reference => .borrowing
  | .shared_handle => .sharing

namespace detail

/-- The struct `detail::deducer_helper<Range>`: `orig_type` is the deduced `Range`. -/
structure deducer_helper where
  orig_type : passing_form

/-- The member type `deducer_helper<Range>::category_tag`. -/
def deducer_helper.category_tag (d : deducer_helper) : ownership_category :=
  ownership_category_t d.orig_type

end detail

/-- Modelled from the spec: the caller's variables at one moment: the contents of each named
`Sequence` and the `Sequence` behind each shared (reference-counted) handle. -/
structure Store (ρ : Type) where
  named : Memory ρ
  shared : Memory ρ

/-- Modelled from the spec: an argument as written at the call site of an entry point, in
one of the three forms "temporary/rvalue", "an existing named Sequence passed by reference"
and a `Sequence` "already wrapped in" a shared handle. -/
inductive argument (ρ : Type) where
  | temporary (value : ρ)
  | named (r : reference ρ)
  | shared (handle : Nat)

/-- The template argument `Range` that is deduced for the parameter `Range&& range` from an
argument: it records the form of the argument and nothing of its contents. -/
def argument.orig_type {ρ : Type} : argument ρ → passing_form
  | .temporary _ => .temporary
  | .named _ => .named_reference
  | .shared _ => .shared_handle

/-- Modelled from the spec: what a Keeper stores (header `experimental/keeper.h`): "exactly
one of {moved-in value, reference, shared handle}". -/
inductive stored (ρ : Type) where
  | moved_in (value : ρ)
  | reference (r : reference ρ)
  | shared_handle (handle : Nat)

/-- Modelled from the spec: the ownership category under which a Keeper stores what it
stores: `Owning` "must hold a moved-in copy", `Borrowing` "holds a reference", `Sharing`
"holds a reference-counted/shared handle". -/
def stored.category {ρ : Type} : stored ρ → ownership_category
  | .moved_in _ => .owning
  | .reference _ => .borrowing
  | .shared_handle _ => .sharing

/-- Modelled from the spec: the accessor of a Keeper, "get the underlying Sequence", while
the caller's variables are `store`: the moved-in value itself, what the referenced named
`Sequence` holds, or the `Sequence` behind the shared handle. -/
def stored.get {ρ : Type} (store : Store ρ) : stored ρ → ρ
  | .moved_in value => value
  | .reference r => store.named r.name
  | .shared_handle handle => store.shared handle

/-- The calls `begin()` and `end()` on what a Keeper yields while the caller's variables are
`store`. -/
def stored.sequence {ρ ι : Type} [Sequence ρ ι] (store : Store ρ) :
    Sequence (stored ρ) ι where
  begin fuel k := Sequence.begin fuel (k.get store)
  end_ fuel k := Sequence.end_ fuel (k.get store)

/-- Modelled from the spec: the constructor
`basic_keeper<CategoryTag, range_type>{std::forward<Range>(range)}` (header
`experimental/keeper.h`; `makeKeeper(category, sequence)` in the spec): a Keeper of the
category holding the argument; a category cannot hold an argument of another form. -/
def make_keeper {ρ : Type} : ownership_category → argument ρ → Option (basic_keeper (stored ρ))
  | .owning, .temporary value => some ⟨.moved_in value⟩
  | .borrowing, .named r => some ⟨.reference r⟩
  | .sharing, .shared handle => some ⟨.shared_handle handle⟩
  | _, _ => none

/-- A view together with the `KeeperCategory` argument of its type, as in
`range_view<CategoryTag, range_type, UnaryFunction>`. -/
structure with_category (V : Type) where
  category : ownership_category
  view : V

/-- Function `ezy::transform(range, fn)` on an argument as written at the call site: the
result type is `range_view<CategoryTag, range_type, UnaryFunction>` with
`CategoryTag = deducer_helper<Range>::category_tag`, and the view holds
`basic_keeper<CategoryTag, range_type>{std::forward<Range>(range)}`. -/
def transform_as {ρ β γ : Type} (range : argument ρ) (fn : β → γ) :
    Option (with_category (range_view (stored ρ) β γ)) := do
  let CategoryTag := (detail.deducer_helper.mk range.orig_type).category_tag
  let keeper ← make_keeper CategoryTag range
  pure ⟨CategoryTag, ⟨keeper, fn⟩⟩

/-- Function `ezy::filter(range, pred)` on an argument as written at the call site: the
result type is `range_view_filter<CategoryTag, range_type, Predicate>`, built as in
`transform`. -/
def filter_as {ρ β : Type} (range : argument ρ) (pred : β → Bool) :
    Option (with_category (range_view_filter (stored ρ) β)) := do
  let CategoryTag := (detail.deducer_helper.mk range.orig_type).category_tag
  let keeper ← make_keeper CategoryTag range
  pure ⟨CategoryTag, ⟨keeper, pred⟩⟩

/-! ## Tuple traits (`tuple_traits.hh`) -/

/-- A C++ type as the tuple traits see it: `void`, a `std::tuple` of types, a
`std::integral_constant<size_t, value>`, or any other type, given by its name. -/
inductive cpp_type where
  | void_ : cpp_type
  | named : String → cpp_type
  | integral_constant : Nat → cpp_type
  | tuple : List cpp_type → cpp_type

namespace tuple_traits

/-- The trait `is_tuple<T>` (`is_tuple_v`): true for the specialisation
`is_tuple<std::tuple<T...>>` only. -/
def is_tuple : cpp_type → Bool
  | .tuple _ => true
  | _ => false

/-- The trait `tuplify<T>` (`tuplify_t`): the specialisations for `std::tuple<Ts...>` and
`void`, and the primary template. -/
def tuplify : cpp_type → cpp_type
  | .tuple ts => .tuple ts
  | .void_ => .tuple []
  | t => .tuple [t]

end tuple_traits

/-! ## Cursor invariants -/

/-- The position of a filter cursor over the vector `S`: either the end of `S` or an element
of `S` that satisfies `p`. -/
def filter_cursor_at_match_or_end {α : Type} (S : List α) (p : α → Bool)
    (c : iterator_filter (vector_iterator α) α) : Prop :=
  c.orig.data = S ∧ c.predicate = p ∧ c.end_iterator = ⟨S, S.length⟩ ∧
    (c.orig.pos = S.length ∨ ∃ x, S[c.orig.pos]? = some x ∧ p x = true)

/-- The position of a flatten cursor over the vector of vectors `outer`: either the outer
position is the end of `outer`, or `inner` is a valid (non-end) position of the inner vector
that the outer position designates. -/
def flatten_cursor_at_element_or_end {α : Type} (outer : List (List α))
    (c : iterator_flattener (List (List α)) (vector_iterator (List α)) (vector_iterator α)) :
    Prop :=
  c.tracker.ranges = outer ∧ c.tracker.current.data = outer ∧
    (c.tracker.current.pos = outer.length ∨
      ∃ cur, outer[c.tracker.current.pos]? = some cur ∧ c.inner.data = cur ∧
        c.inner.pos < cur.length)

/-! ## The take-while iterator with a recording predicate -/

namespace take_while_iterator

variable {ρ ι β : Type} [Sequence ρ ι] [Iterator ι β]

/-- Constructor `take_while_iterator(range, p)` where each call `predicate(*it)` is recorded:
`log` holds, in order, the elements on which the predicate has been evaluated. -/
def make_logged (fuel : Nat) (range : ρ) (p : β → Bool) (log : List β) :
    Except Fault (take_while_iterator ρ ι β × List β) := do
  let tracker ← range_tracker.begin_of fuel range
  let (it, last) ← tracker.get fuel
  if ← Iterator.ne fuel it last then
    let v ← Iterator.deref fuel it
    if !p v then
      pure (⟨tracker.set_to last, p⟩, log ++ [v])
    else
      pure (⟨tracker, p⟩, log ++ [v])
  else
    pure (⟨tracker, p⟩, log)

/-- Member `operator++` with the recording predicate. -/
def next_logged (fuel : Nat) (t : take_while_iterator ρ ι β) (log : List β) :
    Except Fault (take_while_iterator ρ ι β × List β) := do
  let tracker ← t.tracker.next fuel
  let (it, last) ← tracker.get fuel
  if ← Iterator.eq fuel it last then
    pure (⟨tracker, t.predicate⟩, log)
  else
    let v ← Iterator.deref fuel it
    if !t.predicate v then
      pure (⟨tracker.set_to last, t.predicate⟩, log ++ [v])
    else
      pure (⟨tracker, t.predicate⟩, log ++ [v])

/-- The range-based `for` loop over take-while iterators with the recording predicate; the
comparison and `operator*` do not call the predicate. -/
def traverse_logged (fuel : Nat) :
    Nat → take_while_iterator ρ ι β → take_while_iterator ρ ι β → List β →
      Except Fault (List β × List β)
  | 0, _, _, _ => .error .out_of_fuel
  | n + 1, it, last, log => do
    if ← it.ne fuel last then
      let v ← it.deref fuel
      let (it, log) ← it.next_logged fuel log
      let (rest, log) ← traverse_logged fuel n it last log
      pure (v :: rest, log)
    else
      pure ([], log)

end take_while_iterator

/-- One complete traversal of a take-while view (one `begin()`, one `end()`, then the
range-based `for` loop) with the recording predicate: the elements yielded and the elements
on which the predicate was evaluated, in order of evaluation. The end constructor does not
call the predicate. -/
def take_while_range_view.elements_logged {ρ ι β : Type} [Sequence ρ ι] [Iterator ι β]
    (fuel : Nat) (v : take_while_range_view ρ β) : Except Fault (List β × List β) := do
  let (first, log) ← take_while_iterator.make_logged fuel v.range.get v.pred []
  let last ← take_while_iterator.make_end fuel v.range.get v.pred
  take_while_iterator.traverse_logged fuel fuel first last log

/-! ## The skip loop of the flatten iterator with a count of its iterations -/

namespace iterator_flattener

variable {ρ ιo ρi ιi β : Type} [Sequence ρ ιo] [Iterator ιo ρi] [Sequence ρi ιi] [Iterator ιi β]

/-- The loop `while (outer_it != outer_end && inner == outer_it->end())` of `operator++`
together with the number of times its body has run. -/
def skip_loop_counted (fuel : Nat) (outer_end : ιo) :
    Nat → iterator_flattener ρ ιo ιi → Nat → Except Fault (iterator_flattener ρ ιo ιi × Nat)
  | 0, _, _ => .error .out_of_fuel
  | n + 1, f, count => do
    if ← Iterator.ne fuel f.tracker.current outer_end then
      let sub ← Iterator.deref fuel f.tracker.current
      let sub_end ← Sequence.end_ fuel sub
      if ← Iterator.eq fuel f.inner sub_end then
        let outer_it ← Iterator.next fuel f.tracker.current
        let f : iterator_flattener ρ ιo ιi := ⟨f.tracker.set_to outer_it, f.inner⟩
        if ← Iterator.ne fuel outer_it outer_end then
          let o ← f.outer fuel
          let sub ← Iterator.deref fuel o
          let inner ← Sequence.begin fuel sub
          skip_loop_counted fuel outer_end n ⟨f.tracker, inner⟩ (count + 1)
        else
          skip_loop_counted fuel outer_end n f (count + 1)
      else
        pure (f, count)
    else
      pure (f, count)

end iterator_flattener

/-! ## Tuple traits on packs (`tuple_traits.hh`) -/

mutual
/-- Identity of two types, which `std::is_same` and the choice of a partial specialisation
decide, on the structure of the types. -/
def cpp_type.decEq : (a b : cpp_type) → Decidable (a = b)
  | .void_, .void_ => isTrue rfl
  | .void_, .named _ => isFalse (fun h => cpp_type.noConfusion h)
  | .void_, .integral_constant _ => isFalse (fun h => cpp_type.noConfusion h)
  | .void_, .tuple _ => isFalse (fun h => cpp_type.noConfusion h)
  | .named _, .void_ => isFalse (fun h => cpp_type.noConfusion h)
  | .named a, .named b =>
    if h : a = b then isTrue (congrArg cpp_type.named h)
    else isFalse (fun e => h (cpp_type.named.inj e))
  | .named _, .integral_constant _ => isFalse (fun h => cpp_type.noConfusion h)
  | .named _, .tuple _ => isFalse (fun h => cpp_type.noConfusion h)
  | .integral_constant _, .void_ => isFalse (fun h => cpp_type.noConfusion h)
  | .integral_constant _, .named _ => isFalse (fun h => cpp_type.noConfusion h)
  | .integral_constant a, .integral_constant b =>
    if h : a = b then isTrue (congrArg cpp_type.integral_constant h)
    else isFalse (fun e => h (cpp_type.integral_constant.inj e))
  | .integral_constant _, .tuple _ => isFalse (fun h => cpp_type.noConfusion h)
  | .tuple _, .void_ => isFalse (fun h => cpp_type.noConfusion h)
  | .tuple _, .named _ => isFalse (fun h => cpp_type.noConfusion h)
  | .tuple _, .integral_constant _ => isFalse (fun h => cpp_type.noConfusion h)
  | .tuple as, .tuple bs =>
    match cpp_type.decEq_pack as bs with
    | isTrue h => isTrue (congrArg cpp_type.tuple h)
    | isFalse h => isFalse (fun e => h (cpp_type.tuple.inj e))
/-- Identity of two packs of types, element by element. -/
def cpp_type.decEq_pack : (as bs : List cpp_type) → Decidable (as = bs)
  | [], [] => isTrue rfl
  | [], _ :: _ => isFalse (fun h => List.noConfusion h)
  | _ :: _, [] => isFalse (fun h => List.noConfusion h)
  | a :: as, b :: bs =>
    match cpp_type.decEq a b, cpp_type.decEq_pack as bs with
    | isTrue h₁, isTrue h₂ => isTrue (by rw [h₁, h₂])
    | isFalse h₁, _ => isFalse (fun e => h₁ (List.cons.inj e).1)
    | _, isFalse h₂ => isFalse (fun e => h₂ (List.cons.inj e).2)
end

instance instDecidableEqCppType : DecidableEq cpp_type := cpp_type.decEq

namespace tuple_traits

/-- Matching a type against the pattern `std::tuple<Ts...>` of a partial specialisation: the
pack `Ts...`. A type that is not a tuple matches the primary template only, which is declared
and not defined, so there is no result. -/
def pack_of : cpp_type → Option (List cpp_type)
  | .tuple ts => some ts
  | _ => none

/-- The value `std::is_same<T, U>::value`. -/
def is_same (T U : cpp_type) : Bool := decide (T = U)

/-- The trait `extend<Tuples...>` (`extend_t`):
`decltype(std::tuple_cat(std::declval<Tuples>()...))`, the tuple of the elements of all the
tuples, in order. -/
def extend : List cpp_type → Option cpp_type
  | [] => some (.tuple [])
  | t :: rest => do
    let ts ← pack_of t
    let r ← extend rest
    let rs ← pack_of r
    pure (.tuple (ts ++ rs))

/-- The trait `tuple_remove_helper<T, std::tuple<...>>`; the tuple is given by its pack. -/
def tuple_remove_helper (T : cpp_type) : List cpp_type → Option cpp_type
  | [] => some (.tuple [])
  | Head :: Tail => do
    let rest ← tuple_remove_helper T Tail
    extend [if !is_same Head T then .tuple [Head] else .tuple [], rest]

/-- The trait `remove<Tuple, T>` (`remove_t`): `tuple_remove_helper<T, Tuple>::type`. -/
def remove (Tuple T : cpp_type) : Option cpp_type := do
  let ts ← pack_of Tuple
  tuple_remove_helper T ts

/-- The trait `any_of<std::tuple<...>, Predicate>` (`any_of_v`); the tuple is given by its
pack, and `Predicate` by the value `Predicate<T>::value` for each type `T`. -/
def any_of : List cpp_type → (cpp_type → Bool) → Bool
  | [], _ => false
  | Head :: Tail, Predicate => if Predicate Head then true else any_of Tail Predicate

/-- The trait `none_of<std::tuple<...>, Predicate>` (`none_of_v`); the tuple is given by its
pack. -/
def none_of : List cpp_type → (cpp_type → Bool) → Bool
  | [], _ => true
  | Head :: Tail, Predicate => if Predicate Head then false else none_of Tail Predicate

/-- The trait `all_of<std::tuple<...>, Predicate>` (`all_of_v`); the tuple is given by its
pack. -/
def all_of : List cpp_type → (cpp_type → Bool) → Bool
  | [], _ => true
  | Head :: Tail, Predicate => if !Predicate Head then false else all_of Tail Predicate

/-- The trait `contains<std::tuple<...>, T>` (`contains_v`); the tuple is given by its pack.
The specialisation `contains<std::tuple<T, Tail...>, T>` is the more specialised one and is
chosen when the head is `T`. -/
def contains : List cpp_type → cpp_type → Bool
  | [], _ => false
  | Head :: Tail, T => if is_same Head T then true else contains Tail T

/-- The trait `filter<std::tuple<...>, Predicate>` (`filter_t`); the tuple is given by its
pack. -/
def filter : List cpp_type → (cpp_type → Bool) → Option cpp_type
  | [], _ => some (.tuple [])
  | Head :: Tail, Predicate => do
    let rest ← filter Tail Predicate
    extend [if Predicate Head then .tuple [Head] else .tuple [], rest]

/-- The trait `unique<std::tuple<...>>` (`unique_t`); the tuple is given by its pack. The
recursion is on `remove_t<std::tuple<Tail...>, Head>`, so it is bounded by `depth`, the
depth of template instantiation: no result when the depth is used up. -/
def unique : Nat → List cpp_type → Option cpp_type
  | 0, _ => none
  | _ + 1, [] => some (.tuple [])
  | depth + 1, Head :: Tail => do
    let removed ← remove (.tuple Tail) Head
    let rest ← pack_of removed
    let u ← unique depth rest
    extend [.tuple [Head], u]

/-- The trait `subtract<Tuple1, std::tuple<...>>` (`subtract_t`); the second tuple is given
by its pack. -/
def subtract : cpp_type → List cpp_type → Option cpp_type
  | Tuple1, [] => some Tuple1
  | Tuple1, Tuple2Head :: Tuple2Tail => do
    let removed ← remove Tuple1 Tuple2Head
    subtract removed Tuple2Tail

/-- The trait `zip<std::tuple<...>, std::tuple<...>>` (`zip_t`); both tuples are given by
their packs. An empty and a non-empty tuple match no specialisation, and the `static_assert`
requires equal sizes. -/
def zip : List cpp_type → List cpp_type → Option cpp_type
  | [], [] => some (.tuple [])
  | Head1 :: Tail1, Head2 :: Tail2 =>
    if (Head1 :: Tail1).length = (Head2 :: Tail2).length then do
      let rest ← zip Tail1 Tail2
      extend [.tuple [.tuple [Head1, Head2]], rest]
    else
      none
  | _, _ => none

/-- The alias `std::index_sequence_for<Ts...>`: the indices `0, ..., sizeof...(Ts) - 1`. -/
def index_sequence_for (Ts : List cpp_type) : List Nat := List.range Ts.length

/-- The trait `detail::to_tuple<std::integer_sequence<T, Is...>>` (`to_tuple_t`):
`std::tuple<std::integral_constant<T, Is>...>`. -/
def detail.to_tuple (Is : List Nat) : cpp_type := .tuple (Is.map .integral_constant)

/-- The trait `enumerate<std::tuple<Ts...>>` (`enumerate_t`); the tuple is given by its
pack. -/
def enumerate (Ts : List cpp_type) : Option cpp_type := do
  let indices ← pack_of (detail.to_tuple (index_sequence_for Ts))
  zip indices Ts

end tuple_traits

/-! # Verification -/

/-! ## Evaluation lemmas -/

section eval_lemmas

variable {α β γ : Type}

@[simp] theorem ok_bind {ε : Type} (a : α) (f : α → Except ε β) :
    (Except.ok a >>= f) = f a := rfl

@[simp] theorem error_bind {ε : Type} (e : ε) (f : α → Except ε β) :
    ((Except.error e : Except ε α) >>= f) = Except.error e := rfl

@[simp] theorem pure_eq_ok {ε : Type} (a : α) : (pure a : Except ε α) = Except.ok a := rfl

/-- A run that yields `r` still yields it with one more element consed in front afterwards. -/
theorem bind_cons_of_bind {ε σ : Type} {m : Except ε σ} {f : σ → Except ε (List β)}
    {r : List β} (h : (m >>= f) = .ok r) (x : β) :
    (m >>= fun s => f s >>= fun rest => Except.ok (x :: rest)) = .ok (x :: r) := by
  cases m with
  | error e => simp at h
  | ok s =>
    simp only [ok_bind] at h ⊢
    rw [h]
    rfl

@[simp] theorem vector_deref (fuel : Nat) (it : vector_iterator α) :
    Iterator.deref fuel it = it.deref := rfl

@[simp] theorem vector_next (fuel : Nat) (it : vector_iterator α) :
    Iterator.next fuel it = it.next := rfl

@[simp] theorem vector_ne (fuel : Nat) (a b : vector_iterator α) :
    Iterator.ne fuel a b = .ok (a.pos != b.pos) := rfl

@[simp] theorem vector_eq (fuel : Nat) (a b : vector_iterator α) :
    Iterator.eq fuel a b = .ok (a.pos == b.pos) := rfl

@[simp] theorem vector_begin (fuel : Nat) (xs : List α) :
    Sequence.begin fuel xs = .ok (⟨xs, 0⟩ : vector_iterator α) := rfl

@[simp] theorem vector_end (fuel : Nat) (xs : List α) :
    Sequence.end_ fuel xs = .ok (⟨xs, xs.length⟩ : vector_iterator α) := rfl

/-- Dereferencing the position after the prefix `pre` yields the next element. -/
theorem vector_deref_append (pre suf : List α) (x : α) :
    vector_iterator.deref ⟨pre ++ x :: suf, pre.length⟩ = .ok x := by
  have h : (pre ++ x :: suf)[pre.length]? = some x := by
    rw [List.getElem?_append_right (Nat.le_refl _)]
    simp
  simp only [vector_iterator.deref, h]

/-- Incrementing the position after the prefix `pre` moves over the next element. -/
theorem vector_next_append (pre suf : List α) (x : α) :
    vector_iterator.next ⟨pre ++ x :: suf, pre.length⟩ = .ok ⟨pre ++ x :: suf, pre.length + 1⟩ := by
  simp [vector_iterator.next]

@[simp] theorem adaptor_deref {ι : Type} [Iterator ι α] (fuel : Nat) (it : iterator_adaptor ι α γ) :
    Iterator.deref fuel it = it.deref fuel := rfl

@[simp] theorem adaptor_next {ι : Type} [Iterator ι α] (fuel : Nat) (it : iterator_adaptor ι α γ) :
    Iterator.next fuel it = it.next fuel := rfl

@[simp] theorem adaptor_ne {ι : Type} [Iterator ι α] (fuel : Nat) (a b : iterator_adaptor ι α γ) :
    Iterator.ne fuel a b = Iterator.ne fuel a.orig b.orig := rfl

@[simp] theorem adaptor_eq {ι : Type} [Iterator ι α] (fuel : Nat) (a b : iterator_adaptor ι α γ) :
    Iterator.eq fuel a b = Iterator.eq fuel a.orig b.orig := rfl

@[simp] theorem filter_deref {ι : Type} [Iterator ι α] (fuel : Nat) (it : iterator_filter ι α) :
    Iterator.deref fuel it = Iterator.deref fuel it.orig := rfl

@[simp] theorem filter_next {ι : Type} [Iterator ι α] (fuel : Nat) (it : iterator_filter ι α) :
    Iterator.next fuel it = it.next fuel := rfl

@[simp] theorem filter_ne {ι : Type} [Iterator ι α] (fuel : Nat) (a b : iterator_filter ι α) :
    Iterator.ne fuel a b = Iterator.ne fuel a.orig b.orig := rfl

@[simp] theorem filter_eq {ι : Type} [Iterator ι α] (fuel : Nat) (a b : iterator_filter ι α) :
    Iterator.eq fuel a b = Iterator.eq fuel a.orig b.orig := rfl

end eval_lemmas

/-! ## Filter -/

section filter_proofs

variable {α : Type}

/-- The skip loop of the filter iterator followed by the rest of the traversal yields the
matching elements of what lies at and after the position. -/
theorem filter_loop_traverse (p : α → Bool) (fuel : Nat) :
    ∀ (suf pre : List α) (m n : Nat), suf.length < m → suf.length < n → suf.length ≤ fuel →
      (iterator_filter.advance_loop fuel m
          (⟨⟨pre ++ suf, pre.length⟩, p, ⟨pre ++ suf, (pre ++ suf).length⟩⟩ :
            iterator_filter (vector_iterator α) α) >>=
        fun it => traverse fuel n it ⟨⟨pre ++ suf, (pre ++ suf).length⟩, p,
          ⟨pre ++ suf, (pre ++ suf).length⟩⟩) = .ok (suf.filter p) := by
  intro suf
  induction suf with
  | nil =>
    intro pre m n hm hn _
    obtain ⟨m, rfl⟩ := Nat.exists_eq_succ_of_ne_zero (Nat.pos_iff_ne_zero.mp hm)
    obtain ⟨n, rfl⟩ := Nat.exists_eq_succ_of_ne_zero (Nat.pos_iff_ne_zero.mp hn)
    simp [iterator_filter.advance_loop, traverse]
  | cons x suf ih =>
    intro pre m n hm hn hf
    obtain ⟨m, rfl⟩ := Nat.exists_eq_succ_of_ne_zero (Nat.pos_iff_ne_zero.mp (Nat.zero_lt_of_lt hm))
    obtain ⟨n, rfl⟩ := Nat.exists_eq_succ_of_ne_zero (Nat.pos_iff_ne_zero.mp (Nat.zero_lt_of_lt hn))
    simp only [List.length_cons] at hm hn hf
    have h₁ := ih (pre ++ [x]) m (n + 1) (by omega) (by omega) (by omega)
    have h₂ := ih (pre ++ [x]) fuel n (by omega) (by omega) (by omega)
    simp only [List.append_assoc, List.singleton_append, List.length_append, List.length_singleton,
      List.length_cons, List.length_nil, Nat.zero_add] at h₁ h₂
    by_cases hx : p x = true
    · simp [iterator_filter.advance_loop, traverse, iterator_filter.next, vector_deref_append,
        vector_next_append, hx]
      exact bind_cons_of_bind h₂ x
    · simp [iterator_filter.advance_loop, vector_deref_append, vector_next_append, hx, h₁]

/-- C1: for every vector `S` and predicate `p`, traversing `filter(S, p)` from `begin()`
to `end()` yields exactly the elements of `S` that satisfy `p`, each once and in their
original order: the traversal returns `List.filter p S`, for every iteration bound above
the length of `S`. -/
theorem elements_filter_eq_filter (S : List α) (p : α → Bool) (fuel : Nat)
    (h : S.length < fuel) :
    elements fuel (filter S p) = .ok (S.filter p) := by
  obtain ⟨k, rfl⟩ := Nat.exists_eq_succ_of_ne_zero (Nat.pos_iff_ne_zero.mp (Nat.zero_lt_of_lt h))
  cases S with
  | nil => simp [elements, filter, Sequence.begin, Sequence.end_, basic_keeper.get,
      iterator_filter.make, traverse]
  | cons x S =>
    simp only [List.length_cons] at h
    have h₁ := filter_loop_traverse p (k + 1) S [x] (k + 1) (k + 1) (by omega) (by omega) (by omega)
    have h₂ := filter_loop_traverse p (k + 1) S [x] (k + 1) k (by omega) (by omega) (by omega)
    simp only [List.singleton_append, List.length_singleton, List.length_cons] at h₁ h₂
    have hd := vector_deref_append [] S x
    have hn := vector_next_append [] S x
    simp only [List.nil_append, List.length_nil, Nat.zero_add] at hd hn
    by_cases hx : p x = true
    · simp [elements, filter, Sequence.begin, Sequence.end_, basic_keeper.get,
        iterator_filter.make, traverse, iterator_filter.next, hd, hn, hx]
      exact bind_cons_of_bind h₂ x
    · simp [elements, filter, Sequence.begin, Sequence.end_, basic_keeper.get,
        iterator_filter.make, iterator_filter.next, hd, hn, hx]
      exact h₁

/-- Witness of `elements_filter_eq_filter` on the vector `[1, 2, 3, 4]` and the even numbers. -/
theorem elements_filter_eq_filter_witness :
    [1, 2, 3, 4].length < 5 ∧
      elements 5 (filter [1, 2, 3, 4] (fun n : Nat => n % 2 == 0)) =
        .ok ([1, 2, 3, 4].filter (fun n : Nat => n % 2 == 0)) :=
  ⟨by decide, elements_filter_eq_filter [1, 2, 3, 4] _ 5 (by decide)⟩

end filter_proofs


/-! ## Transform -/

section transform_proofs

variable {α γ : Type}

/-- Traversal of the mapped vector from the position after `pre` yields the images of the
remaining elements. -/
theorem traverse_transform (f : α → γ) (fuel : Nat) :
    ∀ (suf pre : List α) (n : Nat), suf.length < n →
      traverse fuel n (⟨⟨pre ++ suf, pre.length⟩, f⟩ : iterator_adaptor (vector_iterator α) α γ)
        ⟨⟨pre ++ suf, (pre ++ suf).length⟩, f⟩ = .ok (suf.map f) := by
  intro suf
  induction suf with
  | nil =>
    intro pre n hn
    obtain ⟨n, rfl⟩ := Nat.exists_eq_succ_of_ne_zero (Nat.pos_iff_ne_zero.mp hn)
    simp [traverse]
  | cons x suf ih =>
    intro pre n hn
    obtain ⟨n, rfl⟩ := Nat.exists_eq_succ_of_ne_zero (Nat.pos_iff_ne_zero.mp (Nat.zero_lt_of_lt hn))
    have h := ih (pre ++ [x]) n (by simpa using hn)
    simp only [List.append_assoc, List.singleton_append, List.length_append, List.length_singleton,
      List.length_cons, List.length_nil, Nat.zero_add] at h
    simp [traverse, iterator_adaptor.deref, iterator_adaptor.next, vector_deref_append,
      vector_next_append, h]

/-- C2: for every vector `S` and function `f`, traversing `transform(S, f)` from `begin()`
to `end()` yields `f(x)` for each element `x` of `S`, in order and with the length of `S`:
the traversal returns `List.map f S`, for every iteration bound above the length of `S`. -/
theorem elements_transform_eq_map (S : List α) (f : α → γ) (fuel : Nat)
    (h : S.length < fuel) :
    elements fuel (transform S f) = .ok (S.map f) ∧ (S.map f).length = S.length := by
  have := traverse_transform f fuel S [] fuel h
  refine ⟨?_, List.length_map S f⟩
  simpa [elements, transform, Sequence.begin, Sequence.end_, basic_keeper.get] using this

/-- Witness of `elements_transform_eq_map` on the vector `[1, 2, 3]` and `n + 2`. -/
theorem elements_transform_eq_map_witness :
    [1, 2, 3].length < 4 ∧
      elements 4 (transform [1, 2, 3] (fun n : Nat => n + 2)) =
        .ok ([1, 2, 3].map (fun n : Nat => n + 2)) :=
  ⟨by decide, (elements_transform_eq_map [1, 2, 3] _ 4 (by decide)).1⟩

end transform_proofs

/-! ## Concatenate -/

section concatenate_proofs

variable {α : Type}

@[simp] theorem concatenator_deref {ρ₁ ρ₂ ι₁ ι₂ β : Type} [Sequence ρ₁ ι₁] [Sequence ρ₂ ι₂]
    [Iterator ι₁ β] [Iterator ι₂ β] (fuel : Nat) (c : iterator_concatenator ρ₁ ρ₂ ι₁ ι₂) :
    Iterator.deref fuel c = c.deref fuel := rfl

@[simp] theorem concatenator_next {ρ₁ ρ₂ ι₁ ι₂ β : Type} [Sequence ρ₁ ι₁] [Sequence ρ₂ ι₂]
    [Iterator ι₁ β] [Iterator ι₂ β] (fuel : Nat) (c : iterator_concatenator ρ₁ ρ₂ ι₁ ι₂) :
    Iterator.next fuel c = c.next fuel := rfl

@[simp] theorem concatenator_ne {ρ₁ ρ₂ ι₁ ι₂ β : Type} [Sequence ρ₁ ι₁] [Sequence ρ₂ ι₂]
    [Iterator ι₁ β] [Iterator ι₂ β] (fuel : Nat) (c rhs : iterator_concatenator ρ₁ ρ₂ ι₁ ι₂) :
    Iterator.ne fuel c rhs = c.ne fuel rhs := rfl

@[simp] theorem concatenator_eq {ρ₁ ρ₂ ι₁ ι₂ β : Type} [Sequence ρ₁ ι₁] [Sequence ρ₂ ι₂]
    [Iterator ι₁ β] [Iterator ι₂ β] (fuel : Nat) (c rhs : iterator_concatenator ρ₁ ρ₂ ι₁ ι₂) :
    Iterator.eq fuel c rhs = c.eq fuel rhs := rfl

/-- Once the first range has ended, the traversal yields what remains of the second. -/
theorem traverse_concatenate_second (a : List α) (fuel : Nat) :
    ∀ (suf pre : List α) (n : Nat), suf.length < n →
      traverse fuel n
        (⟨⟨(a, pre ++ suf), (⟨a, a.length⟩, ⟨pre ++ suf, pre.length⟩)⟩⟩ :
          iterator_concatenator (List α) (List α) (vector_iterator α) (vector_iterator α))
        ⟨⟨(a, pre ++ suf), (⟨a, a.length⟩, ⟨pre ++ suf, (pre ++ suf).length⟩)⟩⟩ = .ok suf := by
  intro suf
  induction suf with
  | nil =>
    intro pre n hn
    obtain ⟨n, rfl⟩ := Nat.exists_eq_succ_of_ne_zero (Nat.pos_iff_ne_zero.mp hn)
    simp [traverse, iterator_concatenator.ne, iterator_concatenator.eq, range_tracker2.get0,
      range_tracker2.get1]
  | cons x suf ih =>
    intro pre n hn
    obtain ⟨n, rfl⟩ := Nat.exists_eq_succ_of_ne_zero (Nat.pos_iff_ne_zero.mp (Nat.zero_lt_of_lt hn))
    have h := ih (pre ++ [x]) n (by simpa using hn)
    simp only [List.append_assoc, List.singleton_append, List.length_append, List.length_singleton,
      List.length_cons, List.length_nil, Nat.zero_add] at h
    simp [traverse, iterator_concatenator.ne, iterator_concatenator.eq, range_tracker2.get0,
      range_tracker2.get1, iterator_concatenator.deref, iterator_concatenator.next,
      vector_deref_append, vector_next_append, h]

/-- While the first range has not ended, the traversal yields what remains of it and then
the whole second range. -/
theorem traverse_concatenate_first (b : List α) (fuel : Nat) :
    ∀ (suf pre : List α) (n : Nat), suf.length + b.length < n →
      traverse fuel n
        (⟨⟨(pre ++ suf, b), (⟨pre ++ suf, pre.length⟩, ⟨b, 0⟩)⟩⟩ :
          iterator_concatenator (List α) (List α) (vector_iterator α) (vector_iterator α))
        ⟨⟨(pre ++ suf, b), (⟨pre ++ suf, (pre ++ suf).length⟩, ⟨b, b.length⟩)⟩⟩ =
        .ok (suf ++ b) := by
  intro suf
  induction suf with
  | nil =>
    intro pre n hn
    have h := traverse_concatenate_second pre fuel b [] n (by simpa using hn)
    simpa using h
  | cons x suf ih =>
    intro pre n hn
    obtain ⟨n, rfl⟩ := Nat.exists_eq_succ_of_ne_zero (Nat.pos_iff_ne_zero.mp (Nat.zero_lt_of_lt hn))
    have h := ih (pre ++ [x]) n (by simp only [List.length_cons] at hn; omega)
    simp only [List.append_assoc, List.singleton_append, List.length_append, List.length_singleton,
      List.length_cons, List.length_nil, Nat.zero_add] at h
    simp [traverse, iterator_concatenator.ne, iterator_concatenator.eq, range_tracker2.get0,
      range_tracker2.get1, iterator_concatenator.deref, iterator_concatenator.next,
      vector_deref_append, vector_next_append, h]

/-- C3: for every pair of vectors `a` and `b`, traversing `concatenate(a, b)` from `begin()`
to `end()` yields all elements of `a` in order followed by all elements of `b` in order:
the traversal returns `a ++ b`, of length `|a| + |b|`, for every iteration bound above
`|a| + |b|`. -/
theorem elements_concatenate_eq_append (a b : List α) (fuel : Nat)
    (h : a.length + b.length < fuel) :
    elements fuel (concatenate a b) = .ok (a ++ b) ∧ (a ++ b).length = a.length + b.length := by
  have := traverse_concatenate_first b fuel a [] fuel h
  refine ⟨?_, List.length_append a b⟩
  simpa [elements, concatenate, Sequence.begin, Sequence.end_, basic_keeper.get,
    iterator_concatenator.make, iterator_concatenator.make_end, range_tracker2.begin_of,
    range_tracker2.end_of] using this

/-- Witness of `elements_concatenate_eq_append` on `[1, 2]` and `[3, 4, 5]`. -/
theorem elements_concatenate_eq_append_witness :
    [1, 2].length + [3, 4, 5].length < 6 ∧
      elements 6 (concatenate [1, 2] [3, 4, 5]) = .ok ([1, 2] ++ [3, 4, 5]) :=
  ⟨by decide, (elements_concatenate_eq_append [1, 2] [3, 4, 5] 6 (by decide)).1⟩

end concatenate_proofs


/-! ## Zip -/

section zip_proofs

variable {α β γ : Type}

@[simp] theorem zipper_deref {ι₁ ι₂ β₁ β₂ : Type} [Iterator ι₁ β₁] [Iterator ι₂ β₂] (fuel : Nat)
    (z : iterator_zipper ι₁ ι₂ β₁ β₂ γ) : Iterator.deref fuel z = z.deref fuel := rfl

@[simp] theorem zipper_next {ι₁ ι₂ β₁ β₂ : Type} [Iterator ι₁ β₁] [Iterator ι₂ β₂] (fuel : Nat)
    (z : iterator_zipper ι₁ ι₂ β₁ β₂ γ) : Iterator.next fuel z = z.next fuel := rfl

@[simp] theorem zipper_ne {ι₁ ι₂ β₁ β₂ : Type} [Iterator ι₁ β₁] [Iterator ι₂ β₂] (fuel : Nat)
    (z rhs : iterator_zipper ι₁ ι₂ β₁ β₂ γ) : Iterator.ne fuel z rhs = z.ne fuel rhs := rfl

@[simp] theorem zipper_eq {ι₁ ι₂ β₁ β₂ : Type} [Iterator ι₁ β₁] [Iterator ι₂ β₂] (fuel : Nat)
    (z rhs : iterator_zipper ι₁ ι₂ β₁ β₂ γ) : Iterator.eq fuel z rhs = z.eq fuel rhs := rfl

/-- Traversal of the zipped vectors from the positions after `preA` and `preB` combines
the remaining elements pairwise, up to the end of the shorter remainder. -/
theorem traverse_zip (f : α → β → γ) (fuel : Nat) :
    ∀ (sufA : List α) (sufB : List β) (preA : List α) (preB : List β) (n : Nat),
      min sufA.length sufB.length < n →
      traverse fuel n
        (⟨f, ⟨(⟨preA ++ sufA, preA.length⟩, ⟨preB ++ sufB, preB.length⟩)⟩⟩ :
          iterator_zipper (vector_iterator α) (vector_iterator β) α β γ)
        ⟨f, ⟨(⟨preA ++ sufA, (preA ++ sufA).length⟩, ⟨preB ++ sufB, (preB ++ sufB).length⟩)⟩⟩ =
        .ok (List.zipWith f sufA sufB) := by
  intro sufA
  induction sufA with
  | nil =>
    intro sufB preA preB n hn
    obtain ⟨n, rfl⟩ := Nat.exists_eq_succ_of_ne_zero (Nat.pos_iff_ne_zero.mp (Nat.zero_lt_of_lt hn))
    simp [traverse, iterator_zipper.ne, iterator_zipper.has_next_helper]
  | cons x sufA ih =>
    intro sufB preA preB n hn
    obtain ⟨n, rfl⟩ := Nat.exists_eq_succ_of_ne_zero (Nat.pos_iff_ne_zero.mp (Nat.zero_lt_of_lt hn))
    cases sufB with
    | nil => simp [traverse, iterator_zipper.ne, iterator_zipper.has_next_helper]
    | cons y sufB =>
      have h := ih sufB (preA ++ [x]) (preB ++ [y]) n
        (by simp only [List.length_cons] at hn; omega)
      simp only [List.append_assoc, List.singleton_append, List.length_append,
        List.length_singleton, List.length_cons, List.length_nil, Nat.zero_add] at h
      simp [traverse, iterator_zipper.ne, iterator_zipper.has_next_helper, iterator_zipper.deref,
        iterator_zipper.next, iterator_tracker.next_all, vector_deref_append, vector_next_append, h]

/-- C4: for every pair of vectors `A` and `B` and combining function `f`, traversing the zip
view of `A` and `B` from `begin()` to `end()` yields exactly `min(|A|, |B|)` elements, the
`i`-th being `f(A[i], B[i])`: the traversal returns `List.zipWith f A B`, for every
iteration bound above `min(|A|, |B|)`. -/
theorem elements_zip_eq_zipWith (A : List α) (B : List β) (f : α → β → γ) (fuel : Nat)
    (h : min A.length B.length < fuel) :
    elements fuel (zip f A B) = .ok (List.zipWith f A B) ∧
      (List.zipWith f A B).length = min A.length B.length ∧
      ∀ (i : Nat) (hA : i < A.length) (hB : i < B.length),
        (List.zipWith f A B)[i]? = some (f (A.get ⟨i, hA⟩) (B.get ⟨i, hB⟩)) := by
  have := traverse_zip f fuel A B [] [] fuel h
  refine ⟨?_, List.length_zipWith f A B, ?_⟩
  · simpa [elements, zip, Sequence.begin, Sequence.end_, basic_keeper.get,
      iterator_zipper.make, iterator_zipper.make_end, iterator_tracker.begin_from_ranges,
      iterator_tracker.end_from_ranges] using this
  · intro i hA hB
    simp [List.getElem?_zipWith, List.getElem?_eq_getElem hA, List.getElem?_eq_getElem hB]

/-- Witness of `elements_zip_eq_zipWith` on `[1, 2, 3]`, `[10, 20]` and addition. -/
theorem elements_zip_eq_zipWith_witness :
    min [1, 2, 3].length [10, 20].length < 3 ∧
      elements 3 (zip (fun a b : Nat => a + b) [1, 2, 3] [10, 20]) =
        .ok (List.zipWith (fun a b : Nat => a + b) [1, 2, 3] [10, 20]) :=
  ⟨by decide, (elements_zip_eq_zipWith [1, 2, 3] [10, 20] _ 3 (by decide)).1⟩

end zip_proofs

/-! ## Take -/

section take_proofs

variable {α : Type}

@[simp] theorem take_deref {ρ ι β : Type} [Sequence ρ ι] [Iterator ι β] (fuel : Nat)
    (t : take_iterator ρ ι) : Iterator.deref fuel t = t.deref fuel := rfl

@[simp] theorem take_next {ρ ι β : Type} [Sequence ρ ι] [Iterator ι β] (fuel : Nat)
    (t : take_iterator ρ ι) : Iterator.next fuel t = t.next fuel := rfl

@[simp] theorem take_ne {ρ ι β : Type} [Sequence ρ ι] [Iterator ι β] (fuel : Nat)
    (t rhs : take_iterator ρ ι) : Iterator.ne fuel t rhs = .ok (t.n != 0) := rfl

@[simp] theorem take_eq {ρ ι β : Type} [Sequence ρ ι] [Iterator ι β] (fuel : Nat)
    (t rhs : take_iterator ρ ι) : Iterator.eq fuel t rhs = .ok (!(t.n != 0)) := rfl

/-- Decrementing a positive `size_t` does not wrap. -/
theorem size_type_decrement_succ (m : Nat) (h : m + 1 < 2 ^ size_bits) :
    size_type_decrement (m + 1) = m := by
  unfold size_type_decrement
  have h2 : 0 < 2 ^ size_bits := Nat.pow_pos (by decide)
  have : m + 1 + (2 ^ size_bits - 1) = m + 2 ^ size_bits := by omega
  rw [this, Nat.add_mod_right, Nat.mod_eq_of_lt (by omega)]

/-- The distance from the position after `pre` to the end is the number of remaining elements. -/
theorem std_distance_vector (fuel : Nat) :
    ∀ (suf pre : List α) (n : Nat), suf.length < n →
      std_distance fuel n (⟨pre ++ suf, pre.length⟩ : vector_iterator α)
        ⟨pre ++ suf, (pre ++ suf).length⟩ = .ok suf.length := by
  intro suf
  induction suf with
  | nil =>
    intro pre n hn
    obtain ⟨n, rfl⟩ := Nat.exists_eq_succ_of_ne_zero (Nat.pos_iff_ne_zero.mp hn)
    simp [std_distance]
  | cons x suf ih =>
    intro pre n hn
    obtain ⟨n, rfl⟩ := Nat.exists_eq_succ_of_ne_zero (Nat.pos_iff_ne_zero.mp (Nat.zero_lt_of_lt hn))
    have h := ih (pre ++ [x]) n (by simpa using hn)
    simp only [List.append_assoc, List.singleton_append, List.length_append, List.length_singleton,
      List.length_cons, List.length_nil, Nat.zero_add] at h
    simp [std_distance, vector_next_append, h]

/-- Traversal of a take cursor with remaining count `m` at the position after `pre` yields
the next `m` elements. -/
theorem traverse_take (fuel : Nat) :
    ∀ (m : Nat) (suf pre : List α) (last : take_iterator (List α) (vector_iterator α)) (n : Nat),
      m ≤ suf.length → m < n → m < 2 ^ size_bits →
      traverse fuel n
        (⟨⟨pre ++ suf, ⟨pre ++ suf, pre.length⟩⟩, m⟩ : take_iterator (List α) (vector_iterator α))
        last = .ok (suf.take m) := by
  intro m
  induction m with
  | zero =>
    intro suf pre last n _ hn _
    obtain ⟨n, rfl⟩ := Nat.exists_eq_succ_of_ne_zero (Nat.pos_iff_ne_zero.mp hn)
    simp [traverse]
  | succ m ih =>
    intro suf pre last n hm hn hs
    obtain ⟨n, rfl⟩ := Nat.exists_eq_succ_of_ne_zero (Nat.pos_iff_ne_zero.mp (Nat.zero_lt_of_lt hn))
    cases suf with
    | nil => simp at hm
    | cons x suf =>
      have h := ih suf (pre ++ [x]) last n (by simpa using hm) (by omega) (by omega)
      simp only [List.append_assoc, List.singleton_append, List.length_append,
        List.length_singleton, List.length_cons, List.length_nil, Nat.zero_add] at h
      simp [traverse, take_iterator.deref, take_iterator.next, range_tracker.get,
        range_tracker.next, vector_deref_append, vector_next_append,
        size_type_decrement_succ m hs, h]

/-- C8: for every vector `S` and count `n` (a `size_t`), traversing `take(S, n)` from
`begin()` to `end()` yields exactly the first `min(n, |S|)` elements of `S` in order: the
traversal returns `List.take n S`, for every iteration bound above the length of `S`; in
particular it returns `S` whenever `n >= |S|`. -/
theorem elements_take_eq_take (S : List α) (n : Nat) (fuel : Nat)
    (hn : n < 2 ^ size_bits) (h : S.length < fuel) :
    elements fuel (take S n) = .ok (S.take n) ∧ (S.take n).length = min n S.length ∧
      (S.length ≤ n → elements fuel (take S n) = .ok S) := by
  have hd := std_distance_vector fuel S [] fuel h
  have ht := traverse_take fuel (min n S.length) S []
    (⟨⟨S, ⟨S, 0⟩⟩, 0⟩ : take_iterator (List α) (vector_iterator α)) fuel
    (Nat.min_le_right _ _) (by omega) (by omega)
  simp only [List.nil_append, List.length_nil] at hd ht
  have hmain : elements fuel (take S n) = .ok (S.take n) := by
    have e : List.take (min n S.length) S = List.take n S := by
      rcases Nat.le_total n S.length with hle | hle
      · rw [Nat.min_eq_left hle]
      · rw [Nat.min_eq_right hle, List.take_of_length_le hle, List.take_of_length_le (Nat.le_refl _)]
    rw [← e, ← ht]
    simp [elements, take, Sequence.begin, Sequence.end_, basic_keeper.get, take_iterator.make,
      take_iterator.make_end, take_iterator.minimum_n, range_tracker.begin_of, hd]
  refine ⟨hmain, List.length_take n S, ?_⟩
  intro hle
  rw [hmain, List.take_of_length_le hle]

/-- Witness of `elements_take_eq_take` on `[1, 2, 3]` with `n = 2`. -/
theorem elements_take_eq_take_witness :
    (2 < 2 ^ size_bits ∧ [1, 2, 3].length < 4) ∧
      elements 4 (take [1, 2, 3] 2) = .ok ([1, 2, 3].take 2) :=
  ⟨⟨by decide, by decide⟩, (elements_take_eq_take [1, 2, 3] 2 4 (by decide) (by decide)).1⟩

end take_proofs


/-! ## Take-while -/

section take_while_proofs

variable {α : Type}

@[simp] theorem take_while_deref {ρ ι β : Type} [Sequence ρ ι] [Iterator ι β] (fuel : Nat)
    (t : take_while_iterator ρ ι β) : Iterator.deref fuel t = t.deref fuel := rfl

@[simp] theorem take_while_next {ρ ι β : Type} [Sequence ρ ι] [Iterator ι β] (fuel : Nat)
    (t : take_while_iterator ρ ι β) : Iterator.next fuel t = t.next fuel := rfl

@[simp] theorem take_while_ne {ρ ι β : Type} [Sequence ρ ι] [Iterator ι β] (fuel : Nat)
    (t rhs : take_while_iterator ρ ι β) : Iterator.ne fuel t rhs = t.ne fuel rhs := rfl

@[simp] theorem take_while_eq {ρ ι β : Type} [Sequence ρ ι] [Iterator ι β] (fuel : Nat)
    (t rhs : take_while_iterator ρ ι β) : Iterator.eq fuel t rhs = t.eq fuel rhs := rfl

/-- Advancing a take-while cursor onto the element `y`: it stays there when `y` satisfies the
predicate and is set to the end otherwise. -/
theorem take_while_next_cons (p : α → Bool) (fuel : Nat) (pre suf : List α) (x y : α) :
    take_while_iterator.next fuel
      (⟨⟨pre ++ x :: y :: suf, ⟨pre ++ x :: y :: suf, pre.length⟩⟩, p⟩ :
        take_while_iterator (List α) (vector_iterator α) α) =
      .ok (if p y = true then ⟨⟨pre ++ x :: y :: suf, ⟨pre ++ x :: y :: suf, pre.length + 1⟩⟩, p⟩
        else ⟨⟨pre ++ x :: y :: suf,
          ⟨pre ++ x :: y :: suf, (pre ++ x :: y :: suf).length⟩⟩, p⟩) := by
  have hd := vector_deref_append (pre ++ [x]) suf y
  simp only [List.append_assoc, List.singleton_append, List.length_append,
    List.length_singleton] at hd
  by_cases hy : p y = true <;>
    simp [take_while_iterator.next, range_tracker.next, range_tracker.get, range_tracker.set_to,
      vector_next_append, hd, hy]

/-- Advancing a take-while cursor over the last element reaches the end. -/
theorem take_while_next_last (p : α → Bool) (fuel : Nat) (pre : List α) (x : α) :
    take_while_iterator.next fuel
      (⟨⟨pre ++ [x], ⟨pre ++ [x], pre.length⟩⟩, p⟩ :
        take_while_iterator (List α) (vector_iterator α) α) =
      .ok ⟨⟨pre ++ [x], ⟨pre ++ [x], (pre ++ [x]).length⟩⟩, p⟩ := by
  simp [take_while_iterator.next, range_tracker.next, range_tracker.get, vector_next_append]

/-- Traversal from a take-while cursor that is at the end yields nothing. -/
theorem traverse_take_while_end (p : α → Bool) (fuel : Nat) (S : List α)
    (last : take_while_iterator (List α) (vector_iterator α) α) (n : Nat) :
    traverse fuel (n + 1)
      (⟨⟨S, ⟨S, S.length⟩⟩, p⟩ : take_while_iterator (List α) (vector_iterator α) α) last =
      .ok [] := by
  simp [traverse, take_while_iterator.ne, range_tracker.get]

/-- Advancing a take-while cursor over the element `x` and traversing on yields the longest
prefix of the remaining elements that satisfies the predicate. -/
theorem take_while_next_traverse (p : α → Bool) (fuel : Nat) :
    ∀ (suf pre : List α) (x : α) (last : take_while_iterator (List α) (vector_iterator α) α)
      (n : Nat), suf.length < n →
      (take_while_iterator.next fuel
          (⟨⟨pre ++ x :: suf, ⟨pre ++ x :: suf, pre.length⟩⟩, p⟩ :
            take_while_iterator (List α) (vector_iterator α) α) >>=
        fun it => traverse fuel n it last) = .ok (suf.takeWhile p) := by
  intro suf
  induction suf with
  | nil =>
    intro pre x last n hn
    obtain ⟨n, rfl⟩ := Nat.exists_eq_succ_of_ne_zero (Nat.pos_iff_ne_zero.mp hn)
    rw [take_while_next_last, ok_bind, traverse_take_while_end]
    rfl
  | cons y suf ih =>
    intro pre x last n hn
    obtain ⟨n, rfl⟩ := Nat.exists_eq_succ_of_ne_zero (Nat.pos_iff_ne_zero.mp (Nat.zero_lt_of_lt hn))
    have h := ih (pre ++ [x]) y last n (by simpa using hn)
    have hd := vector_deref_append (pre ++ [x]) suf y
    simp only [List.append_assoc, List.singleton_append, List.length_append,
      List.length_singleton] at h hd
    rw [take_while_next_cons, ok_bind]
    by_cases hy : p y = true
    · simp only [hy, if_true, List.takeWhile_cons]
      simp only [traverse, take_while_ne, take_while_iterator.ne, range_tracker.get, vector_end,
        ok_bind, pure_eq_ok, vector_ne, take_while_deref, take_while_iterator.deref, vector_deref,
        hd, take_while_next]
      have hne : (pre.length + 1 != (pre ++ x :: y :: suf).length) = true := by simp
      simp only [hne, if_true]
      exact bind_cons_of_bind h y
    · simp only [hy, List.takeWhile_cons]
      exact traverse_take_while_end p fuel _ last n

/-- C9: for every vector `S` and predicate `p`, traversing `take_while(S, p)` from `begin()`
to `end()` yields the longest prefix of `S` all of whose elements satisfy `p`, stopping at
and excluding the first element that fails `p`: the traversal returns `List.takeWhile p S`,
for every iteration bound above the length of `S`. -/
theorem elements_take_while_eq_takeWhile (S : List α) (p : α → Bool) (fuel : Nat)
    (h : S.length < fuel) :
    elements fuel (take_while S p) = .ok (S.takeWhile p) := by
  obtain ⟨k, rfl⟩ := Nat.exists_eq_succ_of_ne_zero (Nat.pos_iff_ne_zero.mp (Nat.zero_lt_of_lt h))
  cases S with
  | nil => simp [elements, take_while, Sequence.begin, Sequence.end_, basic_keeper.get,
      take_while_iterator.make, take_while_iterator.make_end, range_tracker.begin_of,
      range_tracker.get, range_tracker.set_to, traverse, take_while_iterator.ne]
  | cons x S =>
    simp only [List.length_cons] at h
    have h₁ := take_while_next_traverse p (k + 1) S [] x
      (⟨⟨x :: S, ⟨x :: S, (x :: S).length⟩⟩, p⟩ :
        take_while_iterator (List α) (vector_iterator α) α) k (by omega)
    have hd := vector_deref_append [] S x
    have he := traverse_take_while_end p (k + 1) (x :: S)
      (⟨⟨x :: S, ⟨x :: S, (x :: S).length⟩⟩, p⟩ :
        take_while_iterator (List α) (vector_iterator α) α) k
    simp only [List.nil_append, List.length_nil, List.length_cons] at hd h₁ he
    by_cases hx : p x = true
    · simp [elements, take_while, Sequence.begin, Sequence.end_, basic_keeper.get,
        take_while_iterator.make, take_while_iterator.make_end, range_tracker.begin_of,
        range_tracker.get, range_tracker.set_to, traverse, take_while_iterator.ne,
        take_while_iterator.deref, hd, hx]
      exact bind_cons_of_bind h₁ x
    · simp [elements, take_while, Sequence.begin, Sequence.end_, basic_keeper.get,
        take_while_iterator.make, take_while_iterator.make_end, range_tracker.begin_of,
        range_tracker.get, range_tracker.set_to, take_while_iterator.ne, hd, hx]
      exact he

/-- Witness of `elements_take_while_eq_takeWhile` on `[1, 2, 7, 3]` and `i < 5`. -/
theorem elements_take_while_eq_takeWhile_witness :
    [1, 2, 7, 3].length < 5 ∧
      elements 5 (take_while [1, 2, 7, 3] (fun i : Nat => decide (i < 5))) =
        .ok ([1, 2, 7, 3].takeWhile (fun i : Nat => decide (i < 5))) :=
  ⟨by decide, elements_take_while_eq_takeWhile [1, 2, 7, 3] _ 5 (by decide)⟩

end take_while_proofs

/-! ## Find -/

section find_proofs

variable {α ν : Type}

/-- The linear scan of `std::find` from the position after `pre`, followed by the test and
dereference of `find`, yields the first remaining element equal to the needle. -/
theorem std_find_then_deref (equal : α → ν → Bool) (needle : ν) (fuel : Nat) :
    ∀ (suf pre : List α) (n : Nat), suf.length < n →
      (std_find equal fuel n (⟨pre ++ suf, pre.length⟩ : vector_iterator α)
          ⟨pre ++ suf, (pre ++ suf).length⟩ needle >>= fun found =>
        Iterator.ne fuel found (⟨pre ++ suf, (pre ++ suf).length⟩ : vector_iterator α) >>=
          fun b => if b = true then Iterator.deref fuel found >>= fun v => pure (some v)
            else pure none) = .ok (suf.find? (fun e => equal e needle)) := by
  intro suf
  induction suf with
  | nil =>
    intro pre n hn
    obtain ⟨n, rfl⟩ := Nat.exists_eq_succ_of_ne_zero (Nat.pos_iff_ne_zero.mp hn)
    simp [std_find]
  | cons x suf ih =>
    intro pre n hn
    obtain ⟨n, rfl⟩ := Nat.exists_eq_succ_of_ne_zero (Nat.pos_iff_ne_zero.mp (Nat.zero_lt_of_lt hn))
    have h := ih (pre ++ [x]) n (by simpa using hn)
    simp only [List.append_assoc, List.singleton_append, List.length_append,
      List.length_singleton, List.length_cons, List.length_nil, Nat.zero_add] at h
    by_cases hx : equal x needle = true
    · simp [std_find, vector_deref_append, hx]
    · simp [std_find, vector_deref_append, vector_next_append, hx] at h ⊢
      exact h

/-- C10: for every vector `S` (a sequence without a member `find`) and every needle `x`,
`find(S, x)` returns a result holding the first element `e` of `S`, in iteration order, with
`e == x` when there is one, and an empty result when no element of `S` equals `x`; so the
result has a value iff some element of `S` equals `x`. -/
theorem find_eq_first_match (S : List α) (equal : α → ν → Bool) (x : ν) (fuel : Nat)
    (h : S.length < fuel) :
    find none equal fuel S x = .ok (S.find? (fun e => equal e x)) ∧
      ((S.find? (fun e => equal e x)).isSome = true ↔ ∃ e ∈ S, equal e x = true) := by
  have := std_find_then_deref equal x fuel S [] fuel h
  refine ⟨?_, by simp⟩
  simpa [find, find_element] using this

/-- Witness of `find_eq_first_match` on `[1, 5, 3, 5]` and the needle `5`. -/
theorem find_eq_first_match_witness :
    [1, 5, 3, 5].length < 5 ∧
      find none (fun a b : Nat => a == b) 5 [1, 5, 3, 5] 5 =
        .ok ([1, 5, 3, 5].find? (fun e => e == 5)) :=
  ⟨by decide, (find_eq_first_match [1, 5, 3, 5] _ 5 5 (by decide)).1⟩

end find_proofs


/-! ## Slice -/

section slice_proofs

variable {α : Type}

/-- For arguments that are `unsigned int` values, the slice entry point passes them on to
the constructor unchanged. -/
theorem slice_eq_make {ρ : Type} (S : ρ) (from_ until_ : Nat)
    (hf : from_ < 2 ^ unsigned_bits) (hu : until_ < 2 ^ unsigned_bits) :
    slice S from_ until_ = range_view_slice.make ⟨S⟩ (from_ : Int) (until_ : Int) := by
  simp only [slice, Nat.mod_eq_of_lt hf, Nat.mod_eq_of_lt hu]

/-- An argument of the slice entry point that does not fit an `unsigned int` arrives as its
value modulo `2 ^ unsigned_bits`. -/
theorem slice_argument_wraps {ρ : Type} (S : ρ) (from_ until_ : Nat) :
    slice S (from_ + 2 ^ unsigned_bits) until_ = slice S from_ until_ ∧
      slice S from_ (until_ + 2 ^ unsigned_bits) = slice S from_ until_ := by
  simp only [slice, Nat.add_mod_right, and_self]

/-- Standard algorithm `std::next(it, k)` from the position after `pre` moves over `k` remaining elements. -/
theorem std_next_vector (fuel : Nat) :
    ∀ (k : Nat) (suf pre : List α), k ≤ suf.length →
      std_next fuel (⟨pre ++ suf, pre.length⟩ : vector_iterator α) k =
        .ok ⟨pre ++ suf, pre.length + k⟩ := by
  intro k
  induction k with
  | zero => intro suf pre _; rfl
  | succ k ih =>
    intro suf pre hk
    cases suf with
    | nil => simp at hk
    | cons x suf =>
      have h := ih suf (pre ++ [x]) (by simpa using hk)
      simp only [List.append_assoc, List.singleton_append, List.length_append,
        List.length_singleton] at h
      simp [std_next, vector_next_append, h]
      omega

/-- Traversal of a vector between two of its positions yields the elements in between. -/
theorem traverse_vector (fuel : Nat) :
    ∀ (mid pre post : List α) (n : Nat), mid.length < n →
      traverse fuel n (⟨pre ++ (mid ++ post), pre.length⟩ : vector_iterator α)
        ⟨pre ++ (mid ++ post), pre.length + mid.length⟩ = .ok mid := by
  intro mid
  induction mid with
  | nil =>
    intro pre post n hn
    obtain ⟨n, rfl⟩ := Nat.exists_eq_succ_of_ne_zero (Nat.pos_iff_ne_zero.mp hn)
    simp [traverse]
  | cons x mid ih =>
    intro pre post n hn
    obtain ⟨n, rfl⟩ := Nat.exists_eq_succ_of_ne_zero (Nat.pos_iff_ne_zero.mp (Nat.zero_lt_of_lt hn))
    have h := ih (pre ++ [x]) post n (by simpa using hn)
    have hd := vector_deref_append pre (mid ++ post) x
    have hx := vector_next_append pre (mid ++ post) x
    simp only [List.append_assoc, List.singleton_append, List.length_append,
      List.length_singleton] at h
    have e : pre.length + 1 + mid.length = pre.length + (mid.length + 1) := by omega
    rw [e] at h
    simp [traverse, hd, hx, h]

/-- The begin and end positions of a slice view over a vector: the offsets
`min(|S|, from)` and `min(|S|, until)`. -/
theorem slice_begin_end (S : List α) (f : Int) (u : Int) (hf : 0 ≤ f) (hu : 0 ≤ u) (fuel : Nat)
    (h : S.length < fuel) :
    Sequence.begin fuel (⟨⟨S⟩, f, u⟩ : range_view_slice (List α)) =
        .ok (⟨S, min S.length f.toNat⟩ : vector_iterator α) ∧
      Sequence.end_ fuel (⟨⟨S⟩, f, u⟩ : range_view_slice (List α)) =
        .ok (⟨S, min S.length u.toNat⟩ : vector_iterator α) := by
  have hd := std_distance_vector fuel S [] fuel h
  simp only [List.nil_append, List.length_nil] at hd
  have key : ∀ d : Int, 0 ≤ d →
      range_view_slice.std_next_signed fuel (⟨S, 0⟩ : vector_iterator α) (min (S.length : Int) d) =
        .ok ⟨S, min S.length d.toNat⟩ := by
    intro d hd0
    have h0 : (0 : Int) ≤ min (S.length : Int) d := le_min (Int.ofNat_nonneg _) hd0
    have hk : (min (S.length : Int) d).toNat = min S.length d.toNat := by omega
    have hn := std_next_vector fuel (min S.length d.toNat) S [] (Nat.min_le_left _ _)
    simp only [List.nil_append, List.length_nil, Nat.zero_add] at hn
    simp only [range_view_slice.std_next_signed, h0, if_true, hk, hn]
  constructor
  · simp [Sequence.begin, basic_keeper.get, range_view_slice.bounded,
      range_view_slice.get_range_size, Sequence.end_, hd, key f hf]
  · simp [Sequence.begin, basic_keeper.get, range_view_slice.bounded,
      range_view_slice.get_range_size, Sequence.end_, hd, key u hu]

/-- Elements of a list between the offsets `b <= e`, as a three-way split of the list. -/
theorem split_at_offsets (S : List α) (b e : Nat) (hbe : b ≤ e) (he : e ≤ S.length) :
    S = S.take b ++ ((S.drop b).take (e - b) ++ S.drop e) ∧ (S.take b).length = b ∧
      ((S.drop b).take (e - b)).length = e - b := by
  refine ⟨?_, ?_, ?_⟩
  · have h1 : S.drop e = (S.drop b).drop (e - b) := by
      rw [List.drop_drop]
      congr 1
      omega
    rw [h1, List.take_append_drop, List.take_append_drop]
  · simp [Nat.min_eq_left (Nat.le_trans hbe he)]
  · simp
    omega

/-- Clamping both bounds to the length does not change the selected elements. -/
theorem take_drop_clamped (S : List α) (a b : Nat) (hab : a ≤ b) :
    (S.drop (min S.length a)).take (min S.length b - min S.length a) =
      (S.drop a).take (b - a) := by
  rcases Nat.le_total S.length a with h1 | h1
  · have h2 : S.length ≤ b := Nat.le_trans h1 hab
    simp [Nat.min_eq_left h1, Nat.min_eq_left h2, List.drop_of_length_le h1]
  · rw [Nat.min_eq_right h1]
    rcases Nat.le_total S.length b with h2 | h2
    · rw [Nat.min_eq_left h2]
      rw [List.take_of_length_le (by simp), List.take_of_length_le (by simp; omega)]
    · rw [Nat.min_eq_right h2]

/-- C6: for every vector `S` of length `n` and every `from <= until` (`unsigned int`
values, as the parameters of `ezy::slice` are), the slice view is constructed and traversing
it yields exactly the elements of `S` at positions `min(n, from)` up to but excluding
`min(n, until)`, in order: the traversal returns
`List.take (until - from) (List.drop from S)`, of length `min(n, until) - min(n, from)`, for
every iteration bound above `n`. -/
theorem elements_slice_eq_take_drop (S : List α) (from_ until_ : Nat) (fuel : Nat)
    (hf : from_ < 2 ^ unsigned_bits) (hu : until_ < 2 ^ unsigned_bits)
    (hfu : from_ ≤ until_) (h : S.length < fuel) :
    ∃ view, slice S from_ until_ = .ok view ∧
      elements fuel view = .ok ((S.drop from_).take (until_ - from_)) ∧
      ((S.drop from_).take (until_ - from_)).length =
        min S.length until_ - min S.length from_ ∧
      (S.drop from_).take (until_ - from_) =
        (S.drop (min S.length from_)).take (min S.length until_ - min S.length from_) := by
  refine ⟨⟨⟨S⟩, from_, until_⟩, ?_, ?_, ?_, (take_drop_clamped S from_ until_ hfu).symm⟩
  · have : ¬ ((from_ : Int) > (until_ : Int)) := by omega
    rw [slice_eq_make S from_ until_ hf hu]
    simp [range_view_slice.make, this]
  · obtain ⟨hb, he⟩ := slice_begin_end S (from_ : Int) (until_ : Int) (Int.ofNat_nonneg _)
      (Int.ofNat_nonneg _) fuel h
    simp only [Int.toNat_ofNat] at hb he
    have hle : min S.length from_ ≤ min S.length until_ := by omega
    obtain ⟨hs, hl1, hl2⟩ := split_at_offsets S (min S.length from_) (min S.length until_) hle
      (Nat.min_le_left _ _)
    have ht := traverse_vector fuel
      ((S.drop (min S.length from_)).take (min S.length until_ - min S.length from_))
      (S.take (min S.length from_)) (S.drop (min S.length until_)) fuel (by rw [hl2]; omega)
    rw [← hs, hl1, hl2] at ht
    have e : min S.length from_ + (min S.length until_ - min S.length from_) =
        min S.length until_ := by omega
    rw [e, take_drop_clamped S from_ until_ hfu] at ht
    simp only [elements, hb, he, ok_bind]
    exact ht
  · simp
    omega

/-- Witness of `elements_slice_eq_take_drop` on `[1, 2, 3, 4, 5]` with bounds 1 and 3. -/
theorem elements_slice_eq_take_drop_witness :
    (1 < 2 ^ unsigned_bits ∧ 3 < 2 ^ unsigned_bits ∧ 1 ≤ 3 ∧ [1, 2, 3, 4, 5].length < 6) ∧
      ∃ view, slice [1, 2, 3, 4, 5] 1 3 = .ok view ∧
        elements 6 view = .ok (([1, 2, 3, 4, 5].drop 1).take (3 - 1)) :=
  ⟨⟨by decide, by decide, by decide, by decide⟩,
    (elements_slice_eq_take_drop [1, 2, 3, 4, 5] 1 3 6 (by decide) (by decide) (by decide)
      (by decide)).imp fun _ hv => ⟨hv.1, hv.2.1⟩⟩

/-- C7: constructing `slice(S, from, until)`, for `unsigned int` values `from` and `until`
as the parameters of `ezy::slice` are, raises a logic error if and only if `from > until`,
for every sequence `S`; when `from <= until` the construction succeeds and gives the view
holding `S`, `from` and `until`. -/
theorem slice_logic_error_iff {ρ : Type} (S : ρ) (from_ until_ : Nat)
    (hf : from_ < 2 ^ unsigned_bits) (hu : until_ < 2 ^ unsigned_bits) :
    (slice S from_ until_ = .error .logic_error ↔ until_ < from_) ∧
      (from_ ≤ until_ → slice S from_ until_ = .ok ⟨⟨S⟩, from_, until_⟩) ∧
      (∀ e, slice S from_ until_ = .error e → e = .logic_error) := by
  rw [slice_eq_make S from_ until_ hf hu]
  by_cases hfu : ((from_ : Int) > (until_ : Int))
  · have hlt : until_ < from_ := by omega
    simp [range_view_slice.make, hfu, hlt]
  · have hle : from_ ≤ until_ := by omega
    simp [range_view_slice.make, hfu, hle]

/-- Witness of `slice_logic_error_iff`: the reversed interval of the tests, `slice(4, 2)`. -/
theorem slice_logic_error_iff_witness :
    (4 < 2 ^ unsigned_bits ∧ 2 < 2 ^ unsigned_bits) ∧
      slice [1, 2, 3, 4, 5, 6, 7, 8, 9, 10] 4 2 = .error .logic_error :=
  ⟨⟨by decide, by decide⟩,
    (slice_logic_error_iff [1, 2, 3, 4, 5, 6, 7, 8, 9, 10] 4 2 (by decide) (by decide)).1.2
      (by decide)⟩

end slice_proofs

/-! ## Flatten -/

section flatten_proofs

variable {α : Type}

@[simp] theorem flattener_deref {ρ ιo ρi ιi β : Type} [Sequence ρ ιo] [Iterator ιo ρi]
    [Sequence ρi ιi] [Iterator ιi β] (fuel : Nat) (f : iterator_flattener ρ ιo ιi) :
    Iterator.deref fuel f = Iterator.deref fuel f.inner := rfl

@[simp] theorem flattener_next {ρ ιo ρi ιi β : Type} [Sequence ρ ιo] [Iterator ιo ρi]
    [Sequence ρi ιi] [Iterator ιi β] (fuel : Nat) (f : iterator_flattener ρ ιo ιi) :
    Iterator.next fuel f = f.next fuel := rfl

@[simp] theorem flattener_ne {ρ ιo ρi ιi β : Type} [Sequence ρ ιo] [Iterator ιo ρi]
    [Sequence ρi ιi] [Iterator ιi β] (fuel : Nat) (f rhs : iterator_flattener ρ ιo ιi) :
    Iterator.ne fuel f rhs = f.ne fuel rhs := rfl

@[simp] theorem flattener_eq {ρ ιo ρi ιi β : Type} [Sequence ρ ιo] [Iterator ιo ρi]
    [Sequence ρi ιi] [Iterator ιi β] (fuel : Nat) (f rhs : iterator_flattener ρ ιo ιi) :
    Iterator.eq fuel f rhs = f.eq fuel rhs := rfl

/-- Where the first inner vector is empty, `begin()` of the flatten view leaves `inner` at
the end of that empty vector while `begin() != end()` holds, so the traversal dereferences
an inner position that is at its inner end, whatever follows in the outer vector and
whatever the iteration bound. -/
theorem elements_flatten_leading_empty (rest : List (List α)) (k : Nat) :
    elements (k + 1) (flatten (([] : List α) :: rest)) = .error .deref_end := by
  have hd := vector_deref_append [] rest ([] : List α)
  simp only [List.nil_append, List.length_nil] at hd
  simp [elements, flatten, Sequence.begin, Sequence.end_, basic_keeper.get,
    iterator_flattener.make, iterator_flattener.make_end, iterator_flattener.outer,
    range_tracker.begin_of, range_tracker.end_of, range_tracker.get, traverse,
    iterator_flattener.ne, iterator_flattener.eq, hd, vector_iterator.deref]

/-- C5 (the code at the failing input): traversing `flatten` of `[[], [1]]`, whose leading
inner vector is empty, dereferences the inner position at the end of that empty vector and
so does not yield the join `[1]` that the claim states for leading empty inner sequences. -/
theorem elements_flatten_failing_input :
    elements 20 (flatten ([[], [1]] : List (List Nat))) = .error .deref_end ∧
      elements 20 (flatten ([[], [1]] : List (List Nat))) ≠
        .ok ([[], [1]] : List (List Nat)).flatten := by
  have h := elements_flatten_leading_empty ([[1]] : List (List Nat)) 19
  refine ⟨h, ?_⟩
  rw [h]
  exact fun e => Except.noConfusion e

end flatten_proofs


section flatten_join

variable {α : Type}

/-- The skip loop of the flatten iterator followed by the rest of the traversal: from the
outer position after `preO` and the inner position after `preI`, the traversal yields the
rest `sufI` of the current inner vector and then the following inner vectors. -/
theorem flatten_skip_traverse (fuel : Nat) :
    ∀ (sufO preO : List (List α)) (sufI preI : List α) (m n : Nat),
      sufO.length + 1 < m → sufI.length + sufO.flatten.length < n → sufO.length + 1 < fuel →
      (iterator_flattener.skip_loop fuel
          (⟨preO ++ (preI ++ sufI) :: sufO, (preO ++ (preI ++ sufI) :: sufO).length⟩ :
            vector_iterator (List α)) m
          (⟨⟨preO ++ (preI ++ sufI) :: sufO, ⟨preO ++ (preI ++ sufI) :: sufO, preO.length⟩⟩,
            ⟨preI ++ sufI, preI.length⟩⟩ :
            iterator_flattener (List (List α)) (vector_iterator (List α)) (vector_iterator α)) >>=
        fun it => traverse fuel n it
          ⟨⟨preO ++ (preI ++ sufI) :: sufO,
            ⟨preO ++ (preI ++ sufI) :: sufO, (preO ++ (preI ++ sufI) :: sufO).length⟩⟩,
            default⟩) = .ok (sufI ++ sufO.flatten) := by
  intro sufO
  induction sufO with
  | nil =>
    intro preO sufI
    induction sufI with
    | nil =>
      intro preI m n hm hn hf
      obtain ⟨m, rfl⟩ : ∃ m', m = m' + 2 := ⟨m - 2, by simp only [List.length_nil] at hm; omega⟩
      obtain ⟨n, rfl⟩ := Nat.exists_eq_succ_of_ne_zero (Nat.pos_iff_ne_zero.mp (Nat.zero_lt_of_lt hn))
      have hd := vector_deref_append preO [] preI
      have hx := vector_next_append preO [] preI
      simp [iterator_flattener.skip_loop, hd, hx, range_tracker.set_to, traverse,
        iterator_flattener.ne, iterator_flattener.eq, range_tracker.get]
    | cons x sufI ihI =>
      intro preI m n hm hn hf
      obtain ⟨m, rfl⟩ := Nat.exists_eq_succ_of_ne_zero (Nat.pos_iff_ne_zero.mp (Nat.zero_lt_of_lt hm))
      obtain ⟨n, rfl⟩ := Nat.exists_eq_succ_of_ne_zero (Nat.pos_iff_ne_zero.mp (Nat.zero_lt_of_lt hn))
      have hd := vector_deref_append preO [] (preI ++ x :: sufI)
      have hdi := vector_deref_append preI sufI x
      have hxi := vector_next_append preI sufI x
      have h := ihI (preI ++ [x]) fuel n hf (by simp only [List.length_cons] at hn; omega) hf
      simp only [List.append_assoc, List.singleton_append, List.length_append,
        List.length_singleton, List.flatten_nil, List.append_nil, List.flatten_cons] at h
      simp [iterator_flattener.skip_loop, hd, traverse, iterator_flattener.ne,
        iterator_flattener.eq, range_tracker.get, hdi, hxi, iterator_flattener.next]
      exact bind_cons_of_bind h x
  | cons next sufO ihO =>
    intro preO sufI
    induction sufI with
    | nil =>
      intro preI m n hm hn hf
      obtain ⟨m, rfl⟩ := Nat.exists_eq_succ_of_ne_zero (Nat.pos_iff_ne_zero.mp (Nat.zero_lt_of_lt hm))
      have hd := vector_deref_append preO (next :: sufO) preI
      have hx := vector_next_append preO (next :: sufO) preI
      have hd2 := vector_deref_append (preO ++ [preI]) sufO next
      have h := ihO (preO ++ [preI]) next [] m n
        (by simp only [List.length_cons] at hm; omega)
        (by simpa using hn) (by simp only [List.length_cons] at hf; omega)
      simp only [List.append_assoc, List.singleton_append, List.length_append,
        List.length_singleton, List.nil_append, List.length_nil, List.length_cons] at h hd2
      simp [iterator_flattener.skip_loop, hd, hx, range_tracker.set_to,
        iterator_flattener.outer, range_tracker.get, hd2]
      exact h
    | cons x sufI ihI =>
      intro preI m n hm hn hf
      obtain ⟨m, rfl⟩ := Nat.exists_eq_succ_of_ne_zero (Nat.pos_iff_ne_zero.mp (Nat.zero_lt_of_lt hm))
      obtain ⟨n, rfl⟩ := Nat.exists_eq_succ_of_ne_zero (Nat.pos_iff_ne_zero.mp (Nat.zero_lt_of_lt hn))
      have hd := vector_deref_append preO (next :: sufO) (preI ++ x :: sufI)
      have hdi := vector_deref_append preI sufI x
      have hxi := vector_next_append preI sufI x
      have h := ihI (preI ++ [x]) fuel n hf (by simp only [List.length_cons] at hn; omega) hf
      simp only [List.append_assoc, List.singleton_append, List.length_append,
        List.length_singleton, List.flatten_nil, List.append_nil, List.flatten_cons] at h
      simp [iterator_flattener.skip_loop, hd, traverse, iterator_flattener.ne,
        iterator_flattener.eq, range_tracker.get, hdi, hxi, iterator_flattener.next]
      exact bind_cons_of_bind h x

/-- Where the outer vector is empty or its first inner vector is not empty, traversing the
flatten view yields the join of the inner vectors, for every iteration bound above the
number of inner vectors plus the number of their elements. -/
theorem elements_flatten_eq_join (outer : List (List α)) (fuel : Nat)
    (hfirst : outer.head? ≠ some [])
    (h : outer.length + outer.flatten.length < fuel) :
    elements fuel (flatten outer) = .ok outer.flatten := by
  obtain ⟨k, rfl⟩ := Nat.exists_eq_succ_of_ne_zero (Nat.pos_iff_ne_zero.mp (Nat.zero_lt_of_lt h))
  cases outer with
  | nil =>
    simp [elements, flatten, Sequence.begin, Sequence.end_, basic_keeper.get,
      iterator_flattener.make, iterator_flattener.make_end, range_tracker.begin_of,
      range_tracker.end_of, range_tracker.get, traverse, iterator_flattener.ne,
      iterator_flattener.eq]
  | cons first rest =>
    cases first with
    | nil => simp at hfirst
    | cons x xs =>
      simp only [List.length_cons, List.flatten_cons, List.length_append] at h
      have hd := vector_deref_append [] rest (x :: xs)
      have hdi := vector_deref_append [] xs x
      have hxi := vector_next_append [] xs x
      have hl := flatten_skip_traverse (k + 1) rest [] xs [x] (k + 1) k (by omega)
        (by omega) (by omega)
      simp only [List.nil_append, List.length_nil, List.singleton_append, List.length_singleton,
        List.length_cons, Nat.zero_add] at hd hdi hxi hl
      simp [elements, flatten, Sequence.begin, Sequence.end_, basic_keeper.get,
        iterator_flattener.make, iterator_flattener.make_end, iterator_flattener.outer,
        range_tracker.begin_of, range_tracker.end_of, range_tracker.get, traverse,
        iterator_flattener.ne, iterator_flattener.eq, hd, hdi, hxi, iterator_flattener.next]
      exact bind_cons_of_bind hl x

/-- The flatten test of the repository: `[[1, 2, 3], [], [], [4, 5, 6]]` flattens to
`[1, 2, 3, 4, 5, 6]`. -/
theorem elements_flatten_test_case :
    elements 11 (flatten [[1, 2, 3], [], [], [4, 5, 6]]) = .ok [1, 2, 3, 4, 5, 6] :=
  elements_flatten_eq_join [[1, 2, 3], [], [], [4, 5, 6]] 11 (by decide) (by decide)

end flatten_join


/-! ## For-each -/

section for_each_proofs

variable {ρ ι β σ : Type}

/-- The loop of `std::for_each` calls the action on what the traversal of the same range
yields, element by element, and stops with the same fault where the traversal stops. -/
theorem std_for_each_eq_traverse [Iterator ι β] (fuel : Nat) (fn : σ → β → σ) :
    ∀ (n : Nat) (first last : ι) (s : σ),
      std_for_each fuel fn n first last s =
        traverse fuel n first last >>= fun xs => pure (xs.foldl fn s) := by
  intro n
  induction n with
  | zero => intro first last s; rfl
  | succ n ih =>
    intro first last s
    simp only [std_for_each, traverse]
    cases Iterator.ne fuel first last with
    | error e => rfl
    | ok b =>
      cases b with
      | false => rfl
      | true =>
        simp only [ok_bind, if_true]
        cases Iterator.deref fuel first with
        | error e => rfl
        | ok v =>
          simp only [ok_bind]
          cases Iterator.next fuel first with
          | error e => rfl
          | ok it =>
            simp only [ok_bind, ih]
            cases traverse fuel n it last with
            | error e => rfl
            | ok rest => rfl

/-- C20: for every range or view `V` (any range type and its iterators) and action `a`,
`for_each(V, a)` invokes `a` exactly once per element of `V`, in iteration order from first
to last, and on nothing else: it leaves the action in the state reached by folding `a` over
the traversal of `V`, so that an action recording its arguments records exactly that
traversal; on a vector `S` these are the elements of `S`. -/
theorem for_each_eq_foldl_elements [Sequence ρ ι] [Iterator ι β] (fuel : Nat) (V : ρ)
    (a : σ → β → σ) (s : σ) :
    for_each fuel V a s = (elements fuel V >>= fun xs => pure (xs.foldl a s)) ∧
      for_each fuel V (fun (log : List β) v => log ++ [v]) [] = elements fuel V ∧
      ∀ (S : List β), S.length < fuel → for_each fuel S a s = .ok (S.foldl a s) := by
  have key : ∀ {τ : Type} (g : τ → β → τ) (t : τ),
      for_each fuel V g t = (elements fuel V >>= fun xs => pure (xs.foldl g t)) := by
    intro τ g t
    simp only [for_each, elements, std_for_each_eq_traverse, bind_assoc]
  refine ⟨key a s, ?_, ?_⟩
  · rw [key]
    cases elements fuel V with
    | error e => rfl
    | ok xs =>
      have h : ∀ (ys acc : List β), List.foldl (fun (log : List β) v => log ++ [v]) acc ys =
          acc ++ ys := by
        intro ys
        induction ys with
        | nil => intro acc; simp
        | cons y ys ih => intro acc; simp [ih]
      simp [h]
  · intro S hS
    have ht := traverse_vector fuel S [] [] fuel hS
    simp only [List.nil_append, List.append_nil, List.length_nil, Nat.zero_add] at ht
    simp [for_each, std_for_each_eq_traverse, ht]

end for_each_proofs

/-! ## Find with a member `find` -/

section map_find_proofs

variable {K V : Type}

@[simp] theorem map_begin (fuel : Nat) (m : std_map K V) :
    Sequence.begin fuel m = .ok (⟨m.entries, 0⟩ : vector_iterator (K × V)) := rfl

@[simp] theorem map_end (fuel : Nat) (m : std_map K V) :
    Sequence.end_ fuel m = .ok (⟨m.entries, m.entries.length⟩ : vector_iterator (K × V)) := rfl

/-- The position `findIdx` gives for a key holds the entry of that key. -/
theorem entries_at_findIdx [DecidableEq K] (key : K) :
    ∀ (es : List (K × V)) (v : V), (key, v) ∈ es → (es.map Prod.fst).Nodup →
      es[es.findIdx (fun e => decide (e.1 = key))]? = some (key, v) := by
  intro es
  induction es with
  | nil => intro v h; simp at h
  | cons e es ih =>
    intro v h hnd
    by_cases he : e.1 = key
    · have hfirst : e = (key, v) := by
        rcases List.mem_cons.mp h with h1 | h1
        · exact h1.symm
        · exfalso
          have : key ∈ es.map Prod.fst := List.mem_map.mpr ⟨(key, v), h1, rfl⟩
          rw [List.map_cons, List.nodup_cons, he] at hnd
          exact hnd.1 this
      simp [List.findIdx_cons, he, hfirst]
    · have hin : (key, v) ∈ es := by
        rcases List.mem_cons.mp h with h1 | h1
        · exact absurd (by rw [← h1]) he
        · exact h1
      rw [List.map_cons, List.nodup_cons] at hnd
      simp [List.findIdx_cons, he, ih v hin hnd.2]

/-- Without an entry of the key, `findIdx` gives the length. -/
theorem findIdx_of_no_entry [DecidableEq K] (key : K) :
    ∀ (es : List (K × V)), (∀ v, (key, v) ∉ es) →
      es.findIdx (fun e => decide (e.1 = key)) = es.length := by
  intro es
  induction es with
  | nil => intro _; rfl
  | cons e es ih =>
    intro h
    have he : ¬ e.1 = key := by
      intro heq
      apply h e.2
      rw [← heq]
      exact List.mem_cons_self _ _
    have h' : ∀ v, (key, v) ∉ es := fun v hv => h v (List.mem_cons_of_mem _ hv)
    simp [List.findIdx_cons, he, ih h']

/-- C11: for a map `M` (keys pairwise different), which has the member `find`, `find(M, k)`
uses that member: it returns a result holding the entry `(k, v)` of `M` when `M` contains
the key `k`, and an empty result when `M` does not contain `k`; the comparison `equal` of
the linear scan is not used. -/
theorem find_map_uses_member [DecidableEq K] (M : std_map K V) (k : K) (equal : K × V → K → Bool)
    (fuel : Nat) (hkeys : (M.entries.map Prod.fst).Nodup) :
    find_element (some std_map.find) equal fuel M k = M.find k ∧
      (∀ v, (k, v) ∈ M.entries → find (some std_map.find) equal fuel M k = .ok (some (k, v))) ∧
      ((∀ v, (k, v) ∉ M.entries) → find (some std_map.find) equal fuel M k = .ok none) := by
  refine ⟨rfl, ?_, ?_⟩
  · intro v hv
    have hat := entries_at_findIdx k M.entries v hv hkeys
    have hlt : M.entries.findIdx (fun e => decide (e.1 = k)) < M.entries.length :=
      List.findIdx_lt_length_of_exists ⟨(k, v), hv, by simp⟩
    have hne : (M.entries.findIdx (fun e => decide (e.1 = k)) != M.entries.length) = true :=
      bne_iff_ne.mpr (Nat.ne_of_lt hlt)
    simp only [find, find_element, std_map.find, map_end, ok_bind, pure_eq_ok, vector_ne,
      vector_deref, vector_iterator.deref, hne, hat, if_true]
  · intro hno
    have hidx := findIdx_of_no_entry k M.entries hno
    simp [find, find_element, std_map.find, hidx]

/-- Witness of `find_map_uses_member` on the map of the tests. -/
theorem find_map_uses_member_witness :
    (([("Alpha", 10), ("Beta", 20)] : List (String × Nat)).map Prod.fst).Nodup ∧
      find (some std_map.find) (fun (_ : String × Nat) (_ : String) => false) 0
        (⟨[("Alpha", 10), ("Beta", 20)]⟩ : std_map String Nat) "Beta" = .ok (some ("Beta", 20)) :=
  ⟨by decide, (find_map_uses_member ⟨[("Alpha", 10), ("Beta", 20)]⟩ "Beta" _ 0 (by decide)).2.1
    20 (by decide)⟩

end map_find_proofs


/-! ## Filter, then transform -/

section pipeline_proofs

variable {α γ : Type}

/-- The reference scan is the list `map` of the list `filter`. -/
theorem sequential_scan_eq_map_filter (p : α → Bool) (f : α → γ) (S : List α) :
    sequential_scan p f S = (S.filter p).map f := by
  induction S with
  | nil => rfl
  | cons x S ih =>
    by_cases hx : p x = true <;> simp [sequential_scan, hx, ih]

/-- The skip loop of the filter iterator under the mapping iterator, followed by the rest of
the traversal, yields the images of the matching elements at and after the position. -/
theorem pipeline_loop_traverse (p : α → Bool) (f : α → γ) (fuel : Nat) :
    ∀ (suf pre : List α) (m n : Nat), suf.length < m → suf.length < n → suf.length ≤ fuel →
      (iterator_filter.advance_loop fuel m
          (⟨⟨pre ++ suf, pre.length⟩, p, ⟨pre ++ suf, (pre ++ suf).length⟩⟩ :
            iterator_filter (vector_iterator α) α) >>=
        fun it => traverse fuel n
          (⟨it, f⟩ : iterator_adaptor (iterator_filter (vector_iterator α) α) α γ)
          ⟨⟨⟨pre ++ suf, (pre ++ suf).length⟩, p, ⟨pre ++ suf, (pre ++ suf).length⟩⟩, f⟩) =
        .ok (sequential_scan p f suf) := by
  intro suf
  induction suf with
  | nil =>
    intro pre m n hm hn _
    obtain ⟨m, rfl⟩ := Nat.exists_eq_succ_of_ne_zero (Nat.pos_iff_ne_zero.mp hm)
    obtain ⟨n, rfl⟩ := Nat.exists_eq_succ_of_ne_zero (Nat.pos_iff_ne_zero.mp hn)
    simp [iterator_filter.advance_loop, traverse, sequential_scan]
  | cons x suf ih =>
    intro pre m n hm hn hf
    obtain ⟨m, rfl⟩ := Nat.exists_eq_succ_of_ne_zero (Nat.pos_iff_ne_zero.mp (Nat.zero_lt_of_lt hm))
    obtain ⟨n, rfl⟩ := Nat.exists_eq_succ_of_ne_zero (Nat.pos_iff_ne_zero.mp (Nat.zero_lt_of_lt hn))
    simp only [List.length_cons] at hm hn hf
    have h₁ := ih (pre ++ [x]) m (n + 1) (by omega) (by omega) (by omega)
    have h₂ := ih (pre ++ [x]) fuel n (by omega) (by omega) (by omega)
    simp only [List.append_assoc, List.singleton_append, List.length_append, List.length_singleton,
      List.length_cons, List.length_nil, Nat.zero_add] at h₁ h₂
    by_cases hx : p x = true
    · simp [iterator_filter.advance_loop, traverse, iterator_adaptor.deref, iterator_adaptor.next,
        iterator_filter.next, vector_deref_append, vector_next_append, hx, sequential_scan]
      exact bind_cons_of_bind h₂ (f x)
    · simp [iterator_filter.advance_loop, vector_deref_append, vector_next_append, hx,
        sequential_scan]
      exact h₁

/-- C12: for every vector `S`, predicate `p` and function `f`, the elements obtained by
traversing `transform(filter(S, p), f)` equal the result of the plain sequential scan over
`S` that keeps the elements satisfying `p` and applies `f` to each kept element, for every
iteration bound above the length of `S`. -/
theorem elements_pipeline_eq_sequential_scan (S : List α) (p : α → Bool) (f : α → γ)
    (fuel : Nat) (h : S.length < fuel) :
    elements fuel (transform (filter S p) f) = .ok (sequential_scan p f S) := by
  obtain ⟨k, rfl⟩ := Nat.exists_eq_succ_of_ne_zero (Nat.pos_iff_ne_zero.mp (Nat.zero_lt_of_lt h))
  cases S with
  | nil => simp [elements, transform, filter, Sequence.begin, Sequence.end_, basic_keeper.get,
      iterator_filter.make, traverse, sequential_scan]
  | cons x S =>
    simp only [List.length_cons] at h
    have h₁ := pipeline_loop_traverse p f (k + 1) S [x] (k + 1) (k + 1) (by omega) (by omega)
      (by omega)
    have h₂ := pipeline_loop_traverse p f (k + 1) S [x] (k + 1) k (by omega) (by omega)
      (by omega)
    simp only [List.singleton_append, List.length_singleton, List.length_cons] at h₁ h₂
    have hd := vector_deref_append [] S x
    have hn := vector_next_append [] S x
    simp only [List.nil_append, List.length_nil, Nat.zero_add] at hd hn
    by_cases hx : p x = true
    · simp [elements, transform, filter, Sequence.begin, Sequence.end_, basic_keeper.get,
        iterator_filter.make, traverse, iterator_adaptor.deref, iterator_adaptor.next,
        iterator_filter.next, hd, hn, hx, sequential_scan]
      exact bind_cons_of_bind h₂ (f x)
    · simp [elements, transform, filter, Sequence.begin, Sequence.end_, basic_keeper.get,
        iterator_filter.make, iterator_filter.next, hd, hn, hx, sequential_scan]
      exact h₁

/-- Witness of `elements_pipeline_eq_sequential_scan`: the even numbers of `[1, 2, 3, 4]`,
each plus ten. -/
theorem elements_pipeline_eq_sequential_scan_witness :
    [1, 2, 3, 4].length < 5 ∧
      elements 5 (transform (filter [1, 2, 3, 4] (fun n : Nat => n % 2 == 0))
        (fun n : Nat => n + 10)) =
        .ok (sequential_scan (fun n : Nat => n % 2 == 0) (fun n : Nat => n + 10) [1, 2, 3, 4]) :=
  ⟨by decide, elements_pipeline_eq_sequential_scan [1, 2, 3, 4] _ _ 5 (by decide)⟩

end pipeline_proofs

/-! ## Concatenate with an empty range -/

section concatenate_identity_proofs

variable {α : Type}

/-- C13: the empty vector is a left and right identity of `concatenate`: for every vector
`X`, traversing `concatenate([], X)` yields exactly `X` and traversing `concatenate(X, [])`
yields exactly `X`, for every iteration bound above the length of `X`; and
`concatenate([], [])` is an empty view, whose `begin()` compares equal to its `end()`. -/
theorem concatenate_empty_identity (X : List α) (fuel : Nat) (h : X.length < fuel) :
    elements fuel (concatenate ([] : List α) X) = .ok X ∧
      elements fuel (concatenate X ([] : List α)) = .ok X ∧
      (Sequence.begin fuel (concatenate ([] : List α) ([] : List α)) >>= fun first =>
        Sequence.end_ fuel (concatenate ([] : List α) ([] : List α)) >>= fun last =>
          Iterator.eq fuel first last) = .ok true ∧
      elements fuel (concatenate ([] : List α) ([] : List α)) = .ok [] := by
  have h₁ := traverse_concatenate_first X fuel [] [] fuel (by simpa using h)
  have h₂ := traverse_concatenate_first ([] : List α) fuel X [] fuel (by simpa using h)
  have h₃ := traverse_concatenate_first ([] : List α) fuel [] [] fuel
    (by simp only [List.length_nil]; omega)
  simp only [List.nil_append, List.append_nil, List.length_nil] at h₁ h₂ h₃
  refine ⟨?_, ?_, ?_, ?_⟩
  · simpa [elements, concatenate, Sequence.begin, Sequence.end_, basic_keeper.get,
      iterator_concatenator.make, iterator_concatenator.make_end, range_tracker2.begin_of,
      range_tracker2.end_of] using h₁
  · simpa [elements, concatenate, Sequence.begin, Sequence.end_, basic_keeper.get,
      iterator_concatenator.make, iterator_concatenator.make_end, range_tracker2.begin_of,
      range_tracker2.end_of] using h₂
  · simp [concatenate, Sequence.begin, Sequence.end_, basic_keeper.get,
      iterator_concatenator.make, iterator_concatenator.make_end, range_tracker2.begin_of,
      range_tracker2.end_of, iterator_concatenator.eq, range_tracker2.get0, range_tracker2.get1]
  · simpa [elements, concatenate, Sequence.begin, Sequence.end_, basic_keeper.get,
      iterator_concatenator.make, iterator_concatenator.make_end, range_tracker2.begin_of,
      range_tracker2.end_of] using h₃

/-- Witness of `concatenate_empty_identity` on `[1, 2, 3]`. -/
theorem concatenate_empty_identity_witness :
    [1, 2, 3].length < 4 ∧
      elements 4 (concatenate ([] : List Nat) [1, 2, 3]) = .ok [1, 2, 3] ∧
      elements 4 (concatenate [1, 2, 3] ([] : List Nat)) = .ok [1, 2, 3] :=
  ⟨by decide, (concatenate_empty_identity [1, 2, 3] 4 (by decide)).1,
    (concatenate_empty_identity [1, 2, 3] 4 (by decide)).2.1⟩

end concatenate_identity_proofs


/-! ## Flatten of nothing but empty inner ranges -/

section flatten_empty_proofs

variable {α : Type}

/-- For an empty outer vector, `begin()` of the flatten view compares equal to `end()`, and
the traversal yields nothing. -/
theorem flatten_nil_begin_eq_end (fuel : Nat) :
    (Sequence.begin fuel (flatten ([] : List (List α))) >>= fun first =>
      Sequence.end_ fuel (flatten ([] : List (List α))) >>= fun last =>
        Iterator.eq fuel first last) = .ok true ∧
      elements (fuel + 1) (flatten ([] : List (List α))) = .ok [] := by
  constructor
  · simp [flatten, Sequence.begin, Sequence.end_, basic_keeper.get, iterator_flattener.make,
      iterator_flattener.make_end, range_tracker.begin_of, range_tracker.end_of,
      range_tracker.get, iterator_flattener.eq]
  · simp [elements, flatten, Sequence.begin, Sequence.end_, basic_keeper.get,
      iterator_flattener.make, iterator_flattener.make_end, range_tracker.begin_of,
      range_tracker.end_of, range_tracker.get, traverse, iterator_flattener.ne,
      iterator_flattener.eq]

/-- For an outer vector that starts with an empty inner vector, `begin()` of the flatten
view does not compare equal to `end()`: the outer positions differ. -/
theorem flatten_leading_empty_begin_ne_end (rest : List (List α)) (fuel : Nat) :
    (Sequence.begin fuel (flatten (([] : List α) :: rest)) >>= fun first =>
      Sequence.end_ fuel (flatten (([] : List α) :: rest)) >>= fun last =>
        Iterator.eq fuel first last) = .ok false := by
  have hd := vector_deref_append [] rest ([] : List α)
  simp only [List.nil_append, List.length_nil] at hd
  simp [flatten, Sequence.begin, Sequence.end_, basic_keeper.get, iterator_flattener.make,
    iterator_flattener.make_end, iterator_flattener.outer, range_tracker.begin_of,
    range_tracker.end_of, range_tracker.get, iterator_flattener.eq, hd]

/-- C14 (the code at the failing input): for the outer vector `[[]]`, which consists only
of an empty inner vector, `begin()` of the flatten view does not compare equal to `end()`,
and the traversal dereferences the inner position at the end of the empty inner vector
instead of yielding no element without a dereference. -/
theorem flatten_only_empty_failing_input :
    (Sequence.begin 20 (flatten ([[]] : List (List Nat))) >>= fun first =>
      Sequence.end_ 20 (flatten ([[]] : List (List Nat))) >>= fun last =>
        Iterator.eq 20 first last) = .ok false ∧
      elements 20 (flatten ([[]] : List (List Nat))) = .error .deref_end :=
  ⟨flatten_leading_empty_begin_ne_end [] 20, elements_flatten_leading_empty [] 19⟩

end flatten_empty_proofs

/-! ## Clamped slice bounds -/

section slice_clamp_proofs

variable {α : Type}

/-- Traversal of the slice view of a vector with bounds `f <= u`. -/
theorem elements_range_view_slice (S : List α) (f u : Nat) (fuel : Nat) (hfu : f ≤ u)
    (h : S.length < fuel) :
    elements fuel (⟨⟨S⟩, (f : Int), (u : Int)⟩ : range_view_slice (List α)) =
      .ok ((S.drop f).take (u - f)) := by
  obtain ⟨hb, he⟩ := slice_begin_end S (f : Int) (u : Int) (Int.ofNat_nonneg _)
    (Int.ofNat_nonneg _) fuel h
  simp only [Int.toNat_ofNat] at hb he
  have hle : min S.length f ≤ min S.length u := by omega
  obtain ⟨hs, hl1, hl2⟩ := split_at_offsets S (min S.length f) (min S.length u) hle
    (Nat.min_le_left _ _)
  have ht := traverse_vector fuel
    ((S.drop (min S.length f)).take (min S.length u - min S.length f))
    (S.take (min S.length f)) (S.drop (min S.length u)) fuel (by rw [hl2]; omega)
  rw [← hs, hl1, hl2] at ht
  have e : min S.length f + (min S.length u - min S.length f) = min S.length u := by omega
  rw [e, take_drop_clamped S f u hfu] at ht
  simp only [elements, hb, he, ok_bind]
  exact ht

/-- The slice entry point returns the view holding its arguments when `f <= u`. -/
theorem slice_ok {ρ : Type} (S : ρ) (f u : Nat) (hf : f < 2 ^ unsigned_bits)
    (hu : u < 2 ^ unsigned_bits) (hfu : f ≤ u) :
    slice S f u = .ok ⟨⟨S⟩, (f : Int), (u : Int)⟩ := by
  have : ¬ ((f : Int) > (u : Int)) := by omega
  rw [slice_eq_make S f u hf hu]
  simp [range_view_slice.make, this]

/-- C15: slice bounds are clamped to the length of the vector: for every vector `S` of
length `n` and `from <= until` (`unsigned int` values, as the parameters of `ezy::slice`
are), `slice(S, from, until)` yields the same elements as
`slice(S, min(from, n), min(until, n))`; an `until >= n` gives the suffix of `S` starting
at position `from`, and a `from >= n` gives an empty view. -/
theorem elements_slice_clamped (S : List α) (from_ until_ : Nat) (fuel : Nat)
    (hf : from_ < 2 ^ unsigned_bits) (hu : until_ < 2 ^ unsigned_bits)
    (hfu : from_ ≤ until_) (h : S.length < fuel) :
    (slice S from_ until_ >>= elements fuel) =
        (slice S (min from_ S.length) (min until_ S.length) >>= elements fuel) ∧
      (∃ xs, (slice S from_ until_ >>= elements fuel) = .ok xs) ∧
      (S.length ≤ until_ → (slice S from_ until_ >>= elements fuel) = .ok (S.drop from_)) ∧
      (S.length ≤ from_ → (slice S from_ until_ >>= elements fuel) = .ok []) := by
  have hc : min from_ S.length ≤ min until_ S.length := by omega
  have e₁ : (slice S from_ until_ >>= elements fuel) =
      .ok ((S.drop from_).take (until_ - from_)) := by
    rw [slice_ok S from_ until_ hf hu hfu, ok_bind]
    exact elements_range_view_slice S from_ until_ fuel hfu h
  have e₂ : (slice S (min from_ S.length) (min until_ S.length) >>= elements fuel) =
      .ok ((S.drop (min from_ S.length)).take (min until_ S.length - min from_ S.length)) := by
    rw [slice_ok S _ _ (Nat.lt_of_le_of_lt (Nat.min_le_left _ _) hf)
      (Nat.lt_of_le_of_lt (Nat.min_le_left _ _) hu) hc, ok_bind]
    exact elements_range_view_slice S _ _ fuel hc h
  refine ⟨?_, ⟨_, e₁⟩, ?_, ?_⟩
  · rw [e₁, e₂, Nat.min_comm from_, Nat.min_comm until_, take_drop_clamped S from_ until_ hfu]
  · intro hu
    rw [e₁, List.take_of_length_le]
    simp only [List.length_drop]
    omega
  · intro hf
    rw [e₁, List.drop_of_length_le hf, List.take_nil]

/-- Witness of `elements_slice_clamped`: the test `slice(4, 15)` on ten numbers. -/
theorem elements_slice_clamped_witness :
    (4 < 2 ^ unsigned_bits ∧ 15 < 2 ^ unsigned_bits ∧ 4 ≤ 15 ∧
        [1, 2, 3, 4, 5, 6, 7, 8, 9, 10].length < 11) ∧
      (slice [1, 2, 3, 4, 5, 6, 7, 8, 9, 10] 4 15 >>= elements 11) =
        (slice [1, 2, 3, 4, 5, 6, 7, 8, 9, 10] (min 4 [1, 2, 3, 4, 5, 6, 7, 8, 9, 10].length)
          (min 15 [1, 2, 3, 4, 5, 6, 7, 8, 9, 10].length) >>= elements 11) :=
  ⟨⟨by decide, by decide, by decide, by decide⟩,
    (elements_slice_clamped [1, 2, 3, 4, 5, 6, 7, 8, 9, 10] 4 15 11 (by decide) (by decide)
      (by decide) (by decide)).1⟩

end slice_clamp_proofs

/-! ## Empty filter views -/

section filter_empty_proofs

variable {α : Type}

/-- The skip loop of the filter iterator stops at the first element at or after the
position that satisfies the predicate, or at the end. -/
theorem filter_advance_loop_pos (p : α → Bool) (fuel : Nat) :
    ∀ (suf pre : List α) (m : Nat), suf.length < m →
      iterator_filter.advance_loop fuel m
          (⟨⟨pre ++ suf, pre.length⟩, p, ⟨pre ++ suf, (pre ++ suf).length⟩⟩ :
            iterator_filter (vector_iterator α) α) =
        .ok ⟨⟨pre ++ suf, pre.length + (suf.takeWhile (fun x => !p x)).length⟩, p,
          ⟨pre ++ suf, (pre ++ suf).length⟩⟩ := by
  intro suf
  induction suf with
  | nil =>
    intro pre m hm
    obtain ⟨m, rfl⟩ := Nat.exists_eq_succ_of_ne_zero (Nat.pos_iff_ne_zero.mp hm)
    simp [iterator_filter.advance_loop]
  | cons x suf ih =>
    intro pre m hm
    obtain ⟨m, rfl⟩ := Nat.exists_eq_succ_of_ne_zero (Nat.pos_iff_ne_zero.mp (Nat.zero_lt_of_lt hm))
    have h := ih (pre ++ [x]) m (by simpa using hm)
    simp only [List.append_assoc, List.singleton_append, List.length_append, List.length_singleton,
      List.length_cons, List.length_nil, Nat.zero_add] at h
    by_cases hx : p x = true
    · simp [iterator_filter.advance_loop, vector_deref_append, hx, List.takeWhile_cons]
    · simp [iterator_filter.advance_loop, vector_deref_append, vector_next_append, hx, h,
        List.takeWhile_cons]
      omega

/-- The begin cursor of a filter view over a vector is at the first element satisfying the
predicate, or at the end. -/
theorem filter_begin_pos (S : List α) (p : α → Bool) (fuel : Nat) (h : S.length ≤ fuel) :
    Sequence.begin fuel (filter S p) =
      .ok (⟨⟨S, (S.takeWhile (fun x => !p x)).length⟩, p, ⟨S, S.length⟩⟩ :
        iterator_filter (vector_iterator α) α) := by
  cases S with
  | nil => simp [filter, Sequence.begin, Sequence.end_, basic_keeper.get, iterator_filter.make]
  | cons x S =>
    simp only [List.length_cons] at h
    have hl := filter_advance_loop_pos p fuel S [x] fuel (by omega)
    have hd := vector_deref_append [] S x
    have hn := vector_next_append [] S x
    simp only [List.nil_append, List.length_nil, Nat.zero_add, List.singleton_append,
      List.length_singleton, List.length_cons] at hd hn hl
    by_cases hx : p x = true
    · simp [filter, Sequence.begin, Sequence.end_, basic_keeper.get, iterator_filter.make,
        hd, hx, List.takeWhile_cons]
    · simp [filter, Sequence.begin, Sequence.end_, basic_keeper.get, iterator_filter.make,
        iterator_filter.next, hd, hn, hx, hl, List.takeWhile_cons]
      omega

/-- The end cursor of a filter view over a vector. -/
theorem filter_end_pos (S : List α) (p : α → Bool) (fuel : Nat) :
    Sequence.end_ fuel (filter S p) =
      .ok (⟨⟨S, S.length⟩, p, ⟨S, S.length⟩⟩ : iterator_filter (vector_iterator α) α) := by
  simp [filter, Sequence.end_, basic_keeper.get, iterator_filter.make]

/-- A prefix taken while `q` holds is the whole list exactly when `q` holds throughout. -/
theorem takeWhile_length_eq_iff (q : α → Bool) :
    ∀ (S : List α), (S.takeWhile q).length = S.length ↔ ∀ x ∈ S, q x = true := by
  intro S
  induction S with
  | nil => simp
  | cons x S ih =>
    by_cases hx : q x = true
    · simp [List.takeWhile_cons, hx, ih]
    · simp [List.takeWhile_cons, hx]

/-- C16: for every vector `S` and predicate `p`, `begin()` of `filter(S, p)` compares equal
to `end()` if and only if no element of `S` satisfies `p` (which includes `S` being empty),
for every iteration bound of at least the length of `S`. -/
theorem filter_begin_eq_end_iff (S : List α) (p : α → Bool) (fuel : Nat)
    (h : S.length ≤ fuel) :
    ∃ b, (Sequence.begin fuel (filter S p) >>= fun first =>
        Sequence.end_ fuel (filter S p) >>= fun last => Iterator.eq fuel first last) = .ok b ∧
      (b = true ↔ ∀ x ∈ S, p x = false) := by
  refine ⟨(S.takeWhile (fun x => !p x)).length == S.length, ?_, ?_⟩
  · rw [filter_begin_pos S p fuel h, filter_end_pos S p fuel]
    rfl
  · rw [beq_iff_eq, takeWhile_length_eq_iff]
    simp

/-- Witness of `filter_begin_eq_end_iff`: no element of `[1, 3, 5]` is even. -/
theorem filter_begin_eq_end_iff_witness :
    [1, 3, 5].length ≤ 3 ∧
      ∃ b, (Sequence.begin 3 (filter [1, 3, 5] (fun n : Nat => n % 2 == 0)) >>= fun first =>
          Sequence.end_ 3 (filter [1, 3, 5] (fun n : Nat => n % 2 == 0)) >>= fun last =>
            Iterator.eq 3 first last) = .ok b ∧
        (b = true ↔ ∀ x ∈ [1, 3, 5], (fun n : Nat => n % 2 == 0) x = false) :=
  ⟨by decide, filter_begin_eq_end_iff [1, 3, 5] _ 3 (by decide)⟩

end filter_empty_proofs


/-! ## For-each on a vector -/

/-- Witness of `for_each_eq_foldl_elements`: the action of the tests, which appends each
element to what it has printed so far, on `[1, 2, 3]`. -/
theorem for_each_eq_foldl_elements_witness :
    [1, 2, 3].length < 4 ∧
      for_each 4 [1, 2, 3] (fun (out : String) (e : Nat) => out ++ toString e) "" =
        .ok ([1, 2, 3].foldl (fun (out : String) (e : Nat) => out ++ toString e) "") :=
  ⟨by decide, (for_each_eq_foldl_elements 4 [1, 2, 3] _ "").2.2 [1, 2, 3] (by decide)⟩

/-! ## `ezy::empty` and `ezy::size` -/

section empty_size_proofs

variable {τ ι β : Type}

/-- The paths of `ezy::empty` that delegate: a free `empty(t)` is used first, then the
member `t.empty()`; the begin/end comparison is the last resort. -/
theorem empty_fn_paths (d : detected τ ι β) (fuel : Nat) (t : τ) :
    (∀ e, d.empty_free_fn = some e → empty_fn d fuel t = some (.ok (e t))) ∧
      (∀ e, d.empty_free_fn = none → d.empty_mem_fn = some e →
        empty_fn d fuel t = some (.ok (e t))) ∧
      (∀ r, d.empty_free_fn = none → d.empty_mem_fn = none → d.size_mem_fn = none →
        d.range = some r → empty_fn d fuel t = some (detail.impl_empty_0 r fuel t)) := by
  refine ⟨?_, ?_, ?_⟩
  · intro e h
    simp [empty_fn, detail.impl_empty, h, detail.impl_empty_3]
  · intro e h₁ h₂
    simp [empty_fn, detail.impl_empty, h₁, h₂, detail.impl_empty_2]
  · intro r h₁ h₂ h₃ h₄
    simp [empty_fn, detail.impl_empty, h₁, h₂, h₃, h₄]

/-- The begin/end comparison tells whether a vector holds no elements. -/
theorem impl_empty_0_vector {α : Type} (fuel : Nat) (S : List α) :
    detail.impl_empty_0 ⟨instSequenceVector, instIteratorVector⟩ fuel S = .ok S.isEmpty := by
  cases S <;> simp [detail.impl_empty_0]

/-- The path of `ezy::empty` through the member `size()`: the result is `size() != 0`. -/
theorem empty_fn_size_path (d : detected τ ι β) (fuel : Nat) (t : τ) (size : τ → Int)
    (h₁ : d.empty_free_fn = none) (h₂ : d.empty_mem_fn = none) (h₃ : d.size_mem_fn = some size) :
    empty_fn d fuel t = some (.ok (size t != 0)) := by
  simp [empty_fn, detail.impl_empty, h₁, h₂, h₃, detail.impl_empty_1]

/-- C18 (the code at the failing input): for a type that offers only the member `size()`,
here an integer holding its own size, `ezy::empty(t)` is false when `t.size() == 0` and
true when `t.size() == 3`: the opposite of "true iff `t.size() == 0`". -/
theorem empty_fn_only_size_failing_input :
    empty_fn (⟨none, none, some (fun n => n), none, none⟩ : detected Int Unit Unit) 0 0 =
        some (.ok false) ∧
      empty_fn (⟨none, none, some (fun n => n), none, none⟩ : detected Int Unit Unit) 0 3 =
        some (.ok true) := by
  constructor <;> rfl

/-- C19 (counterexample to the claim as stated): for a type with both a free `empty(t)`,
answering true, and a member `t.empty()`, answering false, `ezy::empty` returns the answer
of the free function, not that of the member. -/
theorem empty_fn_free_before_member :
    (⟨some (fun _ => true), some (fun _ => false), none, none, none⟩ :
        detected Unit Unit Unit).empty_mem_fn.map (fun e => e ()) = some false ∧
      empty_fn (⟨some (fun _ => true), some (fun _ => false), none, none, none⟩ :
        detected Unit Unit Unit) 0 () = some (.ok true) := by
  constructor <;> rfl

/-- C19 (amended): `ezy::size(t)` returns the member `t.size()` whenever the type has one,
also for a type that is not iterable, otherwise a free `size(t)`, otherwise the number of
steps from `begin(t)` to `end(t)`; for every vector the result is its length, the number of
elements a traversal yields; and `ezy::empty` returns a free `empty(t)` when there is one,
otherwise the member `t.empty()` whenever the type has one, also for a type that is not
iterable. -/
theorem size_fn_and_empty_fn_dispatch (d : detected τ ι β) (fuel : Nat) (t : τ) :
    (∀ m, d.size_mem_fn = some m → size_fn d fuel t = some (.ok (m t))) ∧
      (∀ g, d.size_mem_fn = none → d.size_free_fn = some g →
        size_fn d fuel t = some (.ok (g t))) ∧
      (∀ r, d.size_mem_fn = none → d.size_free_fn = none → d.range = some r →
        size_fn d fuel t = some (detail.impl_size_0 r fuel t)) ∧
      (∀ (α : Type) (S : List α), size_fn (vector_detected α) fuel S = some (.ok S.length) ∧
        (S.length < fuel →
          detail.impl_size_0 ⟨instSequenceVector, instIteratorVector⟩ fuel S = .ok S.length ∧
          elements fuel S = .ok S)) ∧
      (∀ e, d.empty_free_fn = some e → empty_fn d fuel t = some (.ok (e t))) ∧
      (∀ e, d.empty_free_fn = none → d.empty_mem_fn = some e →
        empty_fn d fuel t = some (.ok (e t))) := by
  refine ⟨?_, ?_, ?_, ?_, (empty_fn_paths d fuel t).1, (empty_fn_paths d fuel t).2.1⟩
  · intro m h
    simp [size_fn, detail.impl_size, h, detail.impl_size_2]
  · intro g h₁ h₂
    simp [size_fn, detail.impl_size, h₁, h₂, detail.impl_size_1]
  · intro r h₁ h₂ h₃
    simp [size_fn, detail.impl_size, h₁, h₂, h₃]
  · intro α S
    refine ⟨by simp [size_fn, detail.impl_size, vector_detected, detail.impl_size_2], ?_⟩
    intro hS
    have hd := std_distance_vector fuel S [] fuel hS
    have ht := traverse_vector fuel S [] [] fuel hS
    simp only [List.nil_append, List.append_nil, List.length_nil, Nat.zero_add] at hd ht
    constructor
    · simp [detail.impl_size_0, hd]
    · simp [elements, ht]

/-- Witness of `size_fn_and_empty_fn_dispatch`: the special type of the tests, which is not
iterable and has the members `size()`, answering 42, and `empty()`, answering false. -/
theorem size_fn_and_empty_fn_dispatch_witness :
    size_fn (⟨none, some (fun _ => false), some (fun _ => 42), none, none⟩ :
        detected Unit Unit Unit) 0 () = some (.ok 42) ∧
      empty_fn (⟨none, some (fun _ => false), some (fun _ => 42), none, none⟩ :
        detected Unit Unit Unit) 0 () = some (.ok false) :=
  ⟨(size_fn_and_empty_fn_dispatch _ 0 ()).1 _ rfl,
    (size_fn_and_empty_fn_dispatch _ 0 ()).2.2.2.2.2 _ rfl rfl⟩

end empty_size_proofs


/-! ## Tuplify -/

section tuplify_proofs

open tuple_traits

/-- C21: `tuplify` maps a tuple type to itself unchanged, `void` to the empty tuple, and
every other type `T` to the one-element `tuple<T>`; so `tuplify` is idempotent and its
result is always a tuple. -/
theorem tuplify_spec (T : cpp_type) :
    (∀ ts, tuplify (.tuple ts) = .tuple ts) ∧
      tuplify .void_ = .tuple [] ∧
      (is_tuple T = false → T ≠ .void_ → tuplify T = .tuple [T]) ∧
      tuplify (tuplify T) = tuplify T ∧
      is_tuple (tuplify T) = true := by
  refine ⟨fun _ => rfl, rfl, ?_, ?_, ?_⟩
  · intro h hv
    cases T with
    | void_ => exact absurd rfl hv
    | named n => rfl
    | integral_constant n => rfl
    | tuple ts => simp [is_tuple] at h
  · cases T <;> rfl
  · cases T <;> rfl

/-- Witness of `tuplify_spec`: `int` becomes `tuple<int>`, and `tuple<int, void>` stays. -/
theorem tuplify_spec_witness :
    tuplify (.named "int") = .tuple [.named "int"] ∧
      tuplify (.tuple [.named "int", .void_]) = .tuple [.named "int", .void_] :=
  ⟨(tuplify_spec (.named "int")).2.2.1 rfl (fun h => cpp_type.noConfusion h),
    (tuplify_spec .void_).1 _⟩

end tuplify_proofs

/-! ## Equality of concatenation cursors -/

section concatenate_eq_failing

/-- C26 (the code at the failing input): in `concatenate([1], [2])` the cursor `c1` after
one advance and the cursor `c2 = begin()` compare equal as `c1 == c2`, although they are at
different positions, and unequal as `c2 == c1`; in `concatenate([1], [])`, `end() == begin()`
is true and `begin() == end()` is false. -/
theorem concatenate_eq_failing_input :
    (advanced 10 (concatenate [1] [2]) 1 >>= fun c1 =>
        advanced 10 (concatenate [1] [2]) 0 >>= fun c2 => Iterator.eq 10 c1 c2) = .ok true ∧
      (advanced 10 (concatenate [1] [2]) 1 >>= fun c1 =>
        advanced 10 (concatenate [1] [2]) 0 >>= fun c2 => Iterator.eq 10 c2 c1) = .ok false ∧
      (Sequence.end_ 10 (concatenate [1] ([] : List Nat)) >>= fun last =>
        Sequence.begin 10 (concatenate [1] ([] : List Nat)) >>= fun first =>
          Iterator.eq 10 last first) = .ok true ∧
      (Sequence.end_ 10 (concatenate [1] ([] : List Nat)) >>= fun last =>
        Sequence.begin 10 (concatenate [1] ([] : List Nat)) >>= fun first =>
          Iterator.eq 10 first last) = .ok false := by
  refine ⟨?_, ?_, ?_, ?_⟩ <;> rfl

end concatenate_eq_failing

/-! ## Begin of a flatten view -/

section flatten_begin_failing

/-- C29 (the code at the failing input): for `[[], [1]]`, `begin()` of the flatten view is
at the first outer position with `inner` at the end of the empty first inner vector, not at
the first element of `[1]`; and for `[[]]`, which has no non-empty inner vector, `begin()`
does not equal `end()`. -/
theorem flatten_begin_failing_input :
    Sequence.begin 10 (flatten ([[], [1]] : List (List Nat))) =
        .ok (⟨⟨[[], [1]], ⟨[[], [1]], 0⟩⟩, ⟨[], 0⟩⟩ :
          iterator_flattener (List (List Nat)) (vector_iterator (List Nat))
            (vector_iterator Nat)) ∧
      (Sequence.begin 10 (flatten ([[]] : List (List Nat))) >>= fun first =>
        Sequence.end_ 10 (flatten ([[]] : List (List Nat))) >>= fun last =>
          Iterator.eq 10 first last) = .ok false := by
  constructor <;> rfl

end flatten_begin_failing


/-! ## Filter cursor invariant -/

section filter_invariant_proofs

variable {α : Type}

/-- Incrementing a vector iterator that is before the end. -/
theorem vector_next_of_lt (xs : List α) (i : Nat) (h : i < xs.length) :
    vector_iterator.next ⟨xs, i⟩ = .ok ⟨xs, i + 1⟩ := by
  simp [vector_iterator.next, h]

/-- Dereferencing a vector iterator that is before the end. -/
theorem vector_deref_of_lt (xs : List α) (i : Nat) (h : i < xs.length) :
    vector_iterator.deref ⟨xs, i⟩ = .ok (xs.get ⟨i, h⟩) := by
  simp [vector_iterator.deref, List.getElem?_eq_getElem h]

/-- A list splits around each of its positions. -/
theorem split_at_position (xs : List α) (i : Nat) (h : i < xs.length) :
    xs = xs.take i ++ xs.get ⟨i, h⟩ :: xs.drop (i + 1) ∧ (xs.take i).length = i := by
  constructor
  · rw [List.get_eq_getElem, ← List.drop_eq_getElem_cons h, List.take_append_drop]
  · simp [Nat.min_eq_left (Nat.le_of_lt h)]

/-- What is left after dropping the elements that fail `p` is empty or starts with an
element that satisfies `p`. -/
theorem dropWhile_not_head (p : α → Bool) :
    ∀ (xs : List α), xs.dropWhile (fun x => !p x) = [] ∨
      ∃ y r, xs.dropWhile (fun x => !p x) = y :: r ∧ p y = true := by
  intro xs
  induction xs with
  | nil => exact Or.inl rfl
  | cons x xs ih =>
    by_cases hx : p x = true
    · exact Or.inr ⟨x, xs, by simp [List.dropWhile_cons, hx], hx⟩
    · simpa [List.dropWhile_cons, hx] using ih

/-- The position the skip loop reaches is the end or holds an element satisfying `p`. -/
theorem filter_stop_at_match_or_end (p : α → Bool) (pre suf : List α) :
    pre.length + (suf.takeWhile (fun x => !p x)).length = (pre ++ suf).length ∨
      ∃ x, (pre ++ suf)[pre.length + (suf.takeWhile (fun x => !p x)).length]? = some x ∧
        p x = true := by
  have hsplit := List.takeWhile_append_dropWhile (fun x => !p x) suf
  rcases dropWhile_not_head p suf with hnil | ⟨y, r, hyr, hy⟩
  · left
    rw [hnil, List.append_nil] at hsplit
    rw [hsplit, List.length_append]
  · right
    refine ⟨y, ?_, hy⟩
    rw [hyr] at hsplit
    have e : pre ++ suf = (pre ++ suf.takeWhile (fun x => !p x)) ++ y :: r := by
      rw [List.append_assoc, hsplit]
    have hl : pre.length + (suf.takeWhile (fun x => !p x)).length =
        (pre ++ suf.takeWhile (fun x => !p x)).length := by
      rw [List.length_append]
    rw [hl]
    conv_lhs => rw [e]
    rw [List.getElem?_append_right (Nat.le_refl _)]
    simp

/-- C23: filter cursor invariant: the cursor returned by `begin()` of `filter(S, p)` is
positioned either at an element of `S` that satisfies `p` or at the end of `S`; and
advancing any cursor so positioned that is not at the end succeeds and gives a cursor so
positioned again; so every cursor obtained from `begin()` by advancing while it is not at
the end is. -/
theorem filter_cursor_invariant (S : List α) (p : α → Bool) (fuel : Nat)
    (h : S.length ≤ fuel) :
    (∃ b, Sequence.begin fuel (filter S p) = .ok b ∧ filter_cursor_at_match_or_end S p b) ∧
      ∀ c, filter_cursor_at_match_or_end S p c → c.orig.pos ≠ S.length →
        ∃ c', Iterator.next fuel c = .ok c' ∧ filter_cursor_at_match_or_end S p c' := by
  constructor
  · refine ⟨_, filter_begin_pos S p fuel h, rfl, rfl, rfl, ?_⟩
    simpa using filter_stop_at_match_or_end p [] S
  · intro c hc hne
    obtain ⟨o, q, e⟩ := c
    obtain ⟨d, i⟩ := o
    obtain ⟨hd, hq, he, hpos⟩ := hc
    simp only at hd hq he hpos hne
    subst hd hq he
    have hlt : i < d.length := by
      rcases hpos with h1 | ⟨x, hx, _⟩
      · exact absurd h1 hne
      · by_contra hge
        rw [List.getElem?_eq_none (by omega)] at hx
        exact Option.noConfusion hx
    obtain ⟨hs, hl⟩ := split_at_position d i hlt
    have hloop := filter_advance_loop_pos q fuel (d.drop (i + 1)) (d.take i ++ [d.get ⟨i, hlt⟩])
      fuel (by simp only [List.length_drop]; omega)
    have hstop := filter_stop_at_match_or_end q (d.take i ++ [d.get ⟨i, hlt⟩]) (d.drop (i + 1))
    have e : d.take i ++ [d.get ⟨i, hlt⟩] ++ d.drop (i + 1) = d := by
      rw [List.append_assoc, List.singleton_append]
      exact hs.symm
    have hl' : (d.take i ++ [d.get ⟨i, hlt⟩]).length = i + 1 := by
      rw [List.length_append, hl, List.length_singleton]
    rw [e, hl'] at hloop hstop
    refine ⟨⟨⟨d, i + 1 + ((d.drop (i + 1)).takeWhile (fun x => !q x)).length⟩, q,
      ⟨d, d.length⟩⟩, ?_, rfl, rfl, rfl, hstop⟩
    simp only [filter_next, iterator_filter.next, vector_next, vector_next_of_lt d i hlt, ok_bind]
    exact hloop

/-- Witness of `filter_cursor_invariant`: on `[1, 2, 3, 4]` with the even numbers, the
cursor at the element 2 advances to the element 4. -/
theorem filter_cursor_invariant_witness :
    [1, 2, 3, 4].length ≤ 4 ∧
      ∃ c', Iterator.next 4 (⟨⟨[1, 2, 3, 4], 1⟩, fun n : Nat => n % 2 == 0, ⟨[1, 2, 3, 4], 4⟩⟩ :
          iterator_filter (vector_iterator Nat) Nat) = .ok c' ∧
        filter_cursor_at_match_or_end [1, 2, 3, 4] (fun n : Nat => n % 2 == 0) c' :=
  ⟨by decide, (filter_cursor_invariant [1, 2, 3, 4] (fun n : Nat => n % 2 == 0) 4
    (by decide)).2 _ ⟨rfl, rfl, rfl, Or.inr ⟨2, rfl, rfl⟩⟩ (by decide)⟩

end filter_invariant_proofs


/-! ## Evaluations of the filter predicate -/

section filter_log_proofs

variable {ι β : Type} [Iterator ι β]

/-- Leaving out the record, the skip loop with the recording predicate is the skip loop. -/
theorem advance_loop_logged_erase (fuel : Nat) :
    ∀ (n : Nat) (it : iterator_filter ι β) (log : List β),
      (iterator_filter.advance_loop_logged fuel n it log >>= fun r => pure r.1) =
        iterator_filter.advance_loop fuel n it := by
  intro n
  induction n with
  | zero => intro it log; rfl
  | succ n ih =>
    intro it log
    simp only [iterator_filter.advance_loop_logged, iterator_filter.advance_loop]
    cases Iterator.ne fuel it.orig it.end_iterator with
    | error e => rfl
    | ok b =>
      cases b with
      | false => rfl
      | true =>
        simp only [ok_bind, if_true]
        cases Iterator.deref fuel it.orig with
        | error e => rfl
        | ok v =>
          simp only [ok_bind]
          cases it.predicate v with
          | true => rfl
          | false =>
            simp only [Bool.false_eq_true, if_false]
            cases Iterator.next fuel it.orig with
            | error e => rfl
            | ok o =>
              simp only [ok_bind]
              exact ih _ _

/-- Leaving out the record, `operator++` with the recording predicate is `operator++`. -/
theorem next_logged_erase (fuel : Nat) (it : iterator_filter ι β) (log : List β) :
    (it.next_logged fuel log >>= fun r => pure r.1) = it.next fuel := by
  simp only [iterator_filter.next_logged, iterator_filter.next]
  cases Iterator.next fuel it.orig with
  | error e => rfl
  | ok o =>
    simp only [ok_bind]
    exact advance_loop_logged_erase fuel fuel _ log

/-- Leaving out the record, the constructor with the recording predicate is the
constructor. -/
theorem make_logged_erase (fuel : Nat) (original : ι) (p : β → Bool) (last : ι)
    (log : List β) :
    (iterator_filter.make_logged fuel original p last log >>= fun r => pure r.1) =
      iterator_filter.make fuel original p last := by
  simp only [iterator_filter.make_logged, iterator_filter.make]
  cases Iterator.ne fuel original last with
  | error e => rfl
  | ok b =>
    cases b with
    | false => rfl
    | true =>
      simp only [ok_bind, if_true]
      cases Iterator.deref fuel original with
      | error e => rfl
      | ok v =>
        simp only [ok_bind]
        by_cases hp : p v = true
        · simp only [hp, Bool.not_true, Bool.false_eq_true, if_false]
          rfl
        · simp only [Bool.not_eq_true] at hp
          simp only [hp, Bool.not_false, if_true]
          exact next_logged_erase fuel _ _

/-- Leaving out the record, the traversal with the recording predicate is the traversal. -/
theorem traverse_logged_erase (fuel : Nat) :
    ∀ (n : Nat) (it last : iterator_filter ι β) (log : List β),
      (iterator_filter.traverse_logged fuel n it last log >>= fun r => pure r.1) =
        traverse fuel n it last := by
  intro n
  induction n with
  | zero => intro it last log; rfl
  | succ n ih =>
    intro it last log
    simp only [iterator_filter.traverse_logged, traverse, filter_ne, filter_deref, filter_next,
      iterator_filter.ne, iterator_filter.deref]
    cases Iterator.ne fuel it.orig last.orig with
    | error e => rfl
    | ok b =>
      cases b with
      | false => rfl
      | true =>
        simp only [ok_bind, if_true]
        cases Iterator.deref fuel it.orig with
        | error e => rfl
        | ok v =>
          simp only [ok_bind]
          rw [← next_logged_erase fuel it log]
          cases it.next_logged fuel log with
          | error e => rfl
          | ok r =>
            obtain ⟨it', log'⟩ := r
            simp only [ok_bind, pure_eq_ok]
            rw [← ih it' last log']
            cases iterator_filter.traverse_logged fuel n it' last log' with
            | error e => rfl
            | ok r' => rfl

/-- Leaving out the record, the traversal of a filter view with the recording predicate is
the traversal of the view, for every range type. -/
theorem elements_logged_erase {ρ : Type} [Sequence ρ ι] (fuel : Nat)
    (v : range_view_filter ρ β) :
    (v.elements_logged fuel >>= fun r => pure r.1) = elements fuel v := by
  simp only [range_view_filter.elements_logged, elements, Sequence.begin, Sequence.end_]
  cases (Sequence.begin fuel v.orig_range.get : Except Fault ι) with
  | error e => rfl
  | ok first =>
    simp only [ok_bind]
    cases (Sequence.end_ fuel v.orig_range.get : Except Fault ι) with
    | error e => rfl
    | ok last =>
      simp only [ok_bind]
      rw [← make_logged_erase fuel first v.predicate last []]
      cases iterator_filter.make_logged fuel first v.predicate last [] with
      | error e => rfl
      | ok r =>
        obtain ⟨b, log⟩ := r
        simp only [ok_bind, pure_eq_ok]
        rw [← make_logged_erase fuel last v.predicate last log]
        cases iterator_filter.make_logged fuel last v.predicate last log with
        | error e => rfl
        | ok r' =>
          obtain ⟨e, log'⟩ := r'
          simp only [ok_bind, pure_eq_ok]
          exact traverse_logged_erase fuel fuel b e log'

end filter_log_proofs

section filter_log_vector_proofs

variable {α : Type}

/-- A run that yields the pair `(r, l)` still yields it with one more element consed in
front of its first component afterwards. -/
theorem bind_cons_fst_of_bind {ε σ β τ : Type} {m : Except ε σ}
    {f : σ → Except ε (List β × τ)} {r : List β} {l : τ} (h : (m >>= f) = .ok (r, l)) (x : β) :
    (m >>= fun s => f s >>= fun q => Except.ok (x :: q.1, q.2)) = .ok (x :: r, l) := by
  cases m with
  | error e => simp at h
  | ok s =>
    simp only [ok_bind] at h ⊢
    rw [h]
    rfl

/-- The skip loop with the recording predicate followed by the rest of the traversal yields
the matching elements at and after the position and records one evaluation of the predicate
on each element at and after the position, in order. -/
theorem filter_logged_loop_traverse (p : α → Bool) (fuel : Nat) :
    ∀ (suf pre : List α) (m n : Nat) (log : List α),
      suf.length < m → suf.length < n → suf.length ≤ fuel →
      (iterator_filter.advance_loop_logged fuel m
          (⟨⟨pre ++ suf, pre.length⟩, p, ⟨pre ++ suf, (pre ++ suf).length⟩⟩ :
            iterator_filter (vector_iterator α) α) log >>=
        fun r => iterator_filter.traverse_logged fuel n r.1
          ⟨⟨pre ++ suf, (pre ++ suf).length⟩, p, ⟨pre ++ suf, (pre ++ suf).length⟩⟩ r.2) =
        .ok (suf.filter p, log ++ suf) := by
  intro suf
  induction suf with
  | nil =>
    intro pre m n log hm hn _
    obtain ⟨m, rfl⟩ := Nat.exists_eq_succ_of_ne_zero (Nat.pos_iff_ne_zero.mp hm)
    obtain ⟨n, rfl⟩ := Nat.exists_eq_succ_of_ne_zero (Nat.pos_iff_ne_zero.mp hn)
    simp [iterator_filter.advance_loop_logged, iterator_filter.traverse_logged,
      iterator_filter.ne]
  | cons x suf ih =>
    intro pre m n log hm hn hf
    obtain ⟨m, rfl⟩ := Nat.exists_eq_succ_of_ne_zero (Nat.pos_iff_ne_zero.mp (Nat.zero_lt_of_lt hm))
    obtain ⟨n, rfl⟩ := Nat.exists_eq_succ_of_ne_zero (Nat.pos_iff_ne_zero.mp (Nat.zero_lt_of_lt hn))
    simp only [List.length_cons] at hm hn hf
    have h₁ := ih (pre ++ [x]) m (n + 1) (log ++ [x]) (by omega) (by omega) (by omega)
    have h₂ := ih (pre ++ [x]) fuel n (log ++ [x]) (by omega) (by omega) (by omega)
    simp only [List.append_assoc, List.singleton_append, List.length_append, List.length_singleton,
      List.length_cons, List.length_nil, Nat.zero_add] at h₁ h₂
    by_cases hx : p x = true
    · simp [iterator_filter.advance_loop_logged, iterator_filter.traverse_logged,
        iterator_filter.ne, iterator_filter.deref, iterator_filter.next_logged,
        vector_deref_append, vector_next_append, hx]
      exact bind_cons_fst_of_bind h₂ x
    · simp [iterator_filter.advance_loop_logged, vector_deref_append, vector_next_append, hx]
      exact h₁

/-- C24: in one complete traversal of `filter(S, p)` over a vector `S` (one `begin()`, one
`end()`, then advancing until equal to `end()`), the predicate `p` is evaluated at most once
on each element of `S`: the evaluations are on the elements of `S` from first to last, one
each; leaving out the record gives the traversal of the view; and dereferencing a filter
cursor gives the same result with every predicate, so it does not evaluate `p`. -/
theorem filter_predicate_evaluated_once (S : List α) (p : α → Bool) (fuel : Nat)
    (h : S.length < fuel) :
    (filter S p).elements_logged fuel = .ok (S.filter p, S) ∧
      ((filter S p).elements_logged fuel >>= fun r => pure r.1) = elements fuel (filter S p) ∧
      ∀ (c : iterator_filter (vector_iterator α) α) (q : α → Bool),
        Iterator.deref fuel c =
          Iterator.deref fuel (⟨c.orig, q, c.end_iterator⟩ :
            iterator_filter (vector_iterator α) α) := by
  refine ⟨?_, elements_logged_erase fuel (filter S p), fun _ _ => rfl⟩
  obtain ⟨k, rfl⟩ := Nat.exists_eq_succ_of_ne_zero (Nat.pos_iff_ne_zero.mp (Nat.zero_lt_of_lt h))
  cases S with
  | nil => simp [range_view_filter.elements_logged, filter, basic_keeper.get,
      iterator_filter.make_logged, iterator_filter.traverse_logged, iterator_filter.ne]
  | cons x S =>
    simp only [List.length_cons] at h
    have h₁ := filter_logged_loop_traverse p (k + 1) S [x] (k + 1) (k + 1) [x] (by omega)
      (by omega) (by omega)
    have h₂ := filter_logged_loop_traverse p (k + 1) S [x] (k + 1) k [x] (by omega) (by omega)
      (by omega)
    simp only [List.singleton_append, List.length_singleton, List.length_cons] at h₁ h₂
    have hd := vector_deref_append [] S x
    have hn := vector_next_append [] S x
    simp only [List.nil_append, List.length_nil, Nat.zero_add] at hd hn
    by_cases hx : p x = true
    · simp [range_view_filter.elements_logged, filter, basic_keeper.get,
        iterator_filter.make_logged, iterator_filter.traverse_logged, iterator_filter.ne,
        iterator_filter.deref, iterator_filter.next_logged, hd, hn, hx]
      exact bind_cons_fst_of_bind h₂ x
    · simp [range_view_filter.elements_logged, filter, basic_keeper.get,
        iterator_filter.make_logged, iterator_filter.next_logged, hd, hn, hx]
      exact h₁

/-- Witness of `filter_predicate_evaluated_once`: the even numbers of `[1, 2, 3, 4]`. -/
theorem filter_predicate_evaluated_once_witness :
    [1, 2, 3, 4].length < 5 ∧
      (filter [1, 2, 3, 4] (fun n : Nat => n % 2 == 0)).elements_logged 5 =
        .ok ([1, 2, 3, 4].filter (fun n : Nat => n % 2 == 0), [1, 2, 3, 4]) :=
  ⟨by decide, (filter_predicate_evaluated_once [1, 2, 3, 4] _ 5 (by decide)).1⟩

end filter_log_vector_proofs


/-! ## Concatenation cursors and `end()` -/

section concatenate_end_proofs

variable {α : Type}

/-- The concatenation cursor `n` steps after `begin()`: the first sub-cursor has moved over
the first range, then the second sub-cursor moves. -/
theorem concatenator_next_at (a b : List α) (fuel n : Nat) (h : n < a.length + b.length) :
    iterator_concatenator.next fuel
        (⟨⟨(a, b), (⟨a, min n a.length⟩, ⟨b, n - a.length⟩)⟩⟩ :
          iterator_concatenator (List α) (List α) (vector_iterator α) (vector_iterator α)) =
      .ok ⟨⟨(a, b), (⟨a, min (n + 1) a.length⟩, ⟨b, n + 1 - a.length⟩)⟩⟩ := by
  rcases Nat.lt_or_ge n a.length with hlt | hge
  · have e₁ : min n a.length = n := Nat.min_eq_left (Nat.le_of_lt hlt)
    have e₂ : min (n + 1) a.length = n + 1 := Nat.min_eq_left hlt
    have e₃ : n - a.length = 0 := by omega
    have e₄ : n + 1 - a.length = 0 := by omega
    have hne : ¬ n = a.length := Nat.ne_of_lt hlt
    rw [e₁, e₂, e₃, e₄]
    simp [iterator_concatenator.next, range_tracker2.get0, hne, vector_next_of_lt a n hlt]
  · have e₁ : min n a.length = a.length := Nat.min_eq_right hge
    have e₂ : min (n + 1) a.length = a.length := Nat.min_eq_right (by omega)
    have hb : n - a.length < b.length := by omega
    have e₃ : n + 1 - a.length = n - a.length + 1 := by omega
    have hne : ¬ n - a.length = b.length := Nat.ne_of_lt hb
    rw [e₁, e₂, e₃]
    simp [iterator_concatenator.next, range_tracker2.get0, range_tracker2.get1, hne,
      vector_next_of_lt b (n - a.length) hb]

/-- The concatenation cursor reached from the cursor at step `n` by `k` advances. -/
theorem concatenator_std_next (a b : List α) (fuel : Nat) :
    ∀ (k n : Nat), n + k ≤ a.length + b.length →
      std_next fuel
        (⟨⟨(a, b), (⟨a, min n a.length⟩, ⟨b, n - a.length⟩)⟩⟩ :
          iterator_concatenator (List α) (List α) (vector_iterator α) (vector_iterator α)) k =
        .ok ⟨⟨(a, b), (⟨a, min (n + k) a.length⟩, ⟨b, n + k - a.length⟩)⟩⟩ := by
  intro k
  induction k with
  | zero => intro n _; rfl
  | succ k ih =>
    intro n h
    have hstep := concatenator_next_at a b fuel n (by omega)
    have hrest := ih (n + 1) (by omega)
    have e : n + 1 + k = n + (k + 1) := by omega
    rw [e] at hrest
    simp only [std_next, concatenator_next, hstep, ok_bind, hrest]

/-- The cursor obtained from `begin()` of a concatenation by `k` advances. -/
theorem concatenate_advanced (a b : List α) (fuel k : Nat) (h : k ≤ a.length + b.length) :
    advanced fuel (concatenate a b) k =
      .ok (⟨⟨(a, b), (⟨a, min k a.length⟩, ⟨b, k - a.length⟩)⟩⟩ :
        iterator_concatenator (List α) (List α) (vector_iterator α) (vector_iterator α)) := by
  have hs := concatenator_std_next a b fuel k 0 (by omega)
  simp only [Nat.zero_add, Nat.zero_min, Nat.zero_sub] at hs
  simp only [advanced, concatenate, Sequence.begin, basic_keeper.get, iterator_concatenator.make,
    range_tracker2.begin_of, vector_begin, ok_bind, pure_eq_ok]
  exact hs

/-- The end cursor of a concatenation. -/
theorem concatenate_end (a b : List α) (fuel : Nat) :
    Sequence.end_ fuel (concatenate a b) =
      .ok (⟨⟨(a, b), (⟨a, a.length⟩, ⟨b, b.length⟩)⟩⟩ :
        iterator_concatenator (List α) (List α) (vector_iterator α) (vector_iterator α)) := rfl

/-- C25: for every `concatenate(a, b)` view over vectors and every cursor `c` obtained from
`begin()` by `k` advances with `0 <= k <= |a| + |b|`, the comparison `c == end()` is true if
and only if `k = |a| + |b|`, which is when both of `c`'s sub-cursors are at the ends of
their ranges. -/
theorem concatenate_cursor_eq_end_iff (a b : List α) (fuel k : Nat)
    (h : k ≤ a.length + b.length) :
    ∃ c last, advanced fuel (concatenate a b) k = .ok c ∧
      Sequence.end_ fuel (concatenate a b) = .ok last ∧
      Iterator.eq fuel c last = .ok (decide (k = a.length + b.length)) ∧
      (k = a.length + b.length ↔
        c.tracker.current.1.pos = a.length ∧ c.tracker.current.2.pos = b.length) := by
  refine ⟨_, _, concatenate_advanced a b fuel k h, concatenate_end a b fuel, ?_, ?_⟩
  · rcases Nat.lt_or_ge k a.length with hlt | hge
    · have e₁ : min k a.length = k := Nat.min_eq_left (Nat.le_of_lt hlt)
      have hne : ¬ k = a.length := Nat.ne_of_lt hlt
      have hd : decide (k = a.length + b.length) = false := decide_eq_false (by omega)
      rw [e₁, hd]
      simp [iterator_concatenator.eq, range_tracker2.get0, hne]
    · have e₁ : min k a.length = a.length := Nat.min_eq_right hge
      rw [e₁]
      by_cases hb : k - a.length = b.length
      · have hd : decide (k = a.length + b.length) = true := decide_eq_true (by omega)
        rw [hd]
        simp [iterator_concatenator.eq, range_tracker2.get0, range_tracker2.get1, hb]
      · have hd : decide (k = a.length + b.length) = false := decide_eq_false (by omega)
        rw [hd]
        simp [iterator_concatenator.eq, range_tracker2.get0, range_tracker2.get1, hb]
  · simp only
    omega

/-- Witness of `concatenate_cursor_eq_end_iff`: three advances in `concatenate([1], [2, 3])`. -/
theorem concatenate_cursor_eq_end_iff_witness :
    3 ≤ [1].length + [2, 3].length ∧
      ∃ c last, advanced 5 (concatenate [1] [2, 3]) 3 = .ok c ∧
        Sequence.end_ 5 (concatenate [1] [2, 3]) = .ok last ∧
        Iterator.eq 5 c last = .ok (decide (3 = [1].length + [2, 3].length)) :=
  ⟨by decide,
    (concatenate_cursor_eq_end_iff [1] [2, 3] 5 3 (by decide)).imp fun _ hc =>
      hc.imp fun _ hl => ⟨hl.1, hl.2.1, hl.2.2.1⟩⟩

end concatenate_end_proofs

/-! ## Zip cursors -/

section zip_cursor_proofs

variable {α β γ : Type}

/-- Comparison of zip cursors over vectors: unequal when both sub-cursors differ. -/
theorem zipper_ne_vector (fuel : Nat)
    (z rhs : iterator_zipper (vector_iterator α) (vector_iterator β) α β γ) :
    Iterator.ne fuel z rhs =
      .ok (z.tracker.iters.1.pos != rhs.tracker.iters.1.pos &&
        z.tracker.iters.2.pos != rhs.tracker.iters.2.pos) := by
  simp only [zipper_ne, iterator_zipper.ne, iterator_zipper.has_next_helper, vector_ne, ok_bind,
    pure_eq_ok]
  cases z.tracker.iters.1.pos != rhs.tracker.iters.1.pos <;> rfl

/-- The zip cursor reached from the cursor at offsets `n` by `k` advances: all sub-cursors
move together. -/
theorem zipper_std_next (f : α → β → γ) (A : List α) (B : List β) (fuel : Nat) :
    ∀ (k n : Nat), n + k ≤ min A.length B.length →
      std_next fuel
        (⟨f, ⟨(⟨A, n⟩, ⟨B, n⟩)⟩⟩ :
          iterator_zipper (vector_iterator α) (vector_iterator β) α β γ) k =
        .ok ⟨f, ⟨(⟨A, n + k⟩, ⟨B, n + k⟩)⟩⟩ := by
  intro k
  induction k with
  | zero => intro n _; rfl
  | succ k ih =>
    intro n h
    have hA : n < A.length := by omega
    have hB : n < B.length := by omega
    have hrest := ih (n + 1) (by omega)
    have e : n + 1 + k = n + (k + 1) := by omega
    rw [e] at hrest
    simp only [std_next, zipper_next, iterator_zipper.next, iterator_tracker.next_all,
      vector_next, vector_next_of_lt A n hA, vector_next_of_lt B n hB, ok_bind, pure_eq_ok, hrest]

/-- The cursor obtained from `begin()` of a zip view by `k` advances is at offset `k` in
each range. -/
theorem zip_advanced (f : α → β → γ) (A : List α) (B : List β) (fuel k : Nat)
    (h : k ≤ min A.length B.length) :
    advanced fuel (zip f A B) k =
      .ok (⟨f, ⟨(⟨A, k⟩, ⟨B, k⟩)⟩⟩ :
        iterator_zipper (vector_iterator α) (vector_iterator β) α β γ) := by
  have hs := zipper_std_next f A B fuel k 0 (by omega)
  simp only [Nat.zero_add] at hs
  simp only [advanced, zip, Sequence.begin, basic_keeper.get, iterator_zipper.make,
    iterator_tracker.begin_from_ranges, vector_begin, ok_bind, pure_eq_ok]
  exact hs

/-- The end cursor of a zip view. -/
theorem zip_end (f : α → β → γ) (A : List α) (B : List β) (fuel : Nat) :
    Sequence.end_ fuel (zip f A B) =
      .ok (⟨f, ⟨(⟨A, A.length⟩, ⟨B, B.length⟩)⟩⟩ :
        iterator_zipper (vector_iterator α) (vector_iterator β) α β γ) := rfl

/-- C27: a zip cursor over vectors compares unequal to another exactly when every one of its
sub-cursors differs from the corresponding sub-cursor of the other, and equality is the
negation of that; hence the cursor reached after `k` advances from `begin()`, for `k` up to
the length of the shorter input, equals `end()` iff `k` is the length of at least one input,
which is when `k` is the length of the shorter one: the first input to end ends the
traversal. -/
theorem zip_cursor_comparison (f : α → β → γ) (A : List α) (B : List β) (fuel k : Nat)
    (h : k ≤ min A.length B.length) :
    (∀ z rhs : iterator_zipper (vector_iterator α) (vector_iterator β) α β γ,
        Iterator.ne fuel z rhs =
          .ok (z.tracker.iters.1.pos != rhs.tracker.iters.1.pos &&
            z.tracker.iters.2.pos != rhs.tracker.iters.2.pos) ∧
        Iterator.eq fuel z rhs =
          .ok (!(z.tracker.iters.1.pos != rhs.tracker.iters.1.pos &&
            z.tracker.iters.2.pos != rhs.tracker.iters.2.pos))) ∧
      ∃ c last, advanced fuel (zip f A B) k = .ok c ∧
        Sequence.end_ fuel (zip f A B) = .ok last ∧
        Iterator.eq fuel c last = .ok (decide (k = A.length ∨ k = B.length)) ∧
        ((k = A.length ∨ k = B.length) ↔ k = min A.length B.length) := by
  have hcmp : ∀ z rhs : iterator_zipper (vector_iterator α) (vector_iterator β) α β γ,
      Iterator.eq fuel z rhs =
        .ok (!(z.tracker.iters.1.pos != rhs.tracker.iters.1.pos &&
          z.tracker.iters.2.pos != rhs.tracker.iters.2.pos)) := by
    intro z rhs
    have hne := zipper_ne_vector fuel z rhs
    simp only [zipper_ne] at hne
    simp only [zipper_eq, iterator_zipper.eq, hne, ok_bind, pure_eq_ok]
  refine ⟨fun z rhs => ⟨zipper_ne_vector fuel z rhs, hcmp z rhs⟩, _, _,
    zip_advanced f A B fuel k h, zip_end f A B fuel, ?_, by omega⟩
  rw [hcmp]
  congr 1
  by_cases hA : k = A.length <;> by_cases hB : k = B.length <;> simp [hA, hB]

/-- Witness of `zip_cursor_comparison`: two advances in the zip of `[1, 2, 3]` and
`[10, 20]` reach `end()`. -/
theorem zip_cursor_comparison_witness :
    2 ≤ min [1, 2, 3].length [10, 20].length ∧
      ∃ c last, advanced 5 (zip (fun a b : Nat => a + b) [1, 2, 3] [10, 20]) 2 = .ok c ∧
        Sequence.end_ 5 (zip (fun a b : Nat => a + b) [1, 2, 3] [10, 20]) = .ok last ∧
        Iterator.eq 5 c last = .ok (decide (2 = [1, 2, 3].length ∨ 2 = [10, 20].length)) :=
  ⟨by decide,
    (zip_cursor_comparison (fun a b : Nat => a + b) [1, 2, 3] [10, 20] 5 2 (by decide)).2.imp
      fun _ hc => hc.imp fun _ hl => ⟨hl.1, hl.2.1, hl.2.2.1⟩⟩

/-- C28: zip advances in lockstep and never overruns in a guarded traversal: after `k`
advances from `begin()`, for `k` up to the length of the shorter input, every sub-cursor is
at offset `k` of its own range; `cursor != end()` holds exactly when both offsets are before
the ends of their ranges, and then dereferencing reads the elements at offset `k` and
advancing moves both sub-cursors to `k + 1`, not past the end of either range; so the
guarded traversal runs without a dereference at an end or a move past an end, for inputs of
any lengths. -/
theorem zip_lockstep_guarded (f : α → β → γ) (A : List α) (B : List β) (fuel k : Nat)
    (h : k ≤ min A.length B.length) :
    advanced fuel (zip f A B) k =
        .ok (⟨f, ⟨(⟨A, k⟩, ⟨B, k⟩)⟩⟩ :
          iterator_zipper (vector_iterator α) (vector_iterator β) α β γ) ∧
      (Iterator.ne fuel
          (⟨f, ⟨(⟨A, k⟩, ⟨B, k⟩)⟩⟩ :
            iterator_zipper (vector_iterator α) (vector_iterator β) α β γ)
          ⟨f, ⟨(⟨A, A.length⟩, ⟨B, B.length⟩)⟩⟩ =
        .ok (decide (k < A.length ∧ k < B.length))) ∧
      (∀ (hA : k < A.length) (hB : k < B.length),
        Iterator.deref fuel
            (⟨f, ⟨(⟨A, k⟩, ⟨B, k⟩)⟩⟩ :
              iterator_zipper (vector_iterator α) (vector_iterator β) α β γ) =
          .ok (f (A.get ⟨k, hA⟩) (B.get ⟨k, hB⟩)) ∧
        Iterator.next fuel
            (⟨f, ⟨(⟨A, k⟩, ⟨B, k⟩)⟩⟩ :
              iterator_zipper (vector_iterator α) (vector_iterator β) α β γ) =
          .ok ⟨f, ⟨(⟨A, k + 1⟩, ⟨B, k + 1⟩)⟩⟩ ∧
        k + 1 ≤ A.length ∧ k + 1 ≤ B.length) ∧
      (min A.length B.length < fuel → elements fuel (zip f A B) = .ok (List.zipWith f A B)) := by
  refine ⟨zip_advanced f A B fuel k h, ?_, ?_, ?_⟩
  · rw [zipper_ne_vector]
    congr 1
    have hA : k ≤ A.length := by omega
    have hB : k ≤ B.length := by omega
    rw [Bool.eq_iff_iff]
    simp only [Bool.and_eq_true, bne_iff_ne, ne_eq, decide_eq_true_eq]
    constructor
    · intro hne
      exact ⟨Nat.lt_of_le_of_ne hA hne.1, Nat.lt_of_le_of_ne hB hne.2⟩
    · intro hlt
      exact ⟨Nat.ne_of_lt hlt.1, Nat.ne_of_lt hlt.2⟩
  · intro hA hB
    refine ⟨?_, ?_, hA, hB⟩
    · simp only [zipper_deref, iterator_zipper.deref, vector_deref, vector_deref_of_lt A k hA,
        vector_deref_of_lt B k hB, ok_bind, pure_eq_ok]
    · simp only [zipper_next, iterator_zipper.next, iterator_tracker.next_all, vector_next,
        vector_next_of_lt A k hA, vector_next_of_lt B k hB, ok_bind, pure_eq_ok]
  · intro hf
    have := traverse_zip f fuel A B [] [] fuel hf
    simpa [elements, zip, Sequence.begin, Sequence.end_, basic_keeper.get,
      iterator_zipper.make, iterator_zipper.make_end, iterator_tracker.begin_from_ranges,
      iterator_tracker.end_from_ranges] using this

/-- Witness of `zip_lockstep_guarded`: one advance in the zip of `[1, 2, 3]` and `[10, 20]`. -/
theorem zip_lockstep_guarded_witness :
    1 ≤ min [1, 2, 3].length [10, 20].length ∧
      advanced 5 (zip (fun a b : Nat => a + b) [1, 2, 3] [10, 20]) 1 =
        .ok (⟨fun a b : Nat => a + b, ⟨(⟨[1, 2, 3], 1⟩, ⟨[10, 20], 1⟩)⟩⟩ :
          iterator_zipper (vector_iterator Nat) (vector_iterator Nat) Nat Nat Nat) :=
  ⟨by decide,
    (zip_lockstep_guarded (fun a b : Nat => a + b) [1, 2, 3] [10, 20] 5 1 (by decide)).1⟩

end zip_cursor_proofs


/-! ## Flatten cursor invariant -/

section flatten_invariant_proofs

variable {α : Type}

/-- The element after a prefix is the one at the position of the length of the prefix. -/
theorem getElem_at_prefix_length {γ : Type} (pre : List γ) (x : γ) (suf : List γ) :
    (pre ++ x :: suf)[pre.length]? = some x := by
  induction pre with
  | nil => simp
  | cons y pre ih => simpa using ih

/-- The skip loop of the flatten iterator ends at the outer end or with `inner` at an
element of the inner vector that the outer position designates. -/
theorem flatten_skip_loop_state (fuel : Nat) :
    ∀ (sufO preO : List (List α)) (sufI preI : List α) (outer : List (List α)) (cur : List α)
      (i j m : Nat), outer = preO ++ cur :: sufO → cur = preI ++ sufI → i = preO.length →
      j = preI.length → sufO.length + 1 < m →
      ∃ c', iterator_flattener.skip_loop fuel (⟨outer, outer.length⟩ : vector_iterator (List α))
          m (⟨⟨outer, ⟨outer, i⟩⟩, ⟨cur, j⟩⟩ :
            iterator_flattener (List (List α)) (vector_iterator (List α)) (vector_iterator α)) =
          .ok c' ∧ flatten_cursor_at_element_or_end outer c' := by
  intro sufO
  induction sufO with
  | nil =>
    intro preO sufI preI outer cur i j m ho hc hi hj hm
    subst hc hi hj
    subst ho
    obtain ⟨m, rfl⟩ : ∃ m', m = m' + 2 := ⟨m - 2, by simp only [List.length_nil] at hm; omega⟩
    cases sufI with
    | nil =>
      have hd := vector_deref_append preO [] preI
      have hx := vector_next_append preO [] preI
      simp only [List.append_nil]
      refine ⟨⟨⟨preO ++ [preI], ⟨preO ++ [preI], preO.length + 1⟩⟩,
        ⟨preI, preI.length⟩⟩, ?_, rfl, rfl, Or.inl (by simp)⟩
      simp [iterator_flattener.skip_loop, hd, hx, range_tracker.set_to]
    | cons x sufI =>
      have hd := vector_deref_append preO [] (preI ++ x :: sufI)
      refine ⟨⟨⟨preO ++ [preI ++ x :: sufI], ⟨preO ++ [preI ++ x :: sufI], preO.length⟩⟩,
        ⟨preI ++ x :: sufI, preI.length⟩⟩, ?_, rfl, rfl, Or.inr ⟨preI ++ x :: sufI, ?_, rfl, ?_⟩⟩
      · simp [iterator_flattener.skip_loop, hd]
      · exact getElem_at_prefix_length preO _ _
      · simp
  | cons nxt sufO ih =>
    intro preO sufI preI outer cur i j m ho hc hi hj hm
    subst hc hi hj
    subst ho
    obtain ⟨m, rfl⟩ := Nat.exists_eq_succ_of_ne_zero (Nat.pos_iff_ne_zero.mp (Nat.zero_lt_of_lt hm))
    cases sufI with
    | nil =>
      have hd := vector_deref_append preO (nxt :: sufO) preI
      have hx := vector_next_append preO (nxt :: sufO) preI
      have hd2 := vector_deref_append (preO ++ [preI]) sufO nxt
      simp only [List.append_nil]
      obtain ⟨c', hc', hinv⟩ := ih (preO ++ [preI]) nxt []
        (preO ++ preI :: nxt :: sufO) nxt (preO.length + 1) 0 m (by simp) rfl (by simp)
        rfl (by simp only [List.length_cons] at hm; omega)
      simp only [List.append_assoc, List.singleton_append, List.length_append,
        List.length_singleton] at hd2
      refine ⟨c', ?_, hinv⟩
      simp [iterator_flattener.skip_loop, hd, hx, range_tracker.set_to,
        iterator_flattener.outer, range_tracker.get, hd2]
      simpa using hc'
    | cons x sufI =>
      have hd := vector_deref_append preO (nxt :: sufO) (preI ++ x :: sufI)
      refine ⟨⟨⟨preO ++ (preI ++ x :: sufI) :: nxt :: sufO,
        ⟨preO ++ (preI ++ x :: sufI) :: nxt :: sufO, preO.length⟩⟩,
        ⟨preI ++ x :: sufI, preI.length⟩⟩, ?_, rfl, rfl, Or.inr ⟨preI ++ x :: sufI, ?_, rfl, ?_⟩⟩
      · simp [iterator_flattener.skip_loop, hd]
      · exact getElem_at_prefix_length preO _ _
      · simp

/-- C30: for every outer vector that is empty or whose first inner vector is non-empty, a
guarded traversal of `flatten(outer)` yields the join of the inner vectors, for every
iteration bound above the number of inner vectors plus the number of their elements; the
cursor `begin()` is at the outer end or has its inner position at an element of the inner
vector that the outer position designates; `cursor != end()` holds exactly before the outer
end; and from every cursor so positioned before the end, dereferencing succeeds and
advancing gives a cursor so positioned again, skipping the empty inner vectors it meets. -/
theorem flatten_guarded_traversal (outer : List (List α)) (fuel : Nat)
    (hfirst : outer.head? ≠ some [])
    (h : outer.length + outer.flatten.length < fuel) :
    elements fuel (flatten outer) = .ok outer.flatten ∧
      (∃ b, Sequence.begin fuel (flatten outer) = .ok b ∧
        flatten_cursor_at_element_or_end outer b) ∧
      ∀ c, flatten_cursor_at_element_or_end outer c →
        (∃ last, Sequence.end_ fuel (flatten outer) = .ok last ∧
          Iterator.ne fuel c last = .ok (decide (c.tracker.current.pos ≠ outer.length))) ∧
        (c.tracker.current.pos ≠ outer.length →
          ∃ x c', Iterator.deref fuel c = .ok x ∧ Iterator.next fuel c = .ok c' ∧
            flatten_cursor_at_element_or_end outer c') := by
  refine ⟨elements_flatten_eq_join outer fuel hfirst h, ?_, ?_⟩
  · cases outer with
    | nil =>
      refine ⟨⟨⟨[], ⟨[], 0⟩⟩, default⟩, ?_, rfl, rfl, Or.inl rfl⟩
      simp [flatten, Sequence.begin, basic_keeper.get, iterator_flattener.make,
        range_tracker.begin_of, range_tracker.get]
    | cons first rest =>
      cases first with
      | nil => simp at hfirst
      | cons x xs =>
        have hd := vector_deref_append [] rest (x :: xs)
        simp only [List.nil_append, List.length_nil] at hd
        refine ⟨⟨⟨(x :: xs) :: rest, ⟨(x :: xs) :: rest, 0⟩⟩, ⟨x :: xs, 0⟩⟩, ?_, rfl, rfl,
          Or.inr ⟨x :: xs, by simp, rfl, by simp⟩⟩
        simp [flatten, Sequence.begin, basic_keeper.get, iterator_flattener.make,
          iterator_flattener.outer, range_tracker.begin_of, range_tracker.get, hd]
  · intro c hc
    obtain ⟨⟨r, ⟨d, i⟩⟩, ⟨cd, j⟩⟩ := c
    obtain ⟨hr, hd, hpos⟩ := hc
    simp only at hr hd hpos
    subst hr hd
    constructor
    · refine ⟨⟨⟨d, ⟨d, d.length⟩⟩, default⟩, ?_, ?_⟩
      · simp [flatten, Sequence.end_, basic_keeper.get, iterator_flattener.make_end,
          range_tracker.end_of, range_tracker.get]
      · by_cases hi : i = d.length
        · simp [iterator_flattener.ne, iterator_flattener.eq, range_tracker.get, hi]
        · simp [iterator_flattener.ne, iterator_flattener.eq, range_tracker.get, hi]
    · intro hne
      simp only at hne
      rcases hpos with hend | ⟨cur, hcur, hcd, hj⟩
      · exact absurd hend hne
      · subst hcd
        have hi : i < d.length := by
          by_contra hge
          rw [List.getElem?_eq_none (by omega)] at hcur
          exact Option.noConfusion hcur
        have hget : d.get ⟨i, hi⟩ = cd := by
          rw [List.getElem?_eq_getElem hi] at hcur
          exact Option.some.inj hcur
        obtain ⟨hso, hlo⟩ := split_at_position d i hi
        obtain ⟨hsi, hli⟩ := split_at_position cd j hj
        rw [hget] at hso
        obtain ⟨c', hc', hinv⟩ := flatten_skip_loop_state fuel (d.drop (i + 1)) (d.take i)
          (cd.drop (j + 1)) (cd.take j ++ [cd.get ⟨j, hj⟩]) d cd i (j + 1) fuel hso
          (by rw [List.append_assoc, List.singleton_append]; exact hsi) hlo.symm
          (by rw [List.length_append, hli, List.length_singleton])
          (by simp only [List.length_drop]; omega)
        refine ⟨cd.get ⟨j, hj⟩, c', ?_, ?_, hinv⟩
        · simp only [flattener_deref, vector_deref, vector_deref_of_lt cd j hj]
        · simp only [flattener_next, iterator_flattener.next, vector_next,
            vector_next_of_lt cd j hj, ok_bind, range_tracker.get, vector_end, pure_eq_ok]
          exact hc'

/-- Witness of `flatten_guarded_traversal`: the flatten test of the repository. -/
theorem flatten_guarded_traversal_witness :
    (([[1, 2, 3], [], [], [4, 5, 6]] : List (List Nat)).head? ≠ some [] ∧
        ([[1, 2, 3], [], [], [4, 5, 6]] : List (List Nat)).length +
          ([[1, 2, 3], [], [], [4, 5, 6]] : List (List Nat)).flatten.length < 11) ∧
      elements 11 (flatten ([[1, 2, 3], [], [], [4, 5, 6]] : List (List Nat))) =
        .ok ([[1, 2, 3], [], [], [4, 5, 6]] : List (List Nat)).flatten :=
  ⟨⟨by decide, by decide⟩,
    (flatten_guarded_traversal [[1, 2, 3], [], [], [4, 5, 6]] 11 (by decide) (by decide)).1⟩

end flatten_invariant_proofs


/-! ## Take cursors -/

section take_cursor_proofs

variable {α : Type}

/-- Advancing a take cursor `k` times moves the position by `k` and lowers the remaining
count by `k`, as long as neither the count nor the vector is used up. -/
theorem take_std_next (S : List α) (fuel : Nat) :
    ∀ (k i m : Nat), k ≤ m → i + k ≤ S.length → m < 2 ^ size_bits →
      std_next fuel (⟨⟨S, ⟨S, i⟩⟩, m⟩ : take_iterator (List α) (vector_iterator α)) k =
        .ok ⟨⟨S, ⟨S, i + k⟩⟩, m - k⟩ := by
  intro k
  induction k with
  | zero => intro i m _ _ _; rfl
  | succ k ih =>
    intro i m hk hi hm
    obtain ⟨m, rfl⟩ : ∃ m', m = m' + 1 := ⟨m - 1, by omega⟩
    have hlt : i < S.length := by omega
    have hrest := ih (i + 1) m (by omega) (by omega) (by omega)
    have e₁ : i + 1 + k = i + (k + 1) := by omega
    have e₂ : m + 1 - (k + 1) = m - k := by omega
    rw [e₁] at hrest
    rw [e₂]
    simp only [std_next, take_next, take_iterator.next, range_tracker.next, vector_next,
      vector_next_of_lt S i hlt, ok_bind, pure_eq_ok, size_type_decrement_succ m hm]
    exact hrest

/-- The cursor `begin()` of a take view. -/
theorem take_begin (S : List α) (n fuel : Nat) (h : S.length < fuel) :
    Sequence.begin fuel (take S n) =
      .ok (⟨⟨S, ⟨S, 0⟩⟩, min n S.length⟩ : take_iterator (List α) (vector_iterator α)) := by
  have hd := std_distance_vector fuel S [] fuel h
  simp only [List.nil_append, List.length_nil] at hd
  simp [take, Sequence.begin, basic_keeper.get, take_iterator.make, take_iterator.minimum_n,
    range_tracker.begin_of, hd]

/-- C31: take counter invariant: for `take(S, n)` over a vector `S` and a `size_t` count
`n`, the remaining counter of `begin()` is `min(n, |S|)`; after `k <= min(n, |S|)` advances
the counter is `min(n, |S|) - k` and the underlying position is `k`, which is not past the
end of `S`; the cursor compares equal to `end()` iff the counter is 0, which is iff
`k = min(n, |S|)`; and before that the guard `cursor != end()` holds, the dereference gives
the element at position `k`, and the decrement of the unsigned counter does not wrap. -/
theorem take_counter_invariant (S : List α) (n k fuel : Nat) (hn : n < 2 ^ size_bits)
    (hk : k ≤ min n S.length) (h : S.length < fuel) :
    (∃ b, Sequence.begin fuel (take S n) = .ok b ∧ b.n = min n S.length) ∧
      ∃ c last, advanced fuel (take S n) k = .ok c ∧
        Sequence.end_ fuel (take S n) = .ok last ∧
        c.n = min n S.length - k ∧ c.tracker.current.pos = k ∧
        c.tracker.current.pos ≤ S.length ∧
        Iterator.eq fuel c last = .ok (decide (c.n = 0)) ∧
        (c.n = 0 ↔ k = min n S.length) ∧
        (k < min n S.length →
          Iterator.ne fuel c last = .ok true ∧
          (∃ x, S[k]? = some x ∧ Iterator.deref fuel c = .ok x) ∧
          size_type_decrement c.n = c.n - 1 ∧ 0 < c.n) := by
  have hb := take_begin S n fuel h
  have hs := take_std_next S fuel k 0 (min n S.length) hk (by omega) (by omega)
  simp only [Nat.zero_add] at hs
  have ha : advanced fuel (take S n) k =
      .ok (⟨⟨S, ⟨S, k⟩⟩, min n S.length - k⟩ : take_iterator (List α) (vector_iterator α)) := by
    simp only [advanced, hb, ok_bind]
    exact hs
  refine ⟨⟨_, hb, rfl⟩, _, ⟨⟨S, ⟨S, 0⟩⟩, 0⟩, ha, ?_, rfl, rfl, ?_, ?_, ?_, ?_⟩
  · simp [take, Sequence.end_, basic_keeper.get, take_iterator.make_end, range_tracker.begin_of]
  · simp only
    omega
  · rw [take_eq]
    by_cases h0 : min n S.length - k = 0
    · simp [h0]
    · simp [h0, bne_iff_ne]
  · simp only
    omega
  · intro hlt
    have hS : k < S.length := by omega
    obtain ⟨m, hm⟩ : ∃ m, min n S.length - k = m + 1 := ⟨min n S.length - k - 1, by omega⟩
    refine ⟨?_, ⟨S.get ⟨k, hS⟩, ?_, ?_⟩, ?_, ?_⟩
    · simp only [take_ne, hm]
      rfl
    · rw [List.getElem?_eq_getElem hS]
      rfl
    · simp only [take_deref, take_iterator.deref, range_tracker.get, vector_end, ok_bind,
        pure_eq_ok, vector_deref, vector_deref_of_lt S k hS]
    · simp only [hm]
      rw [size_type_decrement_succ m (by omega)]
      rfl
    · simp only
      omega

/-- Witness of `take_counter_invariant`: one advance in `take([1, 2, 3], 2)`. -/
theorem take_counter_invariant_witness :
    (2 < 2 ^ size_bits ∧ 1 ≤ min 2 [1, 2, 3].length ∧ [1, 2, 3].length < 4) ∧
      ∃ c last, advanced 4 (take [1, 2, 3] 2) 1 = .ok c ∧
        Sequence.end_ 4 (take [1, 2, 3] 2) = .ok last ∧
        c.n = min 2 [1, 2, 3].length - 1 ∧ c.tracker.current.pos = 1 :=
  ⟨⟨by decide, by decide, by decide⟩,
    (take_counter_invariant [1, 2, 3] 2 1 4 (by decide) (by decide) (by decide)).2.imp
      fun _ hc => hc.imp fun _ hl => ⟨hl.1, hl.2.1, hl.2.2.1, hl.2.2.2.1⟩⟩

/-- C32 (the code at the failing input): in `take([1, 2, 3], 2)` the cursor `c = begin()`
does not compare equal to itself; and with `c1 = begin()` and `c2` the cursor after two
advances, `c1 == c2` is false while `c2 == c1` is true. -/
theorem take_eq_failing_input :
    (advanced 4 (take [1, 2, 3] 2) 0 >>= fun c => Iterator.eq 4 c c) = .ok false ∧
      (advanced 4 (take [1, 2, 3] 2) 0 >>= fun c1 =>
        advanced 4 (take [1, 2, 3] 2) 2 >>= fun c2 => Iterator.eq 4 c1 c2) = .ok false ∧
      (advanced 4 (take [1, 2, 3] 2) 0 >>= fun c1 =>
        advanced 4 (take [1, 2, 3] 2) 2 >>= fun c2 => Iterator.eq 4 c2 c1) = .ok true := by
  refine ⟨?_, ?_, ?_⟩ <;> rfl

end take_cursor_proofs


/-! ## Evaluations of the predicate of a take-while view -/

section take_while_logged_proofs

variable {ρ ι β : Type} [Sequence ρ ι] [Iterator ι β]

/-- Leaving out the record, the constructor with the recording predicate is the
constructor. -/
theorem take_while_make_logged_erase (fuel : Nat) (range : ρ) (p : β → Bool) (log : List β) :
    (take_while_iterator.make_logged fuel range p log >>= fun r => pure r.1) =
      (take_while_iterator.make fuel range p : Except Fault (take_while_iterator ρ ι β)) := by
  simp only [take_while_iterator.make_logged, take_while_iterator.make]
  cases (range_tracker.begin_of fuel range : Except Fault (range_tracker ρ ι)) with
  | error e => rfl
  | ok tracker =>
    simp only [ok_bind]
    cases tracker.get fuel with
    | error e => rfl
    | ok pr =>
      obtain ⟨it, last⟩ := pr
      simp only [ok_bind]
      cases Iterator.ne fuel it last with
      | error e => rfl
      | ok b =>
        cases b with
        | false => rfl
        | true =>
          simp only [ok_bind, if_true]
          cases Iterator.deref fuel it with
          | error e => rfl
          | ok v =>
            simp only [ok_bind]
            by_cases hp : p v = true
            · simp only [hp, Bool.not_true, Bool.false_eq_true, if_false]
              rfl
            · simp only [Bool.not_eq_true] at hp
              simp only [hp, Bool.not_false, if_true]
              rfl

/-- Leaving out the record, `operator++` with the recording predicate is `operator++`. -/
theorem take_while_next_logged_erase (fuel : Nat) (t : take_while_iterator ρ ι β)
    (log : List β) :
    (t.next_logged fuel log >>= fun r => pure r.1) = t.next fuel := by
  simp only [take_while_iterator.next_logged, take_while_iterator.next]
  cases t.tracker.next fuel with
  | error e => rfl
  | ok tracker =>
    simp only [ok_bind]
    cases tracker.get fuel with
    | error e => rfl
    | ok pr =>
      obtain ⟨it, last⟩ := pr
      simp only [ok_bind]
      cases Iterator.eq fuel it last with
      | error e => rfl
      | ok b =>
        cases b with
        | true => rfl
        | false =>
          simp only [ok_bind, Bool.false_eq_true, if_false]
          cases Iterator.deref fuel it with
          | error e => rfl
          | ok v =>
            simp only [ok_bind]
            by_cases hp : t.predicate v = true
            · simp only [hp, Bool.not_true, Bool.false_eq_true, if_false]
              rfl
            · simp only [Bool.not_eq_true] at hp
              simp only [hp, Bool.not_false, if_true]
              rfl

/-- Leaving out the record, the traversal with the recording predicate is the traversal. -/
theorem take_while_traverse_logged_erase (fuel : Nat) :
    ∀ (n : Nat) (it last : take_while_iterator ρ ι β) (log : List β),
      (take_while_iterator.traverse_logged fuel n it last log >>= fun r => pure r.1) =
        traverse fuel n it last := by
  intro n
  induction n with
  | zero => intro it last log; rfl
  | succ n ih =>
    intro it last log
    simp only [take_while_iterator.traverse_logged, traverse, take_while_ne, take_while_deref,
      take_while_next]
    cases it.ne fuel last with
    | error e => rfl
    | ok b =>
      cases b with
      | false => rfl
      | true =>
        simp only [ok_bind, if_true]
        cases it.deref fuel with
        | error e => rfl
        | ok v =>
          simp only [ok_bind]
          rw [← take_while_next_logged_erase fuel it log]
          cases it.next_logged fuel log with
          | error e => rfl
          | ok r =>
            obtain ⟨it', log'⟩ := r
            simp only [ok_bind, pure_eq_ok]
            rw [← ih it' last log']
            cases take_while_iterator.traverse_logged fuel n it' last log' with
            | error e => rfl
            | ok r' => rfl

/-- Leaving out the record, the traversal of a take-while view with the recording predicate
is the traversal of the view. -/
theorem take_while_elements_logged_erase (fuel : Nat) (v : take_while_range_view ρ β) :
    (v.elements_logged fuel >>= fun r => pure r.1) =
      (elements fuel v : Except Fault (List β)) := by
  simp only [take_while_range_view.elements_logged, elements, Sequence.begin, Sequence.end_]
  rw [← take_while_make_logged_erase fuel v.range.get v.pred []]
  cases (take_while_iterator.make_logged fuel v.range.get v.pred [] :
      Except Fault (take_while_iterator ρ ι β × List β)) with
  | error e => rfl
  | ok r =>
    obtain ⟨b, log⟩ := r
    simp only [ok_bind, pure_eq_ok]
    cases (take_while_iterator.make_end fuel v.range.get v.pred :
        Except Fault (take_while_iterator ρ ι β)) with
    | error e => rfl
    | ok last =>
      simp only [ok_bind]
      exact take_while_traverse_logged_erase fuel fuel b last log

end take_while_logged_proofs


section take_while_evaluations

variable {α : Type}

/-- Advancing a take-while cursor with the recording predicate onto the element `y`
evaluates the predicate on `y`. -/
theorem take_while_next_logged_cons (p : α → Bool) (fuel : Nat) (pre suf : List α) (x y : α)
    (log : List α) :
    take_while_iterator.next_logged fuel
      (⟨⟨pre ++ x :: y :: suf, ⟨pre ++ x :: y :: suf, pre.length⟩⟩, p⟩ :
        take_while_iterator (List α) (vector_iterator α) α) log =
      .ok (if p y = true then
          (⟨⟨pre ++ x :: y :: suf, ⟨pre ++ x :: y :: suf, pre.length + 1⟩⟩, p⟩, log ++ [y])
        else (⟨⟨pre ++ x :: y :: suf,
          ⟨pre ++ x :: y :: suf, (pre ++ x :: y :: suf).length⟩⟩, p⟩, log ++ [y])) := by
  have hd := vector_deref_append (pre ++ [x]) suf y
  simp only [List.append_assoc, List.singleton_append, List.length_append,
    List.length_singleton] at hd
  by_cases hy : p y = true <;>
    simp [take_while_iterator.next_logged, range_tracker.next, range_tracker.get,
      range_tracker.set_to, vector_next_append, hd, hy]

/-- Advancing a take-while cursor with the recording predicate over the last element does
not evaluate the predicate. -/
theorem take_while_next_logged_last (p : α → Bool) (fuel : Nat) (pre : List α) (x : α)
    (log : List α) :
    take_while_iterator.next_logged fuel
      (⟨⟨pre ++ [x], ⟨pre ++ [x], pre.length⟩⟩, p⟩ :
        take_while_iterator (List α) (vector_iterator α) α) log =
      .ok (⟨⟨pre ++ [x], ⟨pre ++ [x], (pre ++ [x]).length⟩⟩, p⟩, log) := by
  simp [take_while_iterator.next_logged, range_tracker.next, range_tracker.get,
    vector_next_append]

/-- Traversal with the recording predicate from a take-while cursor that is at the end
yields nothing and evaluates nothing. -/
theorem traverse_logged_take_while_end (p : α → Bool) (fuel : Nat) (S : List α)
    (last : take_while_iterator (List α) (vector_iterator α) α) (n : Nat) (log : List α) :
    take_while_iterator.traverse_logged fuel (n + 1)
      (⟨⟨S, ⟨S, S.length⟩⟩, p⟩ : take_while_iterator (List α) (vector_iterator α) α) last log =
      .ok ([], log) := by
  simp [take_while_iterator.traverse_logged, take_while_iterator.ne, range_tracker.get]

/-- Advancing over the element `x` and traversing on, with the recording predicate, yields
the longest prefix of the remaining elements that satisfies the predicate, and evaluates the
predicate once on each of them and once on the first remaining element that fails it. -/
theorem take_while_next_traverse_logged (p : α → Bool) (fuel : Nat) :
    ∀ (suf pre : List α) (x : α) (last : take_while_iterator (List α) (vector_iterator α) α)
      (n : Nat) (log : List α), suf.length < n →
      (take_while_iterator.next_logged fuel
          (⟨⟨pre ++ x :: suf, ⟨pre ++ x :: suf, pre.length⟩⟩, p⟩ :
            take_while_iterator (List α) (vector_iterator α) α) log >>=
        fun r => take_while_iterator.traverse_logged fuel n r.1 last r.2) =
        .ok (suf.takeWhile p, log ++ (suf.takeWhile p ++ (suf.dropWhile p).take 1)) := by
  intro suf
  induction suf with
  | nil =>
    intro pre x last n log hn
    obtain ⟨n, rfl⟩ := Nat.exists_eq_succ_of_ne_zero (Nat.pos_iff_ne_zero.mp hn)
    rw [take_while_next_logged_last, ok_bind, traverse_logged_take_while_end]
    simp
  | cons y suf ih =>
    intro pre x last n log hn
    obtain ⟨n, rfl⟩ := Nat.exists_eq_succ_of_ne_zero (Nat.pos_iff_ne_zero.mp (Nat.zero_lt_of_lt hn))
    have h := ih (pre ++ [x]) y last n (log ++ [y]) (by simpa using hn)
    have hd := vector_deref_append (pre ++ [x]) suf y
    simp only [List.append_assoc, List.singleton_append, List.length_append,
      List.length_singleton] at h hd
    rw [take_while_next_logged_cons, ok_bind]
    by_cases hy : p y = true
    · simp only [hy, if_true, List.takeWhile_cons, List.dropWhile_cons, List.cons_append]
      simp only [take_while_iterator.traverse_logged, take_while_iterator.ne, range_tracker.get,
        vector_end, ok_bind, pure_eq_ok, vector_ne, take_while_iterator.deref, vector_deref, hd]
      have hne : (pre.length + 1 != (pre ++ x :: y :: suf).length) = true := by simp
      simp only [hne, if_true]
      exact bind_cons_fst_of_bind h y
    · simp only [Bool.not_eq_true] at hy
      simp only [hy, Bool.false_eq_true, if_false, List.takeWhile_cons, List.dropWhile_cons]
      rw [traverse_logged_take_while_end]
      simp

/-- C33: in one complete traversal of `take_while(S, p)` over a vector `S` (one `begin()`,
one `end()`, then the guarded loop), the predicate is evaluated exactly once on each yielded
element and once on the first non-matching element if there is one, in this order, and on no
later element; leaving out the record gives the traversal of the view; for an empty `S` the
predicate is never evaluated; and when the first element of `S` fails `p`, `begin()` already
equals `end()`. -/
theorem take_while_predicate_evaluations (S : List α) (p : α → Bool) (fuel : Nat)
    (h : S.length < fuel) :
    (take_while S p).elements_logged fuel =
        .ok (S.takeWhile p, S.takeWhile p ++ (S.dropWhile p).take 1) ∧
      ((take_while S p).elements_logged fuel >>= fun r => pure r.1) =
        elements fuel (take_while S p) ∧
      (S = [] → (take_while S p).elements_logged fuel = .ok ([], [])) ∧
      (∀ x rest, S = x :: rest → p x = false →
        (Sequence.begin fuel (take_while S p) >>= fun first =>
          Sequence.end_ fuel (take_while S p) >>= fun last =>
            Iterator.eq fuel first last) = .ok true) := by
  have hmain : (take_while S p).elements_logged fuel =
      .ok (S.takeWhile p, S.takeWhile p ++ (S.dropWhile p).take 1) := by
    obtain ⟨k, rfl⟩ := Nat.exists_eq_succ_of_ne_zero (Nat.pos_iff_ne_zero.mp (Nat.zero_lt_of_lt h))
    cases S with
    | nil => simp [take_while_range_view.elements_logged, take_while, basic_keeper.get,
        take_while_iterator.make_logged, take_while_iterator.make_end, range_tracker.begin_of,
        range_tracker.get, range_tracker.set_to, take_while_iterator.traverse_logged,
        take_while_iterator.ne]
    | cons x S =>
      simp only [List.length_cons] at h
      have h₁ := take_while_next_traverse_logged p (k + 1) S [] x
        (⟨⟨x :: S, ⟨x :: S, (x :: S).length⟩⟩, p⟩ :
          take_while_iterator (List α) (vector_iterator α) α) k [x] (by omega)
      have hd := vector_deref_append [] S x
      have he := traverse_logged_take_while_end p (k + 1) (x :: S)
        (⟨⟨x :: S, ⟨x :: S, (x :: S).length⟩⟩, p⟩ :
          take_while_iterator (List α) (vector_iterator α) α) k [x]
      simp only [List.nil_append, List.length_nil, List.length_cons, List.singleton_append]
        at hd h₁ he
      by_cases hx : p x = true
      · simp [take_while_range_view.elements_logged, take_while, basic_keeper.get,
          take_while_iterator.make_logged, take_while_iterator.make_end, range_tracker.begin_of,
          range_tracker.get, range_tracker.set_to, take_while_iterator.traverse_logged,
          take_while_iterator.ne, take_while_iterator.deref, hd, hx]
        exact bind_cons_fst_of_bind h₁ x
      · simp [take_while_range_view.elements_logged, take_while, basic_keeper.get,
          take_while_iterator.make_logged, take_while_iterator.make_end, range_tracker.begin_of,
          range_tracker.get, range_tracker.set_to, take_while_iterator.ne, hd, hx]
        exact he
  refine ⟨hmain, take_while_elements_logged_erase fuel (take_while S p), ?_, ?_⟩
  · intro hS
    rw [hmain, hS]
    rfl
  · intro x rest hS hx
    subst hS
    have hd := vector_deref_append [] rest x
    simp only [List.nil_append, List.length_nil] at hd
    simp [take_while, Sequence.begin, Sequence.end_, basic_keeper.get,
      take_while_iterator.make, take_while_iterator.make_end, range_tracker.begin_of,
      range_tracker.get, range_tracker.set_to, take_while_iterator.eq, take_while_iterator.ne,
      hd, hx]

/-- Witness of `take_while_predicate_evaluations`: on `[1, 2, 7, 3]` with `i < 5` the
predicate is evaluated on 1, 2 and 7, and not on 3. -/
theorem take_while_predicate_evaluations_witness :
    [1, 2, 7, 3].length < 5 ∧
      (take_while [1, 2, 7, 3] (fun i : Nat => decide (i < 5))).elements_logged 5 =
        .ok ([1, 2], [1, 2, 7]) :=
  ⟨by decide,
    (take_while_predicate_evaluations [1, 2, 7, 3] (fun i : Nat => decide (i < 5)) 5
      (by decide)).1⟩

end take_while_evaluations


/-! ## Offsets of a slice view -/

section slice_offset_proofs

variable {α : Type}

/-- Advancing a vector iterator `k` times moves it by `k` positions, as long as that does
not pass the end. -/
theorem vector_std_next_of_le (S : List α) (fuel : Nat) :
    ∀ (k i : Nat), i + k ≤ S.length →
      std_next fuel (⟨S, i⟩ : vector_iterator α) k = .ok ⟨S, i + k⟩ := by
  intro k
  induction k with
  | zero => intro i _; rfl
  | succ k ih =>
    intro i h
    have hrest := ih (i + 1) (by omega)
    have e : i + 1 + k = i + (k + 1) := by omega
    rw [e] at hrest
    simp only [std_next, vector_next, vector_next_of_lt S i (by omega), ok_bind]
    exact hrest

/-- C34: for every successfully constructed slice view over a vector `S` of length `n`
(which is when `from <= until`; `from` and `until` are `unsigned int` values, as the
parameters of `ezy::slice` are), `begin()` is at offset `min(n, from)` and `end()` at offset
`min(n, until)`, for every iteration bound above `n`; these offsets satisfy
`0 <= begin offset <= end offset <= n`, so neither position lies outside `S`, and `end()` is
reached from `begin()` by `end offset - begin offset` advances. -/
theorem slice_offsets_ordered (S : List α) (from_ until_ fuel : Nat)
    (v : range_view_slice (List α)) (hf : from_ < 2 ^ unsigned_bits)
    (hu : until_ < 2 ^ unsigned_bits) (hv : slice S from_ until_ = .ok v)
    (h : S.length < fuel) :
    from_ ≤ until_ ∧
      ∃ b e : vector_iterator α, Sequence.begin fuel v = .ok b ∧ Sequence.end_ fuel v = .ok e ∧
        b.data = S ∧ e.data = S ∧
        b.pos = min S.length from_ ∧ e.pos = min S.length until_ ∧
        0 ≤ b.pos ∧ b.pos ≤ e.pos ∧ e.pos ≤ S.length ∧
        std_next fuel b (e.pos - b.pos) = .ok e := by
  have hfu : from_ ≤ until_ := by
    by_contra hgt
    have hlt : (from_ : Int) > (until_ : Int) := by omega
    rw [slice_eq_make S from_ until_ hf hu] at hv
    simp [range_view_slice.make, hlt] at hv
  have hv' := slice_ok S from_ until_ hf hu hfu
  rw [hv] at hv'
  have hveq : v = ⟨⟨S⟩, (from_ : Int), (until_ : Int)⟩ := Except.ok.inj hv'
  subst hveq
  obtain ⟨hb, he⟩ := slice_begin_end S (from_ : Int) (until_ : Int) (Int.ofNat_nonneg _)
    (Int.ofNat_nonneg _) fuel h
  simp only [Int.toNat_ofNat] at hb he
  have hle : min S.length from_ ≤ min S.length until_ := by omega
  refine ⟨hfu, _, _, hb, he, rfl, rfl, rfl, rfl, Nat.zero_le _, hle, Nat.min_le_left _ _, ?_⟩
  have hs := vector_std_next_of_le S fuel (min S.length until_ - min S.length from_)
    (min S.length from_) (by omega)
  have e : min S.length from_ + (min S.length until_ - min S.length from_) =
      min S.length until_ := by omega
  rw [e] at hs
  exact hs

/-- Witness of `slice_offsets_ordered`: the test `slice(4, 15)` on ten numbers. -/
theorem slice_offsets_ordered_witness :
    (4 < 2 ^ unsigned_bits ∧ 15 < 2 ^ unsigned_bits ∧
        slice [1, 2, 3, 4, 5, 6, 7, 8, 9, 10] 4 15 =
          .ok ⟨⟨[1, 2, 3, 4, 5, 6, 7, 8, 9, 10]⟩, 4, 15⟩ ∧
        [1, 2, 3, 4, 5, 6, 7, 8, 9, 10].length < 11) ∧
      ∃ b e : vector_iterator Nat,
        Sequence.begin 11 (⟨⟨[1, 2, 3, 4, 5, 6, 7, 8, 9, 10]⟩, 4, 15⟩ :
          range_view_slice (List Nat)) = .ok b ∧
        Sequence.end_ 11 (⟨⟨[1, 2, 3, 4, 5, 6, 7, 8, 9, 10]⟩, 4, 15⟩ :
          range_view_slice (List Nat)) = .ok e ∧
        b.pos = 4 ∧ e.pos = 10 :=
  ⟨⟨by decide, by decide, rfl, by decide⟩,
    (slice_offsets_ordered [1, 2, 3, 4, 5, 6, 7, 8, 9, 10] 4 15 11 _ (by decide) (by decide)
      rfl (by decide)).2.imp
      fun _ hb => hb.imp fun _ he => ⟨he.1, he.2.1, he.2.2.2.2.1, he.2.2.2.2.2.1⟩⟩

end slice_offset_proofs


/-! ## Termination of the skip loop of the flatten iterator -/

section flatten_termination_proofs

variable {α : Type}

/-- The skip loop of the flatten iterator, started at the outer position `i` with any inner
position, returns within `|outer| - i` runs of its body; each run moves the outer position
by one, and the outer position ends at or before the outer end. -/
theorem flatten_skip_loop_counted (outer : List (List α)) (fuel : Nat) :
    ∀ (r i : Nat) (inner : vector_iterator α) (count m : Nat),
      i ≤ outer.length → outer.length - i = r → r < m →
      ∃ c' count', iterator_flattener.skip_loop_counted fuel
          (⟨outer, outer.length⟩ : vector_iterator (List α)) m
          (⟨⟨outer, ⟨outer, i⟩⟩, inner⟩ :
            iterator_flattener (List (List α)) (vector_iterator (List α)) (vector_iterator α))
          count = .ok (c', count') ∧
        iterator_flattener.skip_loop fuel (⟨outer, outer.length⟩ : vector_iterator (List α)) m
          (⟨⟨outer, ⟨outer, i⟩⟩, inner⟩ :
            iterator_flattener (List (List α)) (vector_iterator (List α)) (vector_iterator α)) =
          .ok c' ∧
        c'.tracker.current.pos + count = i + count' ∧ count' ≤ count + r ∧
        c'.tracker.current.pos ≤ outer.length := by
  intro r
  induction r with
  | zero =>
    intro i inner count m hi hr hm
    obtain ⟨m, rfl⟩ := Nat.exists_eq_succ_of_ne_zero (Nat.pos_iff_ne_zero.mp hm)
    have he : i = outer.length := by omega
    subst he
    refine ⟨⟨⟨outer, ⟨outer, outer.length⟩⟩, inner⟩, count, ?_, ?_, rfl, Nat.le_refl _,
      Nat.le_refl _⟩
    · simp [iterator_flattener.skip_loop_counted]
    · simp [iterator_flattener.skip_loop]
  | succ r ih =>
    intro i inner count m hi hr hm
    obtain ⟨m, rfl⟩ := Nat.exists_eq_succ_of_ne_zero (Nat.pos_iff_ne_zero.mp (Nat.zero_lt_of_lt hm))
    have hlt : i < outer.length := by omega
    have hne : ¬ i = outer.length := Nat.ne_of_lt hlt
    have hd := vector_deref_of_lt outer i hlt
    have hx := vector_next_of_lt outer i hlt
    by_cases hin : inner.pos = (outer[i]).length
    · by_cases hnx : i + 1 = outer.length
      · obtain ⟨c', count', h₁, h₂, h₃, h₄, h₅⟩ := ih (i + 1) inner (count + 1) m (by omega)
          (by omega) (by omega)
        refine ⟨c', count', ?_, ?_, by omega, by omega, h₅⟩
        · simp [iterator_flattener.skip_loop_counted, hne, hd, hx, hin, hnx,
            range_tracker.set_to]
          simpa [hnx] using h₁
        · simp [iterator_flattener.skip_loop, hne, hd, hx, hin, hnx, range_tracker.set_to]
          simpa [hnx] using h₂
      · have hlt' : i + 1 < outer.length := by omega
        have hd' := vector_deref_of_lt outer (i + 1) hlt'
        obtain ⟨c', count', h₁, h₂, h₃, h₄, h₅⟩ := ih (i + 1)
          (⟨outer.get ⟨i + 1, hlt'⟩, 0⟩ : vector_iterator α) (count + 1) m (by omega)
          (by omega) (by omega)
        refine ⟨c', count', ?_, ?_, by omega, by omega, h₅⟩
        · simp [iterator_flattener.skip_loop_counted, hne, hd, hx, hin, hnx,
            range_tracker.set_to, iterator_flattener.outer, range_tracker.get, hd']
          simpa using h₁
        · simp [iterator_flattener.skip_loop, hne, hd, hx, hin, hnx, range_tracker.set_to,
            iterator_flattener.outer, range_tracker.get, hd']
          simpa using h₂
    · refine ⟨⟨⟨outer, ⟨outer, i⟩⟩, inner⟩, count, ?_, ?_, rfl, by omega, Nat.le_of_lt hlt⟩
      · simp [iterator_flattener.skip_loop_counted, hne, hd, hin]
      · simp [iterator_flattener.skip_loop, hne, hd, hin]

/-- C35: advancing a flatten cursor over a vector of vectors terminates: from every outer
position `i <= |outer|` and every inner position, the skip loop of `operator++` returns for
every iteration bound above the number `|outer| - i` of outer elements remaining; the number
of runs of its body is at most that number, each run moves the outer position by one, so the
outer position ends `count` places further and at or before the outer end. `operator++`
itself never exceeds such a bound, and returns a cursor whenever the inner position can be
incremented. -/
theorem flatten_advance_terminates (outer : List (List α)) (i : Nat)
    (inner : vector_iterator α) (fuel : Nat) (hi : i ≤ outer.length)
    (h : outer.length - i < fuel) :
    (∃ c' count, iterator_flattener.skip_loop_counted fuel
          (⟨outer, outer.length⟩ : vector_iterator (List α)) fuel
          (⟨⟨outer, ⟨outer, i⟩⟩, inner⟩ :
            iterator_flattener (List (List α)) (vector_iterator (List α)) (vector_iterator α))
          0 = .ok (c', count) ∧
        iterator_flattener.skip_loop fuel (⟨outer, outer.length⟩ : vector_iterator (List α))
          fuel
          (⟨⟨outer, ⟨outer, i⟩⟩, inner⟩ :
            iterator_flattener (List (List α)) (vector_iterator (List α)) (vector_iterator α)) =
          .ok c' ∧
        c'.tracker.current.pos = i + count ∧ count ≤ outer.length - i ∧
        c'.tracker.current.pos ≤ outer.length) ∧
      Iterator.next fuel
          (⟨⟨outer, ⟨outer, i⟩⟩, inner⟩ :
            iterator_flattener (List (List α)) (vector_iterator (List α)) (vector_iterator α)) ≠
        .error .out_of_fuel ∧
      (inner.pos < inner.data.length →
        ∃ c', Iterator.next fuel
            (⟨⟨outer, ⟨outer, i⟩⟩, inner⟩ :
              iterator_flattener (List (List α)) (vector_iterator (List α))
                (vector_iterator α)) = .ok c' ∧
          i ≤ c'.tracker.current.pos ∧ c'.tracker.current.pos ≤ outer.length) := by
  refine ⟨?_, ?_, ?_⟩
  · obtain ⟨c', count', h₁, h₂, h₃, h₄, h₅⟩ := flatten_skip_loop_counted outer fuel
      (outer.length - i) i inner 0 fuel hi rfl h
    exact ⟨c', count', h₁, h₂, by omega, by omega, h₅⟩
  · by_cases hin : inner.pos < inner.data.length
    · obtain ⟨c', count', _, h₂, _, _, _⟩ := flatten_skip_loop_counted outer fuel
        (outer.length - i) i ⟨inner.data, inner.pos + 1⟩ 0 fuel hi rfl h
      simp only [flattener_next, iterator_flattener.next, vector_next,
        vector_next_of_lt inner.data inner.pos hin, ok_bind, range_tracker.get, vector_end,
        pure_eq_ok]
      rw [h₂]
      exact fun e => Except.noConfusion e
    · simp only [flattener_next, iterator_flattener.next, vector_next, vector_iterator.next,
        hin, if_false]
      exact fun e => Fault.noConfusion (Except.error.inj e)
  · intro hin
    obtain ⟨c', count', _, h₂, h₃, _, h₅⟩ := flatten_skip_loop_counted outer fuel
      (outer.length - i) i ⟨inner.data, inner.pos + 1⟩ 0 fuel hi rfl h
    refine ⟨c', ?_, by omega, h₅⟩
    simp only [flattener_next, iterator_flattener.next, vector_next,
      vector_next_of_lt inner.data inner.pos hin, ok_bind, range_tracker.get, vector_end,
      pure_eq_ok]
    exact h₂

/-- Witness of `flatten_advance_terminates`: from the end of the first inner vector of
`[[1], [], [], [2]]` the skip loop runs three times and stops at the outer position 3. -/
theorem flatten_advance_terminates_witness :
    (0 ≤ [[1], [], [], [2]].length ∧ [[1], [], [], [2]].length - 0 < 5) ∧
      ∃ c' count, iterator_flattener.skip_loop_counted 5
          (⟨[[1], [], [], [2]], [[1], [], [], [2]].length⟩ : vector_iterator (List Nat)) 5
          (⟨⟨[[1], [], [], [2]], ⟨[[1], [], [], [2]], 0⟩⟩, ⟨[1], 1⟩⟩ :
            iterator_flattener (List (List Nat)) (vector_iterator (List Nat))
              (vector_iterator Nat)) 0 = .ok (c', count) ∧
        c'.tracker.current.pos = 0 + count :=
  ⟨⟨by decide, by decide⟩,
    (flatten_advance_terminates [[1], [], [], [2]] 0 ⟨[1], 1⟩ 5 (by decide) (by decide)).1.imp
      fun _ hc => hc.imp fun _ hl => ⟨hl.1, hl.2.2.1⟩⟩

end flatten_termination_proofs


/-! ## Tuple traits on packs -/

section tuple_trait_proofs

/-- Extending one tuple by another concatenates their packs. -/
theorem tuple_extend_pair (a b : List cpp_type) :
    tuple_traits.extend [.tuple a, .tuple b] = some (.tuple (a ++ b)) := by
  simp [tuple_traits.extend, tuple_traits.pack_of]

/-- The remove helper keeps the types different from `T`, in order. -/
theorem tuple_remove_helper_eq (T : cpp_type) :
    ∀ L : List cpp_type, tuple_traits.tuple_remove_helper T L =
      some (.tuple (L.filter (fun t => decide (t ≠ T)))) := by
  intro L
  induction L with
  | nil => rfl
  | cons Head Tail ih =>
    by_cases h : Head = T
    · simp [tuple_traits.tuple_remove_helper, ih, tuple_traits.is_same, h, tuple_extend_pair]
    · simp [tuple_traits.tuple_remove_helper, ih, tuple_traits.is_same, h, tuple_extend_pair]

/-- The trait `remove` on a tuple keeps the types different from `T`, in order. -/
theorem tuple_remove_eq (L : List cpp_type) (T : cpp_type) :
    tuple_traits.remove (.tuple L) T = some (.tuple (L.filter (fun t => decide (t ≠ T)))) := by
  simp [tuple_traits.remove, tuple_traits.pack_of, tuple_remove_helper_eq]

/-- The trait `filter` keeps the types that satisfy the predicate, in order. -/
theorem tuple_filter_eq (P : cpp_type → Bool) :
    ∀ L : List cpp_type, tuple_traits.filter L P = some (.tuple (L.filter P)) := by
  intro L
  induction L with
  | nil => rfl
  | cons Head Tail ih =>
    by_cases h : P Head = true
    · simp [tuple_traits.filter, ih, h, tuple_extend_pair]
    · simp [tuple_traits.filter, ih, h, tuple_extend_pair]

/-- The trait `contains` holds of exactly the types that occur in the pack. -/
theorem tuple_contains_iff (T : cpp_type) :
    ∀ L : List cpp_type, tuple_traits.contains L T = true ↔ T ∈ L := by
  intro L
  induction L with
  | nil => simp [tuple_traits.contains]
  | cons Head Tail ih =>
    by_cases h : Head = T
    · simp [tuple_traits.contains, tuple_traits.is_same, h]
    · have h' : ¬ T = Head := fun e => h e.symm
      simp [tuple_traits.contains, tuple_traits.is_same, h, h', ih]

end tuple_trait_proofs


section tuple_trait_claims

/-- C40: for every tuple type `L` and type `T`, `remove_t<L, T>` equals `filter_t<L, P>`
where `P` holds of exactly the types different from `T`: both are the tuple of the element
types of `L` different from `T`, in their order in `L`, so all occurrences of `T` are
deleted and `contains_v<remove_t<L, T>, T>` is false. -/
theorem remove_eq_filter (L : List cpp_type) (T : cpp_type) (P : cpp_type → Bool)
    (hP : ∀ t, P t = true ↔ t ≠ T) :
    tuple_traits.remove (.tuple L) T = tuple_traits.filter L P ∧
      tuple_traits.remove (.tuple L) T =
        some (.tuple (L.filter (fun t => decide (t ≠ T)))) ∧
      (∀ t, t ∈ L.filter (fun t => decide (t ≠ T)) ↔ t ∈ L ∧ t ≠ T) ∧
      (L.filter (fun t => decide (t ≠ T))).Sublist L ∧
      tuple_traits.contains (L.filter (fun t => decide (t ≠ T))) T = false := by
  have hPeq : P = fun t => decide (t ≠ T) := by
    funext t
    by_cases h : t = T
    · have hf : P t = false := Bool.eq_false_iff.mpr (fun hp => (hP t).mp hp h)
      rw [hf]
      simp [h]
    · have : P t = true := (hP t).mpr h
      simp [h, this]
  refine ⟨?_, tuple_remove_eq L T, ?_, List.filter_sublist L, ?_⟩
  · rw [tuple_remove_eq, tuple_filter_eq, hPeq]
  · intro t
    simp [List.mem_filter]
  · rw [Bool.eq_false_iff]
    intro hc
    have hm := (tuple_contains_iff T _).mp hc
    simp [List.mem_filter] at hm

/-- Witness of `remove_eq_filter`: removing `int` from `tuple<int, char, int>`. -/
theorem remove_eq_filter_witness :
    (∀ t, (fun t => decide (t ≠ cpp_type.named "int")) t = true ↔ t ≠ cpp_type.named "int") ∧
      tuple_traits.remove (.tuple [.named "int", .named "char", .named "int"]) (.named "int") =
        tuple_traits.filter [.named "int", .named "char", .named "int"]
          (fun t => decide (t ≠ cpp_type.named "int")) :=
  ⟨fun t => by simp,
    (remove_eq_filter [.named "int", .named "char", .named "int"] (.named "int")
      (fun t => decide (t ≠ cpp_type.named "int")) (fun t => by simp)).1⟩

/-- C38: for every tuple type `L` and predicate `P`, `none_of_v<L, P>` is the negation of
`any_of_v<L, P>`; `any_of_v<L, P>` is true iff some element type of `L` satisfies `P`;
`all_of_v<L, P>` is true iff every element type of `L` satisfies `P`; and on the empty tuple
`any_of` is false and `all_of` and `none_of` are true. -/
theorem any_none_all_of (L : List cpp_type) (P : cpp_type → Bool) :
    tuple_traits.none_of L P = !tuple_traits.any_of L P ∧
      (tuple_traits.any_of L P = true ↔ ∃ T, T ∈ L ∧ P T = true) ∧
      (tuple_traits.all_of L P = true ↔ ∀ T, T ∈ L → P T = true) ∧
      tuple_traits.any_of [] P = false ∧ tuple_traits.all_of [] P = true ∧
      tuple_traits.none_of [] P = true := by
  refine ⟨?_, ?_, ?_, rfl, rfl, rfl⟩
  · induction L with
    | nil => rfl
    | cons Head Tail ih =>
      by_cases h : P Head = true <;> simp [tuple_traits.none_of, tuple_traits.any_of, h, ih]
  · induction L with
    | nil => simp [tuple_traits.any_of]
    | cons Head Tail ih =>
      by_cases h : P Head = true
      · simp [tuple_traits.any_of, h]
      · simp [tuple_traits.any_of, h, ih]
  · induction L with
    | nil => simp [tuple_traits.all_of]
    | cons Head Tail ih =>
      by_cases h : P Head = true
      · simp [tuple_traits.all_of, h, ih]
      · simp [tuple_traits.all_of, h]

/-- The trait `subtract` keeps the types of the first tuple that do not occur in the pack of
the second, in order. -/
theorem tuple_subtract_eq :
    ∀ (B A : List cpp_type), tuple_traits.subtract (.tuple A) B =
      some (.tuple (A.filter (fun T => decide (T ∉ B)))) := by
  intro B
  induction B with
  | nil => intro A; simp [tuple_traits.subtract]
  | cons Head Tail ih =>
    intro A
    simp only [tuple_traits.subtract, tuple_remove_eq, Option.bind_eq_bind, Option.some_bind, ih,
      List.filter_filter]
    congr 2
    apply List.filter_congr
    intro t _
    simp only [List.mem_cons, not_or, decide_not, Bool.decide_and, Bool.decide_or, Bool.not_or]
    exact Bool.and_comm _ _

/-- C37: for all tuple types `A` and `B`, `subtract_t<A, B>` is `A` with every occurrence of
every type that occurs in `B` removed and the remaining types kept in their original order;
so `contains_v<subtract_t<A, B>, T>` holds iff `contains_v<A, T>` holds and
`contains_v<B, T>` does not. -/
theorem subtract_spec (A B : List cpp_type) :
    tuple_traits.subtract (.tuple A) B = some (.tuple (A.filter (fun T => decide (T ∉ B)))) ∧
      (A.filter (fun T => decide (T ∉ B))).Sublist A ∧
      ∀ T, (tuple_traits.contains (A.filter (fun T => decide (T ∉ B))) T = true ↔
        tuple_traits.contains A T = true ∧ tuple_traits.contains B T = false) := by
  refine ⟨tuple_subtract_eq B A, List.filter_sublist A, ?_⟩
  intro T
  rw [tuple_contains_iff, tuple_contains_iff, Bool.eq_false_iff, Ne, tuple_contains_iff]
  simp [List.mem_filter]

end tuple_trait_claims


section tuple_zip_proofs

/-- The trait `zip` on two packs of one size pairs their elements, in order. -/
theorem tuple_zip_eq :
    ∀ (A B : List cpp_type), A.length = B.length →
      tuple_traits.zip A B =
        some (.tuple (List.zipWith (fun a b => cpp_type.tuple [a, b]) A B)) := by
  intro A
  induction A with
  | nil =>
    intro B h
    cases B with
    | nil => rfl
    | cons b B => simp at h
  | cons a A ih =>
    intro B h
    cases B with
    | nil => simp at h
    | cons b B =>
      have h' : A.length = B.length := by simpa using h
      simp [tuple_traits.zip, h', ih B h', tuple_extend_pair]

/-- The trait `zip` has no result on two packs of different sizes. -/
theorem tuple_zip_none :
    ∀ (A B : List cpp_type), A.length ≠ B.length → tuple_traits.zip A B = none := by
  intro A B h
  cases A with
  | nil =>
    cases B with
    | nil => exact absurd rfl h
    | cons b B => rfl
  | cons a A =>
    cases B with
    | nil => rfl
    | cons b B =>
      have h' : ¬ A.length = B.length := by simpa using h
      simp [tuple_traits.zip, h']

/-- C39: for every tuple type `tuple<T0, ..., Tn-1>`, `enumerate_t` yields a tuple of the
same length `n` whose `i`-th element is the pair `tuple<integral_constant<size_t, i>, Ti>`;
and `zip_t<A, B>` is defined only for tuples of the same size, its `i`-th element being the
pair of the `i`-th elements of `A` and `B`. -/
theorem enumerate_and_zip_spec (Ts A B : List cpp_type) :
    (∃ E, tuple_traits.enumerate Ts = some (.tuple E) ∧ E.length = Ts.length ∧
        ∀ (i : Nat) (T : cpp_type), Ts[i]? = some T → E[i]? = some (cpp_type.tuple [.integral_constant i, T])) ∧
      ((tuple_traits.zip A B).isSome = true ↔ A.length = B.length) ∧
      (A.length = B.length →
        ∃ Z, tuple_traits.zip A B = some (.tuple Z) ∧ Z.length = A.length ∧
          ∀ (i : Nat) (a b : cpp_type), A[i]? = some a → B[i]? = some b → Z[i]? = some (cpp_type.tuple [a, b])) := by
  refine ⟨?_, ?_, ?_⟩
  · have hl : ((List.range Ts.length).map cpp_type.integral_constant).length = Ts.length := by
      simp
    refine ⟨List.zipWith (fun a b => cpp_type.tuple [a, b])
      ((List.range Ts.length).map cpp_type.integral_constant) Ts, ?_, ?_, ?_⟩
    · simp only [tuple_traits.enumerate, tuple_traits.detail.to_tuple,
        tuple_traits.index_sequence_for, tuple_traits.pack_of, Option.bind_eq_bind,
        Option.some_bind]
      exact tuple_zip_eq _ Ts hl
    · simp
    · intro i T hT
      have hi : i < Ts.length := by
        by_contra hge
        rw [List.getElem?_eq_none (by omega)] at hT
        exact Option.noConfusion hT
      simp [List.getElem?_zipWith, hT, List.getElem?_range hi]
  · constructor
    · intro hs
      by_contra hne
      rw [tuple_zip_none A B hne] at hs
      exact Bool.noConfusion hs
    · intro he
      rw [tuple_zip_eq A B he]
      rfl
  · intro he
    refine ⟨List.zipWith (fun a b => cpp_type.tuple [a, b]) A B, tuple_zip_eq A B he, ?_, ?_⟩
    · simp [he]
    · intro i a b ha hb
      simp [List.getElem?_zipWith, ha, hb]

/-- Witness of `enumerate_and_zip_spec`: zipping `tuple<int, char>` with
`tuple<bool, double>`. -/
theorem enumerate_and_zip_spec_witness :
    [cpp_type.named "int", cpp_type.named "char"].length =
        [cpp_type.named "bool", cpp_type.named "double"].length ∧
      ∃ Z, tuple_traits.zip [.named "int", .named "char"] [.named "bool", .named "double"] =
          some (.tuple Z) ∧ Z.length = [cpp_type.named "int", cpp_type.named "char"].length :=
  ⟨rfl,
    ((enumerate_and_zip_spec [] [.named "int", .named "char"]
      [.named "bool", .named "double"]).2.2 rfl).imp fun _ hz => ⟨hz.1, hz.2.1⟩⟩

end tuple_zip_proofs


section tuple_unique_proofs

/-- Filtering a pack keeps the order of the first occurrences of the types it keeps. -/
theorem indexOf_lt_of_filter (q : cpp_type → Bool) (a b : cpp_type) (ha : q a = true)
    (hb : q b = true) :
    ∀ L : List cpp_type, (L.filter q).indexOf a < (L.filter q).indexOf b →
      L.indexOf a < L.indexOf b := by
  intro L
  induction L with
  | nil => intro h; simp at h
  | cons t ts ih =>
    intro h
    by_cases hq : q t = true
    · rw [List.filter_cons_of_pos hq] at h
      by_cases hta : t = a
      · subst hta
        by_cases htb : t = b
        · subst htb
          simp at h
        · rw [List.indexOf_cons_self, List.indexOf_cons_ne _ htb]
          exact Nat.succ_pos _
      · by_cases htb : t = b
        · subst htb
          rw [List.indexOf_cons_self] at h
          exact absurd h (Nat.not_lt_zero _)
        · rw [List.indexOf_cons_ne _ hta, List.indexOf_cons_ne _ htb] at h ⊢
          exact Nat.succ_lt_succ (ih (Nat.lt_of_succ_lt_succ h))
    · rw [List.filter_cons_of_neg hq] at h
      have hta : t ≠ a := fun e => hq (e ▸ ha)
      have htb : t ≠ b := fun e => hq (e ▸ hb)
      rw [List.indexOf_cons_ne _ hta, List.indexOf_cons_ne _ htb]
      exact Nat.succ_lt_succ (ih h)

/-- The trait `unique` returns, within a depth above the size of the pack, a pack without
repetition that has the types of the given pack, in the order of their first occurrences. -/
theorem tuple_unique_spec :
    ∀ (n : Nat) (L : List cpp_type) (depth : Nat), L.length ≤ n → n < depth →
      ∃ U, tuple_traits.unique depth L = some (.tuple U) ∧ U.Nodup ∧
        (∀ T, T ∈ U ↔ T ∈ L) ∧ U.Pairwise (fun a b => L.indexOf a < L.indexOf b) := by
  intro n
  induction n with
  | zero =>
    intro L depth hL hd
    obtain ⟨d, rfl⟩ := Nat.exists_eq_succ_of_ne_zero (Nat.pos_iff_ne_zero.mp hd)
    have hnil : L = [] := List.eq_nil_of_length_eq_zero (Nat.le_zero.mp hL)
    subst hnil
    exact ⟨[], rfl, List.nodup_nil, fun _ => Iff.rfl, List.Pairwise.nil⟩
  | succ n ih =>
    intro L depth hL hd
    obtain ⟨d, rfl⟩ := Nat.exists_eq_succ_of_ne_zero (Nat.pos_iff_ne_zero.mp (Nat.zero_lt_of_lt hd))
    cases L with
    | nil => exact ⟨[], rfl, List.nodup_nil, fun _ => Iff.rfl, List.Pairwise.nil⟩
    | cons Head Tail =>
      have hlen : (Tail.filter (fun t => decide (t ≠ Head))).length ≤ n :=
        Nat.le_trans (List.length_filter_le _ _) (by simpa using hL)
      obtain ⟨U, hU, hnd, hmem, hpw⟩ := ih (Tail.filter (fun t => decide (t ≠ Head))) d hlen
        (by omega)
      have hne : ∀ T, T ∈ U → T ≠ Head := by
        intro T hT
        have := (hmem T).mp hT
        simp [List.mem_filter] at this
        exact this.2
      refine ⟨Head :: U, ?_, ?_, ?_, ?_⟩
      · simp only [tuple_traits.unique, tuple_remove_eq, tuple_traits.pack_of,
          Option.bind_eq_bind, Option.some_bind, hU, tuple_extend_pair, List.singleton_append]
      · exact List.nodup_cons.mpr ⟨fun hin => hne Head hin rfl, hnd⟩
      · intro T
        by_cases hT : T = Head
        · simp [hT]
        · simp [hT, hmem T, List.mem_filter]
      · refine List.pairwise_cons.mpr ⟨?_, ?_⟩
        · intro a ha
          rw [List.indexOf_cons_self, List.indexOf_cons_ne _ (fun e => hne a ha e.symm)]
          exact Nat.succ_pos _
        · refine hpw.imp_of_mem ?_
          intro a b ha hb hlt
          have hqa : (fun t => decide (t ≠ Head)) a = true := by simpa using hne a ha
          have hqb : (fun t => decide (t ≠ Head)) b = true := by simpa using hne b hb
          rw [List.indexOf_cons_ne _ (fun e => hne a ha e.symm),
            List.indexOf_cons_ne _ (fun e => hne b hb e.symm)]
          exact Nat.succ_lt_succ (indexOf_lt_of_filter _ a b hqa hqb Tail hlt)

/-- On a pack without repetition the trait `unique` returns the pack. -/
theorem tuple_unique_of_nodup :
    ∀ (U : List cpp_type) (depth : Nat), U.Nodup → U.length < depth →
      tuple_traits.unique depth U = some (.tuple U) := by
  intro U
  induction U with
  | nil =>
    intro depth _ hd
    obtain ⟨d, rfl⟩ := Nat.exists_eq_succ_of_ne_zero (Nat.pos_iff_ne_zero.mp hd)
    rfl
  | cons Head Tail ih =>
    intro depth hnd hd
    obtain ⟨d, rfl⟩ := Nat.exists_eq_succ_of_ne_zero (Nat.pos_iff_ne_zero.mp (Nat.zero_lt_of_lt hd))
    obtain ⟨hnotin, hnd'⟩ := List.nodup_cons.mp hnd
    have hf : Tail.filter (fun t => decide (t ≠ Head)) = Tail := by
      rw [List.filter_eq_self]
      intro t ht
      have : t ≠ Head := fun e => hnotin (e ▸ ht)
      simpa using this
    have hrec := ih d hnd' (by simpa using hd)
    simp only [tuple_traits.unique, tuple_remove_eq, tuple_traits.pack_of,
      Option.bind_eq_bind, Option.some_bind, hf, hrec, tuple_extend_pair, List.singleton_append]

/-- C36: for every tuple type `L`, and every instantiation depth above its size,
`unique_t<L>` is a tuple that contains each type that occurs in `L` exactly once, in order of
first occurrence in `L`; so `contains_v<unique_t<L>, T>` equals `contains_v<L, T>` for every
`T`, and `unique` is idempotent. -/
theorem unique_spec (L : List cpp_type) (depth : Nat) (h : L.length < depth) :
    ∃ U, tuple_traits.unique depth L = some (.tuple U) ∧
      (∀ T, U.count T = if T ∈ L then 1 else 0) ∧
      U.Pairwise (fun a b => L.indexOf a < L.indexOf b) ∧
      (∀ T, tuple_traits.contains U T = tuple_traits.contains L T) ∧
      tuple_traits.unique depth U = some (.tuple U) := by
  obtain ⟨U, hU, hnd, hmem, hpw⟩ := tuple_unique_spec L.length L depth (Nat.le_refl _) h
  have hlen : U.length ≤ L.length := by
    have hle : U.toFinset.card ≤ L.toFinset.card := by
      apply Finset.card_le_card
      intro T hT
      simpa [hmem T] using hT
    rw [List.toFinset_card_of_nodup hnd] at hle
    exact Nat.le_trans hle (List.toFinset_card_le L)
  refine ⟨U, hU, ?_, hpw, ?_, tuple_unique_of_nodup U depth hnd (by omega)⟩
  · intro T
    by_cases hT : T ∈ L
    · rw [if_pos hT]
      exact List.count_eq_one_of_mem hnd ((hmem T).mpr hT)
    · rw [if_neg hT]
      exact List.count_eq_zero_of_not_mem (fun hin => hT ((hmem T).mp hin))
  · intro T
    rw [Bool.eq_iff_iff, tuple_contains_iff, tuple_contains_iff]
    exact hmem T

/-- Witness of `unique_spec`: `unique_t<tuple<int, char, int>>` is `tuple<int, char>`. -/
theorem unique_spec_witness :
    [cpp_type.named "int", cpp_type.named "char", cpp_type.named "int"].length < 4 ∧
      ∃ U, tuple_traits.unique 4 [.named "int", .named "char", .named "int"] =
          some (.tuple U) ∧
        tuple_traits.unique 4 U = some (.tuple U) :=
  ⟨by decide,
    (unique_spec [.named "int", .named "char", .named "int"] 4 (by decide)).imp
      fun _ hu => ⟨hu.1, hu.2.2.2.2⟩⟩

end tuple_unique_proofs


/-! ## Views over a borrowed source -/

section borrowed_proofs

variable {α γ : Type}

/-- After the assignment `name = contents`, the named sequence holds `contents`. -/
theorem Memory.assign_same {ρ : Type} (mem : Memory ρ) (name : Nat) (contents : ρ) :
    mem.assign name contents name = contents := by
  simp [Memory.assign]

/-- Traversal of the transform view of a vector yields the images of its elements. -/
theorem elements_transform_vector (S : List α) (f : α → γ) (fuel : Nat)
    (h : S.length < fuel) :
    elements fuel (transform S f) = .ok (S.map f) := by
  have := traverse_transform f fuel S [] fuel h
  simpa [elements, transform, Sequence.begin, Sequence.end_, basic_keeper.get] using this

/-- Traversal of the filter view of a vector yields its elements that satisfy the
predicate. -/
theorem elements_filter_vector (S : List α) (p : α → Bool) (fuel : Nat)
    (h : S.length < fuel) :
    elements fuel (filter S p) = .ok (S.filter p) := by
  obtain ⟨k, rfl⟩ := Nat.exists_eq_succ_of_ne_zero (Nat.pos_iff_ne_zero.mp (Nat.zero_lt_of_lt h))
  cases S with
  | nil => simp [elements, filter, Sequence.begin, Sequence.end_, basic_keeper.get,
      iterator_filter.make, traverse]
  | cons x S =>
    simp only [List.length_cons] at h
    have h₁ := filter_loop_traverse p (k + 1) S [x] (k + 1) (k + 1) (by omega) (by omega) (by omega)
    have h₂ := filter_loop_traverse p (k + 1) S [x] (k + 1) k (by omega) (by omega) (by omega)
    simp only [List.singleton_append, List.length_singleton, List.length_cons] at h₁ h₂
    have hd := vector_deref_append [] S x
    have hn := vector_next_append [] S x
    simp only [List.nil_append, List.length_nil, Nat.zero_add] at hd hn
    by_cases hx : p x = true
    · simp [elements, filter, Sequence.begin, Sequence.end_, basic_keeper.get,
        iterator_filter.make, traverse, iterator_filter.next, hd, hn, hx]
      exact bind_cons_of_bind h₂ x
    · simp [elements, filter, Sequence.begin, Sequence.end_, basic_keeper.get,
        iterator_filter.make, iterator_filter.next, hd, hn, hx]
      exact h₁

/-- C17: views are lazy over a borrowed source: a transform, filter or slice view built over
a reference to a named vector keeps only that reference; when the named vector is assigned
new contents `S'` before any iteration, whatever it held when the view was built, traversing
the view yields what a view built with the same parameters directly over `S'` yields; and
for every iteration bound above the length of `S'` that is the images of the elements of
`S'`, the elements of `S'` that satisfy the predicate, and (for `unsigned int` bounds
`from <= until`) the elements of `S'` from position `from` up to `until`. -/
theorem borrowed_views_read_source_at_traversal (mem : Memory (List α))
    (r : reference (List α)) (S' : List α) (f : α → γ) (p : α → Bool) (from_ until_ : Nat)
    (fuel : Nat) :
    ((letI borrowed : Sequence (reference (List α)) (vector_iterator α) :=
          reference.sequence (mem.assign r.name S');
        elements fuel (transform r f)) = elements fuel (transform S' f) ∧
      (letI borrowed : Sequence (reference (List α)) (vector_iterator α) :=
          reference.sequence (mem.assign r.name S');
        elements fuel (filter r p)) = elements fuel (filter S' p) ∧
      (letI borrowed : Sequence (reference (List α)) (vector_iterator α) :=
          reference.sequence (mem.assign r.name S');
        slice r from_ until_ >>= elements fuel) = (slice S' from_ until_ >>= elements fuel)) ∧
    (S'.length < fuel →
      (letI borrowed : Sequence (reference (List α)) (vector_iterator α) :=
          reference.sequence (mem.assign r.name S');
        elements fuel (transform r f)) = .ok (S'.map f) ∧
      (letI borrowed : Sequence (reference (List α)) (vector_iterator α) :=
          reference.sequence (mem.assign r.name S');
        elements fuel (filter r p)) = .ok (S'.filter p) ∧
      (from_ < 2 ^ unsigned_bits → until_ < 2 ^ unsigned_bits → from_ ≤ until_ →
        (letI borrowed : Sequence (reference (List α)) (vector_iterator α) :=
            reference.sequence (mem.assign r.name S');
          slice r from_ until_ >>= elements fuel) =
          .ok ((S'.drop from_).take (until_ - from_)))) := by
  have e := Memory.assign_same mem r.name S'
  have h₁ : (letI borrowed : Sequence (reference (List α)) (vector_iterator α) :=
        reference.sequence (mem.assign r.name S');
      elements fuel (transform r f)) = elements fuel (transform S' f) := by
    simp only [elements, Sequence.begin, Sequence.end_, reference.sequence, transform,
      basic_keeper.get, e]
  have h₂ : (letI borrowed : Sequence (reference (List α)) (vector_iterator α) :=
        reference.sequence (mem.assign r.name S');
      elements fuel (filter r p)) = elements fuel (filter S' p) := by
    simp only [elements, Sequence.begin, Sequence.end_, reference.sequence, filter,
      basic_keeper.get, e]
  have h₃ : (letI borrowed : Sequence (reference (List α)) (vector_iterator α) :=
        reference.sequence (mem.assign r.name S');
      slice r from_ until_ >>= elements fuel) = (slice S' from_ until_ >>= elements fuel) := by
    by_cases hfu : (((from_ % 2 ^ unsigned_bits : Nat) : Int) >
        ((until_ % 2 ^ unsigned_bits : Nat) : Int))
    · simp only [slice, range_view_slice.make, hfu, if_true]
      rfl
    · simp only [slice, range_view_slice.make, hfu, if_false, ok_bind, elements, Sequence.begin,
        Sequence.end_, reference.sequence, basic_keeper.get, e, range_view_slice.bounded,
        range_view_slice.get_range_size]
  refine ⟨⟨h₁, h₂, h₃⟩, ?_⟩
  intro h
  refine ⟨?_, ?_, ?_⟩
  · rw [h₁]
    exact elements_transform_vector S' f fuel h
  · rw [h₂]
    exact elements_filter_vector S' p fuel h
  · intro hf hu hfu
    rw [h₃, slice_ok S' from_ until_ hf hu hfu, ok_bind]
    exact elements_range_view_slice S' from_ until_ fuel hfu h

/-- Witness of `borrowed_views_read_source_at_traversal`: the named vector held `[1, 2, 3]`
when the views were built and is assigned `[10, 20, 30, 40]` before the traversal. -/
theorem borrowed_views_read_source_at_traversal_witness :
    ([10, 20, 30, 40].length < 5 ∧ 1 < 2 ^ unsigned_bits ∧ 3 < 2 ^ unsigned_bits ∧ 1 ≤ 3) ∧
      (letI borrowed : Sequence (reference (List Nat)) (vector_iterator Nat) :=
          reference.sequence (Memory.assign (fun _ => [1, 2, 3]) 0 [10, 20, 30, 40]);
        elements 5 (transform (⟨0⟩ : reference (List Nat)) (fun n : Nat => n + 1))) =
        .ok ([10, 20, 30, 40].map (fun n : Nat => n + 1)) ∧
      (letI borrowed : Sequence (reference (List Nat)) (vector_iterator Nat) :=
          reference.sequence (Memory.assign (fun _ => [1, 2, 3]) 0 [10, 20, 30, 40]);
        slice (⟨0⟩ : reference (List Nat)) 1 3 >>= elements 5) =
        .ok (([10, 20, 30, 40].drop 1).take (3 - 1)) :=
  ⟨⟨by decide, by decide, by decide, by decide⟩,
    ((borrowed_views_read_source_at_traversal (fun _ => [1, 2, 3]) ⟨0⟩ [10, 20, 30, 40]
      (fun n : Nat => n + 1) (fun _ => true) 1 3 5).2 (by decide)).1,
    ((borrowed_views_read_source_at_traversal (fun _ => [1, 2, 3]) ⟨0⟩ [10, 20, 30, 40]
      (fun n : Nat => n + 1) (fun _ => true) 1 3 5).2 (by decide)).2.2 (by decide) (by decide)
      (by decide)⟩

end borrowed_proofs


/-! ## Ownership category of a view -/

section category_proofs

variable {α γ : Type}

/-- The calls `begin()` and `end()` of a transform view and its traversal go through the
accessor of the Keeper it holds. -/
theorem kept_transform_view (store : Store (List α)) (k : stored (List α)) (fn : α → γ)
    (fuel : Nat) :
    (letI kept : Sequence (stored (List α)) (vector_iterator α) := stored.sequence store;
        Sequence.begin fuel (⟨⟨k⟩, fn⟩ : range_view (stored (List α)) α γ)) =
        .ok (⟨⟨k.get store, 0⟩, fn⟩ : iterator_adaptor (vector_iterator α) α γ) ∧
      (letI kept : Sequence (stored (List α)) (vector_iterator α) := stored.sequence store;
        Sequence.end_ fuel (⟨⟨k⟩, fn⟩ : range_view (stored (List α)) α γ)) =
        .ok (⟨⟨k.get store, (k.get store).length⟩, fn⟩ :
          iterator_adaptor (vector_iterator α) α γ) ∧
      ((k.get store).length < fuel →
        (letI kept : Sequence (stored (List α)) (vector_iterator α) := stored.sequence store;
          elements fuel (⟨⟨k⟩, fn⟩ : range_view (stored (List α)) α γ)) =
          .ok ((k.get store).map fn)) := by
  refine ⟨rfl, rfl, ?_⟩
  intro h
  have e : (letI kept : Sequence (stored (List α)) (vector_iterator α) :=
        stored.sequence store;
      elements fuel (⟨⟨k⟩, fn⟩ : range_view (stored (List α)) α γ)) =
      elements fuel (transform (k.get store) fn) := by
    simp only [elements, Sequence.begin, Sequence.end_, stored.sequence, transform,
      basic_keeper.get]
  rw [e]
  exact elements_transform_vector (k.get store) fn fuel h

/-- The traversal of a filter view goes through the accessor of the Keeper it holds. -/
theorem kept_filter_view (store : Store (List α)) (k : stored (List α)) (pred : α → Bool)
    (fuel : Nat) (h : (k.get store).length < fuel) :
    (letI kept : Sequence (stored (List α)) (vector_iterator α) := stored.sequence store;
      elements fuel (⟨⟨k⟩, pred⟩ : range_view_filter (stored (List α)) α)) =
      .ok ((k.get store).filter pred) := by
  have e : (letI kept : Sequence (stored (List α)) (vector_iterator α) :=
        stored.sequence store;
      elements fuel (⟨⟨k⟩, pred⟩ : range_view_filter (stored (List α)) α)) =
      elements fuel (filter (k.get store) pred) := by
    simp only [elements, Sequence.begin, Sequence.end_, stored.sequence, filter,
      basic_keeper.get]
  rw [e]
  exact elements_filter_vector (k.get store) pred fuel h

/-- C22: the ownership category of a view is a function only of the form in which the
source was passed to the entry point: for every argument (a temporary, a named vector passed
by reference, a shared handle) `transform` and `filter` return a view whose category is the
one of the form of the argument and whose Keeper stores under that category, and every
argument of the same form, whatever its contents, gives the same category. The category is
fixed when the view is constructed: at every later call of `begin()` and `end()`, whatever
the caller's variables hold then, the view reads the vector that its category designates
(the moved-in value for `Owning`, the current contents of the named vector for `Borrowing`,
the vector behind the handle for `Sharing`), and traversing it yields the images, or the
matching elements, of that vector. -/
theorem view_category_fixed_by_passing_form (range : argument (List α)) (fn : α → γ)
    (pred : α → Bool) :
    ∃ v w, transform_as range fn = some v ∧ filter_as range pred = some w ∧
      v.category = ownership_category_t range.orig_type ∧ w.category = v.category ∧
      v.view.orig_range.kept.category = v.category ∧
      w.view.orig_range.kept.category = w.category ∧
      (∀ (range' : argument (List α)) (fn' : α → γ), range'.orig_type = range.orig_type →
        ∃ v', transform_as range' fn' = some v' ∧ v'.category = v.category) ∧
      ∀ (store : Store (List α)) (fuel : Nat), ∃ L : List α,
        (v.category = .owning → range = .temporary L) ∧
        (v.category = .borrowing → ∃ r, range = .named r ∧ L = store.named r.name) ∧
        (v.category = .sharing → ∃ handle, range = .shared handle ∧ L = store.shared handle) ∧
        (letI kept : Sequence (stored (List α)) (vector_iterator α) := stored.sequence store;
          Sequence.begin fuel v.view) =
          .ok (⟨⟨L, 0⟩, fn⟩ : iterator_adaptor (vector_iterator α) α γ) ∧
        (letI kept : Sequence (stored (List α)) (vector_iterator α) := stored.sequence store;
          Sequence.end_ fuel v.view) =
          .ok (⟨⟨L, L.length⟩, fn⟩ : iterator_adaptor (vector_iterator α) α γ) ∧
        (L.length < fuel →
          (letI kept : Sequence (stored (List α)) (vector_iterator α) :=
              stored.sequence store;
            elements fuel v.view) = .ok (L.map fn) ∧
          (letI kept : Sequence (stored (List α)) (vector_iterator α) :=
              stored.sequence store;
            elements fuel w.view) = .ok (L.filter pred)) := by
  cases range with
  | temporary S =>
    refine ⟨⟨.owning, ⟨⟨.moved_in S⟩, fn⟩⟩, ⟨.owning, ⟨⟨.moved_in S⟩, pred⟩⟩, rfl, rfl, rfl, rfl,
      rfl, rfl, ?_, ?_⟩
    · intro range' fn' hform
      cases range' with
      | temporary S' => exact ⟨_, rfl, rfl⟩
      | named r' => exact (by cases hform)
      | shared h' => exact (by cases hform)
    · intro store fuel
      obtain ⟨hb, he, ht⟩ := kept_transform_view store (.moved_in S) fn fuel
      exact ⟨S, fun _ => rfl, fun hc => (by cases hc), fun hc => (by cases hc),
        hb, he, fun hl => ⟨ht hl, kept_filter_view store (.moved_in S) pred fuel hl⟩⟩
  | named r =>
    refine ⟨⟨.borrowing, ⟨⟨.reference r⟩, fn⟩⟩, ⟨.borrowing, ⟨⟨.reference r⟩, pred⟩⟩, rfl, rfl,
      rfl, rfl, rfl, rfl, ?_, ?_⟩
    · intro range' fn' hform
      cases range' with
      | temporary S' => exact (by cases hform)
      | named r' => exact ⟨_, rfl, rfl⟩
      | shared h' => exact (by cases hform)
    · intro store fuel
      obtain ⟨hb, he, ht⟩ := kept_transform_view store (.reference r) fn fuel
      exact ⟨store.named r.name, fun hc => (by cases hc), fun _ => ⟨r, rfl, rfl⟩,
        fun hc => (by cases hc), hb, he,
        fun hl => ⟨ht hl, kept_filter_view store (.reference r) pred fuel hl⟩⟩
  | shared handle =>
    refine ⟨⟨.sharing, ⟨⟨.shared_handle handle⟩, fn⟩⟩,
      ⟨.sharing, ⟨⟨.shared_handle handle⟩, pred⟩⟩, rfl, rfl, rfl, rfl, rfl, rfl, ?_, ?_⟩
    · intro range' fn' hform
      cases range' with
      | temporary S' => exact (by cases hform)
      | named r' => exact (by cases hform)
      | shared h' => exact ⟨_, rfl, rfl⟩
    · intro store fuel
      obtain ⟨hb, he, ht⟩ := kept_transform_view store (.shared_handle handle) fn fuel
      exact ⟨store.shared handle, fun hc => (by cases hc),
        fun hc => (by cases hc), fun _ => ⟨handle, rfl, rfl⟩, hb, he,
        fun hl => ⟨ht hl, kept_filter_view store (.shared_handle handle) pred fuel hl⟩⟩

/-- Witness of `view_category_fixed_by_passing_form`: a view over the named vector 0 is
`Borrowing`. -/
theorem view_category_fixed_by_passing_form_witness :
    ∃ v w, transform_as (.named ⟨0⟩ : argument (List Nat)) (fun n : Nat => n + 1) = some v ∧
      filter_as (.named ⟨0⟩ : argument (List Nat)) (fun n : Nat => n % 2 == 0) = some w ∧
      v.category = .borrowing :=
  (view_category_fixed_by_passing_form (.named ⟨0⟩ : argument (List Nat))
    (fun n : Nat => n + 1) (fun n : Nat => n % 2 == 0)).imp
      fun _ hv => hv.imp fun _ hw => ⟨hw.1, hw.2.1, hw.2.2.1⟩

end category_proofs

end ezy
